import Mathlib

/-!
Verification development for the file-based AI-employee task system
(orchestrator / reasoning loop / skill dispatcher / audit logger).

Strings are modelled as `List Char`.  Python machine integers are exact
(`Int`/`Nat`), matching Python's arbitrary-precision `int`.  JSON numbers are
modelled as integers (floating-point literals are out of scope and are
treated as parse failures, noted at each definition concerned).
-/

set_option maxHeartbeats 4000000
set_option maxRecDepth 100000

/-- Shorthand: the character list of a string literal. -/
def chars (s : String) : List Char := s.data

/-- Left brace character, `\x7b`. -/
def lbChar : Char := Char.ofNat 123

/-- Right brace character, `\x7d`. -/
def rbChar : Char := Char.ofNat 125

/-- Single-quote (apostrophe) character. -/
def sqChar : Char := Char.ofNat 39

/-- ASCII whitespace as recognised by Python `str.strip` / `re` `\s`
(space, tab, newline, carriage return, vertical tab, form feed). -/
def isPySpace (c : Char) : Bool :=
  c == ' ' || c == '\t' || c == '\n' || c == '\r' || c.toNat == 11 || c.toNat == 12

/-- Python `str.strip()`: drop leading and trailing whitespace. -/
def pyStrip (s : List Char) : List Char :=
  ((s.dropWhile isPySpace).reverse.dropWhile isPySpace).reverse

/-- The decimal digit character for `n % 10`. -/
def digitChar (n : Nat) : Char := Char.ofNat (48 + n % 10)

/-- Decimal digits of a natural number, most significant first
(fuel-based so that it evaluates by kernel reduction). -/
def natToDigitsAux : Nat → Nat → List Char
  | 0, _ => []
  | fuel + 1, n =>
    if n < 10 then [digitChar n]
    else natToDigitsAux fuel (n / 10) ++ [digitChar (n % 10)]

/-- Decimal representation of a natural number. -/
def natToDigits (n : Nat) : List Char := natToDigitsAux (n + 1) n

/-- Numeric value of a digit string (assuming all characters are digits). -/
def digitsToNat (ds : List Char) : Nat :=
  ds.foldl (fun a c => a * 10 + (c.toNat - 48)) 0

/-- Python `str(n)` for an integer `n`. -/
def intToChars (n : Int) : List Char :=
  if n < 0 then '-' :: natToDigits n.natAbs else natToDigits n.toNat

/-- One group of a Python integer literal: nonempty, all digits. -/
def digitGroupOk (g : List Char) : Bool := !g.isEmpty && g.all Char.isDigit

/-- `str.split("_")`: split on every underscore (empty parts kept). -/
def splitUnderscore : List Char → List (List Char)
  | [] => [[]]
  | c :: rest =>
    match splitUnderscore rest with
    | [] => [[]]
    | g :: gs => if c = '_' then [] :: g :: gs else (c :: g) :: gs

/-- The digit part of Python `int(s)`: digit groups separated by single
underscores (PEP 515). -/
def pyIntCore (u : List Char) : Option Nat :=
  let gs := splitUnderscore u
  if gs.all digitGroupOk then some (digitsToNat gs.flatten) else none

/-- Python `int(s)` for a decimal string: optional surrounding whitespace,
optional sign, then digit groups separated by single underscores.
Returns `none` where Python raises `ValueError`. -/
def pyIntParse (s : List Char) : Option Int :=
  match pyStrip s with
  | [] => none
  | c :: rest =>
    if c = '-' then (pyIntCore rest).map (fun n => -(n : Int))
    else if c = '+' then (pyIntCore rest).map (fun n => (n : Int))
    else (pyIntCore (c :: rest)).map (fun n => (n : Int))

/-- `occAt pat s p`: the pattern occurs in `s` starting at position `p`. -/
def occAt (pat s : List Char) (p : Nat) : Bool := pat.isPrefixOf (s.drop p)

/-- All positions (in increasing order) at which `pat` occurs in `s`. -/
def occPositions (pat s : List Char) : List Nat :=
  (List.range (s.length + 1)).filter (occAt pat s)

/-- Position of the first occurrence of `pat` in `s`, if any. -/
def firstOcc (pat s : List Char) : Option Nat := (occPositions pat s).head?

/-- Position of the last occurrence of `pat` in `s`, if any. -/
def lastOcc (pat s : List Char) : Option Nat := (occPositions pat s).getLast?

/-- Python `pat in s` (substring containment). -/
def hasInfixB (pat s : List Char) : Bool := !(occPositions pat s).isEmpty

/-- Python `s.replace(pat, rep)` (all non-overlapping occurrences,
left to right); fuel-based for kernel reduction. `pat` must be nonempty. -/
def replaceAllAux (pat rep : List Char) : Nat → List Char → List Char
  | 0, s => s
  | fuel + 1, s =>
    if pat.isPrefixOf s then rep ++ replaceAllAux pat rep fuel (s.drop pat.length)
    else
      match s with
      | [] => []
      | c :: rest => c :: replaceAllAux pat rep fuel rest

/-- Python `s.replace(pat, rep)`. -/
def replaceAll (s pat rep : List Char) : List Char :=
  replaceAllAux pat rep (s.length + 1) s

/-- No occurrence of `pat` anywhere in `s`. -/
def NoOcc (pat s : List Char) : Prop := ∀ p, occAt pat s p = false

/-- No occurrence of `pat` in `s` starting before position `m`. -/
def NoOccBefore (m : Nat) (pat s : List Char) : Prop :=
  ∀ p, p < m → occAt pat s p = false

/-! ## JSON values

Model of the Python/JSON data exchanged with skills.  Numbers are integers
(floating-point is out of scope); object member lists keep insertion order,
and key lookup takes the last binding, matching Python dict construction
semantics where later duplicate keys win. -/

inductive Json where
  | null
  | bool (b : Bool)
  | num (n : Int)
  | str (s : List Char)
  | arr (xs : List Json)
  | obj (kvs : List (List Char × Json))

/-- Last-binding lookup in an object member list (Python dict semantics). -/
def lookupLast (kvs : List (List Char × Json)) (k : List Char) : Option Json :=
  (kvs.reverse.find? (fun p => p.1 == k)).map (·.2)

/-- `d.get(k)` on a JSON object; `none` when the key is absent
(and for non-objects, where Python would raise). -/
def jGet (v : Json) (k : List Char) : Option Json :=
  match v with
  | .obj kvs => lookupLast kvs k
  | _ => none

/-- Python truthiness of an optional JSON value (`None` and absent are falsy). -/
def pyTruthy : Option Json → Bool
  | none => false
  | some .null => false
  | some (.bool b) => b
  | some (.num n) => n != 0
  | some (.str s) => !s.isEmpty
  | some (.arr xs) => !xs.isEmpty
  | some (.obj kvs) => !kvs.isEmpty

/-- Lower-case hexadecimal digit character. -/
def hexDigitCh (n : Nat) : Char :=
  if n < 10 then Char.ofNat (48 + n) else Char.ofNat (87 + n)

/-- Four lower-case hex digits of `v` (`v < 0x10000`). -/
def toHex4 (v : Nat) : List Char :=
  [hexDigitCh (v / 4096 % 16), hexDigitCh (v / 256 % 16),
   hexDigitCh (v / 16 % 16), hexDigitCh (v % 16)]

/-- `\uXXXX` escape of a code point, using a surrogate pair above `0xFFFF`,
as `json.dumps` does with `ensure_ascii=True`. -/
def uEscape (v : Nat) : List Char :=
  if v < 65536 then '\\' :: 'u' :: toHex4 v
  else
    let w := v - 65536
    ('\\' :: 'u' :: toHex4 (55296 + w / 1024)) ++ ('\\' :: 'u' :: toHex4 (56320 + w % 1024))

/-- `json.dumps` escaping of one character (`ensure_ascii=True`):
short escapes for quote, backslash and common controls, `\uXXXX` for other
controls and all non-ASCII. -/
def escapeChar (c : Char) : List Char :=
  if c = '"' then ['\\', '"']
  else if c = '\\' then ['\\', '\\']
  else if c = '\n' then ['\\', 'n']
  else if c = '\t' then ['\\', 't']
  else if c = '\r' then ['\\', 'r']
  else if c.toNat = 8 then ['\\', 'b']
  else if c.toNat = 12 then ['\\', 'f']
  else if c.toNat < 32 ∨ 127 ≤ c.toNat then uEscape c.toNat
  else [c]

/-- `json.dumps` escaping of a string body. -/
def escapeStr (s : List Char) : List Char :=
  s.foldr (fun c acc => escapeChar c ++ acc) []

mutual
/-- `json.dumps(v)` — compact form, default separators `", "` and `": "`. -/
def dumps : Json → List Char
  | .null => chars "null"
  | .bool true => chars "true"
  | .bool false => chars "false"
  | .num n => intToChars n
  | .str s => '"' :: (escapeStr s ++ ['"'])
  | .arr xs => '[' :: (dumpsItems xs ++ [']'])
  | .obj kvs => lbChar :: (dumpsMembers kvs ++ [rbChar])

/-- Array items of compact `json.dumps`, `", "`-separated. -/
def dumpsItems : List Json → List Char
  | [] => []
  | [x] => dumps x
  | x :: y :: xs => dumps x ++ ',' :: ' ' :: dumpsItems (y :: xs)

/-- Object members of compact `json.dumps`, `", "`-separated, `": "` keys. -/
def dumpsMembers : List (List Char × Json) → List Char
  | [] => []
  | [(k, v)] => '"' :: escapeStr k ++ '"' :: ':' :: ' ' :: dumps v
  | (k, v) :: m :: kvs =>
    '"' :: escapeStr k ++ '"' :: ':' :: ' ' :: dumps v ++ ',' :: ' ' :: dumpsMembers (m :: kvs)
end

/-- `n` spaces. -/
def spaces (n : Nat) : List Char := List.replicate n ' '

mutual
/-- `json.dumps(v, indent=2)` at current indentation width `d`
(item separator `","` + newline, key separator `": "`, as Python uses
when an indent is given). -/
def dumpsInd : Nat → Json → List Char
  | _, .null => chars "null"
  | _, .bool true => chars "true"
  | _, .bool false => chars "false"
  | _, .num n => intToChars n
  | _, .str s => '"' :: (escapeStr s ++ ['"'])
  | _, .arr [] => chars "[]"
  | d, .arr (x :: xs) =>
    '[' :: '\n' :: (dumpsIndItems (d + 2) (x :: xs) ++ '\n' :: spaces d ++ [']'])
  | _, .obj [] => [lbChar, rbChar]
  | d, .obj (m :: kvs) =>
    lbChar :: '\n' :: (dumpsIndMembers (d + 2) (m :: kvs) ++ '\n' :: spaces d ++ [rbChar])

/-- Indented array items. -/
def dumpsIndItems : Nat → List Json → List Char
  | _, [] => []
  | d, [x] => spaces d ++ dumpsInd d x
  | d, x :: y :: xs => spaces d ++ dumpsInd d x ++ ',' :: '\n' :: dumpsIndItems d (y :: xs)

/-- Indented object members. -/
def dumpsIndMembers : Nat → List (List Char × Json) → List Char
  | _, [] => []
  | d, [(k, v)] => spaces d ++ '"' :: escapeStr k ++ '"' :: ':' :: ' ' :: dumpsInd d v
  | d, (k, v) :: m :: kvs =>
    spaces d ++ '"' :: escapeStr k ++ '"' :: ':' :: ' ' :: dumpsInd d v
      ++ ',' :: '\n' :: dumpsIndMembers d (m :: kvs)
end

/-- `json.dumps(v, indent=2)`. -/
def dumpsIndent2 (v : Json) : List Char := dumpsInd 0 v

/-! ## JSON parsing (`json.loads`)

Strict-JSON parser modelling Python `json.loads` on the fragment used by the
system: integers only (a numeric literal continuing with `.`/`e`/`E` is a
float and is treated as a parse failure — out of model scope), lone
surrogate escapes rejected.  Fuel-based so every function evaluates by
kernel reduction; the fuel chosen in `jsonLoads` is always sufficient. -/

/-- JSON whitespace. -/
def jsonWS (c : Char) : Bool := c == ' ' || c == '\t' || c == '\n' || c == '\r'

/-- Skip JSON whitespace. -/
def skipWS (s : List Char) : List Char := s.dropWhile jsonWS

/-- Value of one hexadecimal digit. -/
def fromHexDigit (c : Char) : Option Nat :=
  if 48 ≤ c.toNat ∧ c.toNat ≤ 57 then some (c.toNat - 48)
  else if 97 ≤ c.toNat ∧ c.toNat ≤ 102 then some (c.toNat - 87)
  else if 65 ≤ c.toNat ∧ c.toNat ≤ 70 then some (c.toNat - 55)
  else none

/-- Parse four hex digits. -/
def parseHex4 : List Char → Option (Nat × List Char)
  | c1 :: c2 :: c3 :: c4 :: rest =>
    match fromHexDigit c1, fromHexDigit c2, fromHexDigit c3, fromHexDigit c4 with
    | some h1, some h2, some h3, some h4 => some (((h1 * 16 + h2) * 16 + h3) * 16 + h4, rest)
    | _, _, _, _ => none
  | _ => none

/-- Parse a JSON string body after the opening quote, decoding escapes and
combining surrogate pairs; returns the decoded characters and the input
after the closing quote. -/
def parseStrBody : Nat → List Char → Option (List Char × List Char)
  | 0, _ => none
  | _, [] => none
  | fuel + 1, c :: rest =>
    if c = '"' then some ([], rest)
    else if c = '\\' then
      match rest with
      | [] => none
      | e :: rest2 =>
        if e = 'u' then
          match parseHex4 rest2 with
          | none => none
          | some (w, rest3) =>
            if 55296 ≤ w ∧ w < 56320 then
              match rest3 with
              | '\\' :: 'u' :: rest4 =>
                match parseHex4 rest4 with
                | some (w2, rest5) =>
                  if 56320 ≤ w2 ∧ w2 < 57344 then
                    match parseStrBody fuel rest5 with
                    | some (cs, r) =>
                      some (Char.ofNat (65536 + (w - 55296) * 1024 + (w2 - 56320)) :: cs, r)
                    | none => none
                  else none
                | none => none
              | _ => none
            else if 56320 ≤ w ∧ w < 57344 then none
            else
              match parseStrBody fuel rest3 with
              | some (cs, r) => some (Char.ofNat w :: cs, r)
              | none => none
        else
          match
            (if e = '"' then some '"'
             else if e = '\\' then some '\\'
             else if e = '/' then some '/'
             else if e = 'b' then some (Char.ofNat 8)
             else if e = 'f' then some (Char.ofNat 12)
             else if e = 'n' then some '\n'
             else if e = 'r' then some '\r'
             else if e = 't' then some '\t'
             else none) with
          | some d =>
            match parseStrBody fuel rest2 with
            | some (cs, r) => some (d :: cs, r)
            | none => none
          | none => none
    else if c.toNat < 32 then none
    else
      match parseStrBody fuel rest with
      | some (cs, r) => some (c :: cs, r)
      | none => none

/-- Parse an unsigned JSON integer: nonempty digits, no leading zero
(unless the number is exactly `0`), not continued by a float marker. -/
def parseNumNat (s : List Char) : Option (Nat × List Char) :=
  let ds := s.takeWhile Char.isDigit
  let r := s.dropWhile Char.isDigit
  if ds.isEmpty then none
  else if 1 < ds.length ∧ ds.head? = some '0' then none
  else
    match r with
    | c :: _ => if c = '.' ∨ c = 'e' ∨ c = 'E' then none else some (digitsToNat ds, r)
    | [] => some (digitsToNat ds, [])

/-- Parse a JSON integer (optional minus sign). -/
def parseNum (s : List Char) : Option (Int × List Char) :=
  match s with
  | [] => none
  | c :: r =>
    if c = '-' then
      match parseNumNat r with
      | some (m, r2) => some (-(m : Int), r2)
      | none => none
    else
      match parseNumNat (c :: r) with
      | some (m, r2) => some ((m : Int), r2)
      | none => none

mutual
/-- Parse one JSON value (leading whitespace allowed). -/
def parseVal : Nat → List Char → Option (Json × List Char)
  | 0, _ => none
  | fuel + 1, s0 =>
    match skipWS s0 with
    | [] => none
    | c :: rest =>
      if c = '"' then
        match parseStrBody fuel rest with
        | some (cs, r) => some (.str cs, r)
        | none => none
      else if c = '[' then
        match skipWS rest with
        | [] => none
        | c2 :: r2 =>
          if c2 = ']' then some (.arr [], r2)
          else
            match parseItems fuel (c2 :: r2) with
            | some (xs, r) => some (.arr xs, r)
            | none => none
      else if c = lbChar then
        match skipWS rest with
        | [] => none
        | c2 :: r2 =>
          if c2 = rbChar then some (.obj [], r2)
          else
            match parseMembers fuel (c2 :: r2) with
            | some (kvs, r) => some (.obj kvs, r)
            | none => none
      else if c = 't' then
        if (chars "rue").isPrefixOf rest then some (.bool true, rest.drop 3) else none
      else if c = 'f' then
        if (chars "alse").isPrefixOf rest then some (.bool false, rest.drop 4) else none
      else if c = 'n' then
        if (chars "ull").isPrefixOf rest then some (.null, rest.drop 3) else none
      else
        match parseNum (c :: rest) with
        | some (m, r) => some (.num m, r)
        | none => none

/-- Parse one or more array items, consuming the closing bracket. -/
def parseItems : Nat → List Char → Option (List Json × List Char)
  | 0, _ => none
  | fuel + 1, s =>
    match parseVal fuel s with
    | none => none
    | some (v, r) =>
      match skipWS r with
      | ',' :: r2 =>
        match parseItems fuel r2 with
        | some (vs, r3) => some (v :: vs, r3)
        | none => none
      | ']' :: r2 => some ([v], r2)
      | _ => none

/-- Parse one or more object members, consuming the closing brace. -/
def parseMembers : Nat → List Char → Option (List (List Char × Json) × List Char)
  | 0, _ => none
  | fuel + 1, s =>
    match skipWS s with
    | '"' :: r =>
      match parseStrBody fuel r with
      | none => none
      | some (k, r1) =>
        match skipWS r1 with
        | ':' :: r2 =>
          match parseVal fuel r2 with
          | none => none
          | some (v, r3) =>
            match skipWS r3 with
            | ',' :: r4 =>
              match parseMembers fuel r4 with
              | some (kvs, r5) => some ((k, v) :: kvs, r5)
              | none => none
            | c :: r4 => if c = rbChar then some ([(k, v)], r4) else none
            | [] => none
        | _ => none
    | _ => none
end

/-- `json.loads(s)`: parse a single JSON document; trailing content other
than whitespace is an error. -/
def jsonLoads (s : List Char) : Option Json :=
  match parseVal (2 * s.length + 4) s with
  | some (v, rest) => if (skipWS rest).isEmpty then some v else none
  | none => none

/-- A continuation after which a serialized number is self-delimiting:
its first character neither extends the digit run nor turns it into a
float literal. -/
def numSafeB : List Char → Bool
  | [] => true
  | c :: _ => !(c.isDigit || c = '.' || c = 'e' || c = 'E')

mutual
/-- Parser-fuel measure of a JSON value: an upper bound on the recursion
depth `parseVal` needs to read back `dumps v`. -/
def weight : Json → Nat
  | .null => 2
  | .bool _ => 2
  | .num _ => 2
  | .str s => s.length + 2
  | .arr [] => 2
  | .arr (x :: xs) => weightItems (x :: xs) + 2
  | .obj [] => 2
  | .obj (m :: kvs) => weightMembers (m :: kvs) + 2

/-- Fuel measure for a nonempty item list. -/
def weightItems : List Json → Nat
  | [] => 1
  | [x] => weight x + 1
  | x :: y :: xs => weight x + 1 + weightItems (y :: xs)

/-- Fuel measure for a nonempty member list. -/
def weightMembers : List (List Char × Json) → Nat
  | [] => 1
  | [(k, v)] => k.length + weight v + 2
  | (k, v) :: m :: kvs => k.length + weight v + 2 + weightMembers (m :: kvs)
end

/-! ## Approval-artifact embedded metadata (ralph_loop marker format)

The cloud draft gate embeds `platinum:tool`/`platinum:inputs` HTML-comment
markers in the approval details; `_execute_send_approval` re-extracts them
with `re.search(r"<!-- platinum:tool:(\S+) -->")` and
`re.search(r"<!-- platinum:inputs:(.+?) -->")` and `json.loads`. -/

/-- Literal prefix of the tool marker. -/
def toolLit : List Char := chars "<!-- platinum:tool:"

/-- Literal prefix of the inputs marker. -/
def inputsLit : List Char := chars "<!-- platinum:inputs:"

/-- Literal closing of both markers. -/
def arrowEnd : List Char := chars " -->"

/-- Attempt the tail of the tool pattern at one occurrence of `toolLit`:
`(\S+)` takes the maximal nonempty run of non-whitespace and must be
followed immediately by `" -->"` (no shorter backtrack can succeed because
any shorter capture is followed by a non-space character). -/
def capToolAt (s : List Char) : Option (List Char) :=
  let run := s.takeWhile (fun c => !isPySpace c)
  if run.isEmpty then none
  else if arrowEnd.isPrefixOf (s.drop run.length) then some run else none

/-- Attempt the tail of the inputs pattern at one occurrence of
`inputsLit`: `(.+?)` is the shortest nonempty run of non-newline characters
followed by `" -->"`. -/
def capInputsGo : Nat → List Char → List Char → Option (List Char)
  | 0, _, _ => none
  | fuel + 1, acc, s =>
    if !acc.isEmpty && arrowEnd.isPrefixOf s then some acc.reverse
    else
      match s with
      | [] => none
      | c :: rest => if c = '\n' then none else capInputsGo fuel (c :: acc) rest

/-- Shortest-match capture for the inputs pattern at one occurrence. -/
def capInputsAt (s : List Char) : Option (List Char) :=
  capInputsGo (s.length + 1) [] s

/-- `re.search` for the tool marker pattern: first occurrence of the
literal (in position order) at which the rest of the pattern matches. -/
def searchTool (content : List Char) : Option (List Char) :=
  (occPositions toolLit content).findSome?
    (fun p => capToolAt (content.drop (p + toolLit.length)))

/-- `re.search` for the inputs marker pattern. -/
def searchInputs (content : List Char) : Option (List Char) :=
  (occPositions inputsLit content).findSome?
    (fun p => capInputsAt (content.drop (p + inputsLit.length)))

/-- The metadata-extraction phase of `_execute_send_approval`:
both markers must match and the inputs group must be valid JSON;
any failure sends the artifact to Pending_Approvals (`none`). -/
def parseSendApproval (content : List Char) : Option (List Char × Json) :=
  match searchTool content, searchInputs content with
  | some tn, some grp =>
    match jsonLoads grp with
    | some v => some (tn, v)
    | none => none
  | _, _ => none

/-! ## Skill dispatcher (`skills.py`) and capability sets
(`platform/capabilities.py`) -/

/-- `SEND_TOOLS`: tools that act directly on the outside world. -/
def SEND_TOOLS : List (List Char) :=
  [chars "send_email", chars "reply_email", chars "post_linkedin",
   chars "post_facebook", chars "post_instagram", chars "post_twitter",
   chars "post_payment", chars "create_invoice"]

/-- `CLOUD_SKILLS`: tools available to the cloud (draft-only) role. -/
def CLOUD_SKILLS : List (List Char) :=
  [chars "write_plan", chars "request_approval", chars "label_email",
   chars "get_accounting_report", chars "list_contacts"]

/-- The names registered in `SKILL_REGISTRY` (source order). -/
def SKILL_REGISTRY : List (List Char) :=
  [chars "send_email", chars "reply_email", chars "label_email",
   chars "post_linkedin", chars "post_facebook", chars "post_instagram",
   chars "post_twitter", chars "create_invoice", chars "list_contacts",
   chars "get_accounting_report", chars "post_payment",
   chars "write_plan", chars "request_approval"]

/-- A `{"ok": true, "result": msg}` skill result. -/
def okResult (msg : List Char) : Json :=
  .obj [(chars "ok", .bool true), (chars "result", .str msg)]

/-- A `{"ok": false, "error": msg}` skill result. -/
def errResult (msg : List Char) : Json :=
  .obj [(chars "ok", .bool false), (chars "error", .str msg)]

/-- The fixed capability-violation error text of `call_skill`. -/
def blockedMsg (name : List Char) : List Char :=
  chars "Skill " ++ sqChar :: name ++ sqChar ::
    chars " is blocked in cloud (draft-only) mode. Use request_approval to route this action to Local."

/-- Placeholder for `str(exc)` of the `TypeError` raised when a skill is
called with a argument dict not matching its keyword signature (the exact
Python message text carries no specified content). -/
def typeErrMsg : List Char := chars "TypeError: invalid skill arguments"

/-- Frontmatter-wrapped content that `request_approval` writes to
`Pending_Approvals/<name>.md`. -/
def approvalFileContent (details : List Char) : List Char :=
  chars "---\ntype: approval_request\nstatus: pending\n---\n\n" ++ details ++ chars "\n"

/-- Body of `skills.request_approval`: expects exactly the keyword
arguments `name` and `details` (both strings); writes the approval file and
returns ok.  Result plus list of files written to Pending_Approvals. -/
def requestApprovalCall (input : Json) : Json × List (List Char × List Char) :=
  match input with
  | .obj [(k1, .str n), (k2, .str d)] =>
    if k1 = chars "name" ∧ k2 = chars "details" then
      (okResult (chars "Approval requested: Pending_Approvals/" ++ n ++ chars ".md"),
       [(n ++ chars ".md", approvalFileContent d)])
    else (errResult typeErrMsg, [])
  | _ => (errResult typeErrMsg, [])

/-- Body of `skills.write_plan` (writes to `Plans/`, outside the modelled
approval store): returns ok for well-formed arguments. -/
def writePlanCall (input : Json) : Json :=
  match input with
  | .obj [(k1, .str n), (k2, .str _)] =>
    if k1 = chars "name" ∧ k2 = chars "content" then
      okResult (chars "Plan written to Plans/" ++ n ++ chars ".md")
    else errResult typeErrMsg
  | _ => errResult typeErrMsg

/-- Output of one `call_skill` dispatch: the returned result dict, the
skill functions actually executed (name, input), and any files written to
Pending_Approvals.  `audit` is what `call_skill` itself appends to the
audit log — always empty, because `call_skill` contains no logging call
(audit records are written by its callers in `ralph_loop`). -/
structure CallOut where
  result : Json
  executed : List (List Char × Json)
  artifacts : List (List Char × List Char)
  audit : List (List Char)

/-- `call_skill(name, inputs)` from `skills.py`.  `draftOnly` is
`DRAFT_ONLY_MODE`; `beh` gives the result of the external skill functions
(email/social/odoo MCP wrappers, which return a result dict and never
raise out of `call_skill`). -/
def callSkill (draftOnly : Bool) (beh : List Char → Json → Json)
    (name : List Char) (input : Json) : CallOut :=
  if draftOnly ∧ name ∈ SEND_TOOLS then
    ⟨errResult (blockedMsg name), [], [], []⟩
  else if name ∉ SKILL_REGISTRY then
    ⟨errResult (chars "Unknown skill: " ++ name), [], [], []⟩
  else if name = chars "request_approval" then
    let ra := requestApprovalCall input
    ⟨ra.1, [(name, input)], ra.2, []⟩
  else if name = chars "write_plan" then
    ⟨writePlanCall input, [(name, input)], [], []⟩
  else
    ⟨beh name input, [(name, input)], [], []⟩

/-! ## Reasoning loop (`ralph_loop.run`) -/

/-- Python `str()` rendering of a JSON-decoded value inside an f-string
(`None`/`True`/`False`, digits for ints, raw text for strings; container
rendering approximated by their JSON form — the gates only interpolate
scalars). -/
def pyStr : Json → List Char
  | .null => chars "None"
  | .bool true => chars "True"
  | .bool false => chars "False"
  | .num n => intToChars n
  | .str s => s
  | .arr xs => dumps (.arr xs)
  | .obj kvs => dumps (.obj kvs)

/-- `str()` of `d.get(k)` (absent key renders as `None`). -/
def pyStrOpt : Option Json → List Char
  | none => chars "None"
  | some v => pyStr v

/-- `f"{x:.2f}"` for the integral amounts in model scope. -/
def fmt2 (n : Int) : List Char := intToChars n ++ chars ".00"

/-- `float(tool_input.get("amount", 0))` of the payment gate: absent key
defaults to 0; numbers and bools convert; `None`/containers raise
(`none`); numeric strings are out of model scope and modelled as a raise. -/
def amountOf (input : Json) : Option Int :=
  match input with
  | .obj kvs =>
    match lookupLast kvs (chars "amount") with
    | none => some 0
    | some (.num n) => some n
    | some (.bool b) => some (if b then 1 else 0)
    | some _ => none
  | _ => none

/-- One requested tool invocation (a `tool_use` content block). -/
structure ToolBlock where
  name : List Char
  input : Json

/-- Claude API stop reason, as far as the loop distinguishes them. -/
inductive StopReason where
  | endTurn
  | toolUse
  | other

/-- One model response: stop reason and requested tool invocations. -/
structure ModelResponse where
  stop : StopReason
  blocks : List ToolBlock

/-- An audit record as written by `audit_logger.log`
(timestamp omitted: it is wall-clock environment). -/
structure AuditRec where
  task : List Char
  action : List Char
  input : Json
  result : Json
  turn : Nat

/-- Mutable state accumulated by one `run` invocation: skill functions
executed, files written to Pending_Approvals, audit records appended, and
the `completed` flag. -/
structure LoopState where
  executed : List (List Char × Json)
  artifacts : List (List Char × List Char)
  audit : List AuditRec
  completed : Bool

/-- Initial loop state. -/
def initLoopState : LoopState := ⟨[], [], [], false⟩

/-- Python exceptions that can escape a turn. -/
inductive PyErr where
  | valueError
  | fileNotFound
  | typeError
  | attributeError

/-- Merge one `call_skill` output plus its caller-side audit record into
the loop state. -/
def absorbCall (s : LoopState) (co : CallOut) (rec : AuditRec) (compl : Bool) : LoopState :=
  { executed := s.executed ++ co.executed
    artifacts := s.artifacts ++ co.artifacts
    audit := s.audit ++ [rec]
    completed := compl }

/-- `PAYMENT_APPROVAL_` artifact name of the payment gate. -/
def paymentApprovalName (task : List Char) : List Char :=
  chars "PAYMENT_APPROVAL_" ++ replaceAll task (chars ".md") []

/-- Details text of the payment-gate approval request, carrying the
formatted amount and the original invoice id. -/
def paymentDetails (task : List Char) (input : Json) (amt : Int) : List Char :=
  chars "Payment of $" ++ fmt2 amt ++ chars " requested for invoice "
    ++ pyStrOpt (jGet input (chars "invoice_id"))
    ++ chars ".\nOriginal task: " ++ task
    ++ chars "\n\nThis exceeds the $500 autonomous limit. Please review and approve or reject."

/-- `SEND_APPROVAL_` artifact name of the cloud draft gate. -/
def sendApprovalName (task tool : List Char) : List Char :=
  chars "SEND_APPROVAL_" ++ replaceAll task (chars ".md") [] ++ '_' :: tool

/-- Details text of the cloud draft gate, embedding the tool name and the
JSON-serialized inputs both in the human-readable body and in the two
machine-parseable markers. -/
def draftDetails (tool task : List Char) (input : Json) : List Char :=
  chars "Cloud agent drafted action — Local must execute:\n\n**Tool:** `"
    ++ tool
    ++ chars "`\n\n**Inputs:**\n```json\n"
    ++ dumpsIndent2 input
    ++ chars "\n```\n\n**Original task:** "
    ++ task
    ++ chars "\n\n---\n\n"
    ++ toolLit ++ tool ++ arrowEnd ++ '\n' ::
       (inputsLit ++ dumps input ++ arrowEnd ++ ['\n'])

/-- The `{"name": ..., "details": ...}` argument dict passed to
`request_approval` by the gates. -/
def approvalArgs (name details : List Char) : Json :=
  .obj [(chars "name", .str name), (chars "details", .str details)]

/-- Outcome of handling one tool block inside the per-turn `for` loop. -/
inductive BlockOut where
  | raise (e : PyErr) (s : LoopState)
  | breakTurn (s : LoopState)
  | next (s : LoopState)

/-- State update of the payment safety gate (amount above threshold):
substitute a `request_approval` call, log it under action
`"request_approval"` with the original payment input, mark completed. -/
def payGateState (draftOnly : Bool) (beh : List Char → Json → Json)
    (task : List Char) (turn : Nat) (b : ToolBlock) (amt : Int) (s : LoopState) : LoopState :=
  let co := callSkill draftOnly beh (chars "request_approval")
    (approvalArgs (paymentApprovalName task) (paymentDetails task b.input amt))
  absorbCall s co ⟨task, chars "request_approval", b.input, co.result, turn⟩ true

/-- State update of the cloud draft-only gate: substitute a
`request_approval` call embedding the original tool name and serialized
input, log it under `"cloud_draft_<tool>"`, mark completed. -/
def draftGateState (draftOnly : Bool) (beh : List Char → Json → Json)
    (task : List Char) (turn : Nat) (b : ToolBlock) (s : LoopState) : LoopState :=
  let co := callSkill draftOnly beh (chars "request_approval")
    (approvalArgs (sendApprovalName task b.name) (draftDetails b.name task b.input))
  absorbCall s co ⟨task, chars "cloud_draft_" ++ b.name, b.input, co.result, turn⟩ true

/-- Draft-only gate check followed by normal dispatch, for a block that
passed (or was not subject to) the payment gate. -/
def draftOrExec (draftOnly : Bool) (beh : List Char → Json → Json)
    (task : List Char) (turn : Nat) (b : ToolBlock) (s : LoopState) : BlockOut :=
  if draftOnly ∧ b.name ∈ SEND_TOOLS then
    .breakTurn (draftGateState draftOnly beh task turn b s)
  else
    let co := callSkill draftOnly beh b.name b.input
    .next (absorbCall s co ⟨task, b.name, b.input, co.result, turn⟩
      (s.completed ∨ (b.name = chars "request_approval"
        ∧ pyTruthy (jGet co.result (chars "ok")) = true)))

/-- Handle one tool block: payment gate first (its `float(...)` conversion
can raise), then draft-only gate, then dispatch via `call_skill`;
a successful explicit `request_approval` sets `completed` without
breaking out of the block loop. -/
def stepBlock (draftOnly : Bool) (beh : List Char → Json → Json)
    (task : List Char) (turn : Nat) (b : ToolBlock) (s : LoopState) : BlockOut :=
  if b.name = chars "post_payment" then
    match amountOf b.input with
    | none => .raise .valueError s
    | some amt =>
      if 500 < amt then .breakTurn (payGateState draftOnly beh task turn b amt s)
      else draftOrExec draftOnly beh task turn b s
  else draftOrExec draftOnly beh task turn b s

/-- Result of the per-turn block loop. -/
inductive TurnRes where
  | ok (s : LoopState)
  | raised (e : PyErr) (s : LoopState)

/-- The per-turn `for block in response.content` loop: blocks processed in
order; a gating invocation breaks out immediately, leaving the remaining
blocks unprocessed. -/
def processBlocks (draftOnly : Bool) (beh : List Char → Json → Json)
    (task : List Char) (turn : Nat) : List ToolBlock → LoopState → TurnRes
  | [], s => .ok s
  | b :: rest, s =>
    match stepBlock draftOnly beh task turn b s with
    | .raise e s2 => .raised e s2
    | .breakTurn s2 => .ok s2
    | .next s2 => processBlocks draftOnly beh task turn rest s2

/-- Result of the turn loop: final state and the final value of the Python
loop variable `turn` (`MAX_TURNS - 1` when the range is exhausted). -/
inductive TurnsOut where
  | fin (s : LoopState) (lastTurn : Nat)
  | raised (e : PyErr) (s : LoopState)

/-- `MAX_TURNS` from `ralph_loop.py`. -/
def MAX_TURNS : Nat := 10

/-- The `for turn in range(MAX_TURNS)` loop: `end_turn` completes and
breaks; `tool_use` processes the turn's blocks and breaks when completed;
any other stop reason breaks without completing. -/
def goTurns (draftOnly : Bool) (beh : List Char → Json → Json)
    (task : List Char) (resp : Nat → ModelResponse) :
    Nat → Nat → LoopState → TurnsOut
  | 0, t, s => .fin s (t - 1)
  | fuel + 1, t, s =>
    match (resp t).stop with
    | .endTurn => .fin { s with completed := true } t
    | .other => .fin s t
    | .toolUse =>
      match processBlocks draftOnly beh task t (resp t).blocks s with
      | .raised e s2 => .raised e s2
      | .ok s2 =>
        if s2.completed then .fin s2 t
        else goTurns draftOnly beh task resp fuel (t + 1) s2

/-- Final queue of the task artifact as moved by `run`
(`Done/` or `Pending_Approvals/`; `run` itself never moves to Rejected). -/
inductive Disposition where
  | done
  | pendingApprovals

/-- Outcome of a completed (non-raising) `run`. -/
structure RunOut where
  state : LoopState
  turnsUsed : Nat
  disposition : Disposition

/-- Result of `run`: normal outcome, or a propagated exception together
with the side effects already performed. -/
inductive RunRes where
  | ok (o : RunOut)
  | raised (e : PyErr) (s : LoopState)

/-- Details text of the `MAX_TURNS_` approval request. -/
def maxTurnsDetails (task : List Char) : List Char :=
  chars "Task " ++ task
    ++ chars " exceeded 10 turns without completing.\nPartial work may have been done. Please review and re-assign or close."

/-- `ralph_loop.run` after a successful claim, for a plain (non
`SEND_APPROVAL_`) task: iterate turns, then if the budget was exhausted
without completion file a `MAX_TURNS_` approval artifact and move the task
to Pending_Approvals, else move it to Done.  (Plan-file synthesis writes
outside the modelled store and is not represented.) -/
def ralphRun (draftOnly : Bool) (beh : List Char → Json → Json)
    (task : List Char) (resp : Nat → ModelResponse) : RunRes :=
  match goTurns draftOnly beh task resp MAX_TURNS 0 initLoopState with
  | .raised e s => .raised e s
  | .fin s lastT =>
    let turnsUsed := lastT + 1
    if ¬s.completed ∧ MAX_TURNS ≤ turnsUsed then
      let co := callSkill draftOnly beh (chars "request_approval")
        (approvalArgs (chars "MAX_TURNS_" ++ replaceAll task (chars ".md") [])
          (maxTurnsDetails task))
      let s2 : LoopState :=
        { executed := s.executed ++ co.executed
          artifacts := s.artifacts ++ co.artifacts
          audit := s.audit
          completed := s.completed }
      .ok ⟨s2, turnsUsed, .pendingApprovals⟩
    else .ok ⟨s, turnsUsed, .done⟩

/-- The state carried by a block outcome. -/
def outState : BlockOut → LoopState
  | .raise _ s => s
  | .breakTurn s => s
  | .next s => s

/-- The state carried by a turn result. -/
def resState : TurnRes → LoopState
  | .ok s => s
  | .raised _ s => s

/-- The state carried by a turn-loop result. -/
def turnsState : TurnsOut → LoopState
  | .fin s _ => s
  | .raised _ s => s

/-- The disposition of a completed run, if it returned. -/
def runDisposition : RunRes → Option Disposition
  | .ok o => some o.disposition
  | .raised _ _ => none

/-- The turn count of a completed run, if it returned. -/
def runTurnsUsed : RunRes → Option Nat
  | .ok o => some o.turnsUsed
  | .raised _ _ => none

/-- The completion flag of a completed run, if it returned. -/
def runCompleted : RunRes → Option Bool
  | .ok o => some o.state.completed
  | .raised _ _ => none

/-- The skill executions performed by a run, whether it returned or
raised. -/
def runExecuted : RunRes → List (List Char × Json)
  | .ok o => o.state.executed
  | .raised _ s => s.executed

/-- The files written to Pending_Approvals by a run, whether it returned
or raised. -/
def runArtifacts : RunRes → List (List Char × List Char)
  | .ok o => o.state.artifacts
  | .raised _ s => s.artifacts

/-- Payment-gate invariant on a loop state: every executed `post_payment`
call had a numeric amount not exceeding the 500 threshold. -/
def PayInv (s : LoopState) : Prop :=
  ∀ pr ∈ s.executed, pr.1 = chars "post_payment" →
    ∃ a, amountOf pr.2 = some a ∧ a ≤ 500

/-- Capability-containment invariant on a loop state (restricted mode):
no executed skill call is a send-action tool. -/
def SendInv (s : LoopState) : Prop :=
  ∀ pr ∈ s.executed, pr.1 ∉ SEND_TOOLS

/-- The artifact text preceding the tool marker (decomposition used by
the marker-extraction proofs; spelled out from `approvalFileContent` and
`draftDetails`). -/
def draftPrefix (tool task : List Char) (input : Json) : List Char :=
  chars "---\ntype: approval_request\nstatus: pending\n---\n\n"
    ++ (chars "Cloud agent drafted action — Local must execute:\n\n**Tool:** `"
    ++ (tool ++ (chars "`\n\n**Inputs:**\n```json\n"
    ++ (dumpsIndent2 input ++ (chars "\n```\n\n**Original task:** "
    ++ (task ++ chars "\n\n---\n\n"))))))

/-! ## Orchestrator (`orchestrator.py`) -/

/-- `MAX_RETRIES` from `orchestrator.py`. -/
def MAX_RETRIES : Int := 3

/-- `pathlib.Path(...).stem`: the name up to its last dot, provided that
dot is neither the first nor the last character. -/
def pathStem (name : List Char) : List Char :=
  match lastOcc ['.'] name with
  | some p => if 0 < p ∧ p + 1 < name.length then name.take p else name
  | none => name

/-- `stem.rsplit("_retry_", 1)` when the separator occurs: the parts
before and after the last occurrence. -/
def splitLastRetry (stem : List Char) : Option (List Char × List Char) :=
  match lastOcc (chars "_retry_") stem with
  | none => none
  | some p => some (stem.take p, stem.drop (p + 7))

/-- `_retry_count`: extract the retry count from a `_retry_N` name suffix;
unparseable counts and absent suffixes give 0. -/
def retryCount (name : List Char) : Int :=
  let st := pathStem name
  if hasInfixB (chars "_retry_") st then
    match splitLastRetry st with
    | some (_, seg) =>
      match pyIntParse seg with
      | some n => n
      | none => 0
    | none => 0
  else 0

/-- `stem.rsplit("_retry_", 1)[0] if "_retry_" in stem else stem`:
the base the orchestrator keeps when renaming for a retry. -/
def retryBase (st : List Char) : List Char :=
  if hasInfixB (chars "_retry_") st then
    match splitLastRetry st with
    | some (b, _) => b
    | none => st
  else st

/-- The requeue rename of `_process_task`: strip any existing `_retry_`
suffix from the stem and append `_retry_<retries+1>.md`. -/
def retryRename (name : List Char) : List Char :=
  retryBase (pathStem name) ++ chars "_retry_" ++ intToChars (retryCount name + 1) ++ chars ".md"

/-- Number of ways to read a stem as `<prefix>_retry_<digits>` with a
nonempty all-digit trailing count — i.e. how many retry suffixes the name
carries (a well-formed name carries exactly one). -/
def retrySuffixCount (stem : List Char) : Nat :=
  ((occPositions (chars "_retry_") stem).filter
    (fun p => !(stem.drop (p + 7)).isEmpty && (stem.drop (p + 7)).all Char.isDigit)).length

/-- Fate decided by `_process_task` for a task whose `run` raised. -/
inductive TaskFate where
  | requeued (newName : List Char)
  | rejected (name : List Char)

/-- The retry/reject decision of `_process_task` on failure. -/
def onFailure (name : List Char) : TaskFate :=
  if MAX_RETRIES ≤ retryCount name then .rejected name
  else .requeued (retryRename name)

/-- Location of a task in the retry state machine. -/
inductive TaskState where
  | active (name : List Char)
  | dead (name : List Char)

/-- One failure cycle: an active task fails and is renamed/requeued or
rejected; a rejected task is outside every scanned queue and stays put. -/
def failStep : TaskState → TaskState
  | .active n =>
    match onFailure n with
    | .requeued m => .active m
    | .rejected m => .dead m
  | .dead n => .dead n

/-- State after `k` failure cycles of an always-failing task. -/
def failSeq (n0 : List Char) : Nat → TaskState
  | 0 => .active n0
  | k + 1 => failStep (failSeq n0 k)

/-- Queues of the shared store, as far as the orchestrator names them. -/
inductive QueueId where
  | needsActionRoot
  | needsActionDomain (d : List Char)
  | approved
  | inProgress (agent : List Char)
  | rejectedQ
  | doneQ
  | pendingApprovalsQ
deriving DecidableEq

/-- `DOMAIN_MAP` from `orchestrator.py`. -/
def DOMAIN_MAP (mode : List Char) : List (List Char) :=
  if mode = chars "cloud" then [chars "email", chars "social"]
  else if mode = chars "local" then [chars "finance", chars "files"]
  else []

/-- The queues `_collect_candidates` scans for the given agent mode. -/
def scannedQueues (mode : List Char) : List QueueId :=
  (if mode = chars "local" then [QueueId.needsActionRoot] else [])
    ++ (DOMAIN_MAP mode).map QueueId.needsActionDomain
    ++ (if mode = chars "local" then [QueueId.approved] else [])

/-- Moves attempted by `_process_task` after a failure (its `except`
branch): the in-progress copy is preferred, then the original path;
if neither exists nothing is moved. -/
inductive FailMove where
  | movedFromInProgress (target : TaskFate)
  | movedFromOriginal (target : TaskFate)
  | nothingMoved (target : TaskFate)

/-- Outcome of `_process_task` for one dispatched task. -/
inductive OrchOutcome where
  | completed
  | failureHandled (move : FailMove)

/-- Audit actions recorded by `_process_task` itself. -/
def orchErrorAction : List Char := chars "orchestrator_error"

/-- `_process_task(task_path)`: run the loop; on any exception log an
`orchestrator_error` audit record and apply the retry/reject policy,
renaming whichever of the two candidate paths still exists.
`runErr` is the outcome of `run` (`none` = returned normally);
`inProgExists`/`taskExists` tell which paths exist at handling time.
Returns the outcome and the audit actions appended by the handler. -/
def processTask (name : List Char) (runErr : Option PyErr)
    (inProgExists taskExists : Bool) : OrchOutcome × List (List Char) :=
  match runErr with
  | none => (.completed, [])
  | some _ =>
    let fate := onFailure name
    let move :=
      if inProgExists then FailMove.movedFromInProgress fate
      else if taskExists then FailMove.movedFromOriginal fate
      else FailMove.nothingMoved fate
    (.failureHandled move, [orchErrorAction])

/-- The claim phase of `run`: reading and renaming the task file raises
`FileNotFoundError` when the source path no longer exists (there is no
try/except around `read_text`/`rename` in `run`). -/
def claimPhase (taskExists : Bool) (afterClaim : Option PyErr) : Option PyErr :=
  if taskExists then afterClaim else some .fileNotFound

/-! ## Audit logger (`audit/logger.py`) -/

/-- Model of `datetime.fromisoformat` restricted to the layout the system
reads back: `YYYY-MM-DDTHH:MM:SS` optionally followed by a `±HH:MM`
offset.  The value is an order-faithful encoding (seconds with idealized
31-day months); `none` where Python raises `ValueError`.  This function
parses the naive 19-character core. -/
def isoParseNaive (s : List Char) : Option Int :=
  match s with
  | [y1, y2, y3, y4, d1, m1, m2, d2, dd1, dd2, t, h1, h2, c1, mi1, mi2, c2, s1, s2] =>
    if [y1, y2, y3, y4, m1, m2, dd1, dd2, h1, h2, mi1, mi2, s1, s2].all Char.isDigit
        ∧ d1 = '-' ∧ d2 = '-' ∧ t = 'T' ∧ c1 = ':' ∧ c2 = ':' then
      let yr := digitsToNat [y1, y2, y3, y4]
      let mo := digitsToNat [m1, m2]
      let da := digitsToNat [dd1, dd2]
      let ho := digitsToNat [h1, h2]
      let mi := digitsToNat [mi1, mi2]
      let se := digitsToNat [s1, s2]
      if 1 ≤ mo ∧ mo ≤ 12 ∧ 1 ≤ da ∧ da ≤ 31 ∧ ho < 24 ∧ mi < 60 ∧ se < 60 then
        some ((((((yr * 12 + (mo - 1)) * 31 + (da - 1)) * 24 + ho) * 60 + mi) * 60 + se : Nat) : Int)
      else none
    else none
  | _ => none

/-- Full `fromisoformat` model: naive timestamp, or naive timestamp plus a
`±HH:MM` offset (aware, shifted to UTC). -/
def isoParse (s : List Char) : Option (Bool × Int) :=
  if s.length = 19 then (isoParseNaive s).map (fun v => (false, v))
  else if s.length = 25 then
    match isoParseNaive (s.take 19), s.drop 19 with
    | some v, [sg, oh1, oh2, c, om1, om2] =>
      if [oh1, oh2, om1, om2].all Char.isDigit ∧ c = ':' ∧ (sg = '+' ∨ sg = '-') then
        let off : Int := ((digitsToNat [oh1, oh2] * 60 + digitsToNat [om1, om2] : Nat) : Int) * 60
        if digitsToNat [oh1, oh2] < 24 ∧ digitsToNat [om1, om2] < 60 then
          some (true, v - (if sg = '+' then off else -off))
        else none
      else none
    | _, _ => none
  else none

/-- Per-line handling of `read_last_n_days`: `none` to skip (blank line,
JSON decode error, missing `ts`, unparseable timestamp, out of window),
`some (some rec)` to keep, `some none` bubbled as a raise. -/
inductive LineOut where
  | skip
  | keep (rec : Json)
  | raise (e : PyErr)

/-- Handling of one audit-log line by `read_last_n_days` with the given
cutoff: strip, skip blanks and lines that fail `json.loads`; on a decoded
record, `rec["ts"]` raises `TypeError` unless the record is a dict, the
`.replace` call raises `AttributeError` unless `ts` is a string, an
unparseable timestamp is skipped (`ValueError` caught), and comparing a
timezone-naive timestamp against the aware cutoff raises `TypeError`. -/
def readLine (cutoff : Int) (line : List Char) : LineOut :=
  let l := pyStrip line
  if l.isEmpty then .skip
  else
    match jsonLoads l with
    | none => .skip
    | some rec =>
      match rec with
      | .obj kvs =>
        match lookupLast kvs (chars "ts") with
        | none => .skip
        | some (.str ts) =>
          match isoParse (replaceAll ts (chars "Z") (chars "+00:00")) with
          | none => .skip
          | some (aware, v) =>
            if aware then (if cutoff ≤ v then .keep rec else .skip)
            else .raise .typeError
        | some _ => .raise .attributeError
      | _ => .raise .typeError

/-- `read_last_n_days` over the lines of the log file: records kept in
order; the first raising line aborts the whole read. -/
def readWindow (cutoff : Int) : List (List Char) → Except PyErr (List Json)
  | [] => .ok []
  | line :: rest =>
    match readLine cutoff line with
    | .skip => readWindow cutoff rest
    | .raise e => .error e
    | .keep rec =>
      match readWindow cutoff rest with
      | .ok recs => .ok (rec :: recs)
      | .error e => .error e

/-- Specification-side description of the same read (`queryWindow`):
return exactly the well-formed records in the window, skipping every
malformed line.  Used to state the amended tolerant-read property. -/
def readWindowSpec (cutoff : Int) (ls : List (List Char)) : List Json :=
  ls.filterMap (fun line =>
    match readLine cutoff line with
    | .keep rec => some rec
    | _ => none)

/-! # Theorems

General toolkit about occurrences, then the per-claim developments. -/

theorem occAt_true_iff {pat s : List Char} {p : Nat} :
    occAt pat s p = true ↔ pat <+: s.drop p := by
  simp [occAt, List.isPrefixOf_iff_prefix]

theorem occAt_false_iff {pat s : List Char} {p : Nat} :
    occAt pat s p = false ↔ ¬ pat <+: s.drop p := by
  rw [← occAt_true_iff]
  cases h : occAt pat s p <;> simp

theorem occAt_append_self (pat A B : List Char) :
    occAt pat (A ++ pat ++ B) A.length = true := by
  rw [occAt_true_iff, List.append_assoc, List.drop_left]
  exact List.prefix_append pat B

theorem occAt_cons_succ {pat : List Char} {c : Char} {s : List Char} {p : Nat} :
    occAt pat (c :: s) (p + 1) = occAt pat s p := by
  simp [occAt]

/-- An occurrence of a nonempty pattern fits inside the string. -/
theorem occAt_le_length {pat s : List Char} {p : Nat} (hpat : pat ≠ [])
    (h : occAt pat s p = true) : p + pat.length ≤ s.length := by
  have hpre := occAt_true_iff.mp h
  have hl := hpre.length_le
  simp only [List.length_drop] at hl
  have : pat.length ≠ 0 := by simpa using hpat
  omega

/-- An occurrence gives pointwise character equality. -/
theorem occAt_getElem? {pat s : List Char} {p : Nat} (h : occAt pat s p = true) :
    ∀ i, i < pat.length → s[p + i]? = pat[i]? := by
  intro i hi
  have hpre := occAt_true_iff.mp h
  obtain ⟨t, ht⟩ := hpre
  have h1 : (s.drop p)[i]? = pat[i]? := by
    rw [← ht, List.getElem?_append]
    simp [hi]
  rw [← h1, List.getElem?_drop]

/-- Refute an occurrence by one mismatching character. -/
theorem occAt_eq_false_of_mismatch {pat s : List Char} {p i : Nat}
    (hi : i < pat.length) (hne : s[p + i]? ≠ pat[i]?) :
    occAt pat s p = false := by
  cases h : occAt pat s p with
  | false => rfl
  | true => exact absurd (occAt_getElem? h i hi) hne

/-- Refute an occurrence (of a nonempty pattern) that does not fit. -/
theorem occAt_eq_false_of_len {pat s : List Char} {p : Nat} (hpat : pat ≠ [])
    (h : s.length < p + pat.length) : occAt pat s p = false := by
  cases hb : occAt pat s p with
  | false => rfl
  | true => exact absurd (occAt_le_length hpat hb) (by omega)

theorem mem_occPositions {pat s : List Char} {p : Nat} :
    p ∈ occPositions pat s ↔ p ≤ s.length ∧ occAt pat s p = true := by
  simp [occPositions, List.mem_filter, List.mem_range]
  omega

theorem hasInfixB_eq_false_iff {pat s : List Char} (hpat : pat ≠ []) :
    hasInfixB pat s = false ↔ NoOcc pat s := by
  constructor
  · intro h p
    by_cases hp : p ≤ s.length
    · cases hocc : occAt pat s p with
      | false => rfl
      | true =>
        exfalso
        have hmem : p ∈ occPositions pat s := mem_occPositions.mpr ⟨hp, hocc⟩
        simp only [hasInfixB, Bool.not_eq_false', List.isEmpty_iff] at h
        simp [h] at hmem
    · refine occAt_eq_false_of_len hpat ?_
      have : pat.length ≠ 0 := by simpa using hpat
      omega
  · intro h
    simp only [hasInfixB, Bool.not_eq_false', List.isEmpty_iff, occPositions,
      List.filter_eq_nil_iff]
    intro p _
    simp [h p]

theorem noOcc_of_hasInfixB {pat s : List Char} (hpat : pat ≠ [])
    (h : hasInfixB pat s = false) : NoOcc pat s :=
  (hasInfixB_eq_false_iff hpat).mp h

/-- A leading-prefix occurrence transfers: if `lead <+: pat` then any
occurrence of `pat` is an occurrence of `lead`. -/
theorem occAt_of_occAt_of_lead {lead pat s : List Char} {p : Nat}
    (hl : lead <+: pat) (h : occAt pat s p = true) : occAt lead s p = true := by
  rw [occAt_true_iff] at h ⊢
  exact hl.trans h

theorem occAt_append_right {pat X Y : List Char} {p : Nat} (h : X.length ≤ p) :
    occAt pat (X ++ Y) p = occAt pat Y (p - X.length) := by
  unfold occAt
  congr 1
  rw [show p = X.length + (p - X.length) by omega, List.drop_append]
  congr 1
  omega

/-- An occurrence fitting inside the left part of an append is an
occurrence in that part. -/
theorem occAt_append_left {pat X Y : List Char} {p : Nat}
    (hfit : p + pat.length ≤ X.length) :
    occAt pat (X ++ Y) p = occAt pat X p := by
  cases hx : occAt pat X p with
  | true =>
    rw [occAt_true_iff] at hx ⊢
    rw [List.drop_append_of_le_length (by omega)]
    exact hx.trans (List.prefix_append _ _)
  | false =>
    cases hb : occAt pat (X ++ Y) p with
    | false => rfl
    | true =>
      exfalso
      rw [occAt_true_iff, List.drop_append_of_le_length (by omega),
        List.prefix_iff_eq_take, List.take_append_eq_append_take,
        show pat.length - (X.drop p).length = 0 by simp; omega] at hb
      rw [occAt_false_iff, List.prefix_iff_eq_take] at hx
      exact hx (by simpa using hb)

/-- Junction analysis, `Y`-head form: no occurrence of `pat` starts inside
`X` when in-`X` occurrences are excluded and the first character of `Y`
differs from every non-initial pattern character. -/
theorem noOccBefore_append_headY {pat X Y : List Char} (hpat : pat ≠ [])
    (hX : NoOcc pat X)
    (hhead : ∀ j, 0 < j → j < pat.length → Y.head? ≠ pat[j]?) :
    NoOccBefore X.length pat (X ++ Y) := by
  intro p hp
  by_cases hfit : p + pat.length ≤ X.length
  · rw [occAt_append_left hfit]
    exact hX p
  · refine occAt_eq_false_of_mismatch (i := X.length - p) (by omega) ?_
    have h1 : (X ++ Y)[p + (X.length - p)]? = Y.head? := by
      rw [show p + (X.length - p) = X.length by omega, List.getElem?_append]
      simp [List.head?_eq_getElem?]
    rw [h1]
    exact hhead (X.length - p) (by omega) (by omega)

/-- Junction analysis, `X`-last form: no occurrence of `pat` starts inside
`X` when in-`X` occurrences are excluded and the last character of `X`
differs from every pattern character except possibly the final one. -/
theorem noOccBefore_append_lastX {pat X Y : List Char} (hpat : pat ≠ [])
    (hX : NoOcc pat X)
    (hlast : ∀ k, k + 1 < pat.length → X.getLast? ≠ pat[k]?) :
    NoOccBefore X.length pat (X ++ Y) := by
  intro p hp
  by_cases hfit : p + pat.length ≤ X.length
  · rw [occAt_append_left hfit]
    exact hX p
  · refine occAt_eq_false_of_mismatch (i := X.length - 1 - p) (by omega) ?_
    have h1 : (X ++ Y)[p + (X.length - 1 - p)]? = X.getLast? := by
      rw [show p + (X.length - 1 - p) = X.length - 1 by omega, List.getElem?_append]
      rw [List.getLast?_eq_getElem?]
      simp only [if_pos (by omega : X.length - 1 < X.length)]
    rw [h1]
    exact fun hc => hlast (X.length - 1 - p) (by omega) hc

/-- Compose absence of occurrences over an append, junction killed by the
head of `Y`. -/
theorem noOcc_append_headY {pat X Y : List Char} (hpat : pat ≠ [])
    (hX : NoOcc pat X) (hY : NoOcc pat Y)
    (hhead : ∀ j, 0 < j → j < pat.length → Y.head? ≠ pat[j]?) :
    NoOcc pat (X ++ Y) := by
  intro p
  by_cases hp : p < X.length
  · exact noOccBefore_append_headY hpat hX hhead p hp
  · rw [occAt_append_right (by omega)]
    exact hY _

/-- Compose absence of occurrences over an append, junction killed by the
last character of `X`. -/
theorem noOcc_append_lastX {pat X Y : List Char} (hpat : pat ≠ [])
    (hX : NoOcc pat X) (hY : NoOcc pat Y)
    (hlast : ∀ k, k + 1 < pat.length → X.getLast? ≠ pat[k]?) :
    NoOcc pat (X ++ Y) := by
  intro p
  by_cases hp : p < X.length
  · exact noOccBefore_append_lastX hpat hX hlast p hp
  · rw [occAt_append_right (by omega)]
    exact hY _

/-- A filtered range whose predicate holds at `m`, fails below `m`, starts
with `m`. -/
theorem range_filter_head {n m : Nat} {P : Nat → Bool} (hm : m < n)
    (h1 : P m = true) (h2 : ∀ p, p < m → P p = false) :
    ∃ tl, (List.range n).filter P = m :: tl := by
  have hsplit : List.range n = List.range m ++ (List.range (n - m)).map (m + ·) := by
    rw [← List.range_add]
    congr 1
    omega
  rw [hsplit, List.filter_append]
  have hleft : (List.range m).filter P = [] := by
    rw [List.filter_eq_nil_iff]
    intro a ha
    simp [h2 a (List.mem_range.mp ha)]
  rw [hleft, List.nil_append]
  have hn : n - m = (n - m - 1) + 1 := by omega
  rw [hn, List.range_succ_eq_map]
  simp only [List.map_cons, List.filter_cons]
  rw [show m + 0 = m by omega]
  simp [h1]

/-- A filtered range whose predicate holds at `m` and fails above `m` ends
with `m`. -/
theorem range_filter_getLast {n m : Nat} {P : Nat → Bool} (hm : m < n)
    (h1 : P m = true) (h2 : ∀ p, m < p → P p = false) :
    ((List.range n).filter P).getLast? = some m := by
  have hsplit : List.range n = (List.range (m + 1)) ++ (List.range (n - m - 1)).map ((m + 1) + ·) := by
    rw [← List.range_add]
    congr 1
    omega
  rw [hsplit, List.filter_append]
  have hright : ((List.range (n - m - 1)).map ((m + 1) + ·)).filter P = [] := by
    rw [List.filter_eq_nil_iff]
    intro a ha
    simp only [List.mem_map, List.mem_range] at ha
    obtain ⟨b, _, rfl⟩ := ha
    simp [h2 (m + 1 + b) (by omega)]
  rw [hright, List.append_nil, List.range_succ, List.filter_append]
  simp [h1]

/-- A filtered range whose predicate holds exactly at `m` is `[m]`. -/
theorem range_filter_single {n m : Nat} {P : Nat → Bool} (hm : m < n)
    (h : ∀ p, p < n → (P p = true ↔ p = m)) :
    (List.range n).filter P = [m] := by
  obtain ⟨tl, htl⟩ := range_filter_head hm ((h m hm).mpr rfl)
    (fun p hp => by
      cases hb : P p with
      | false => rfl
      | true => exact absurd ((h p (by omega)).mp hb) (by omega))
  have hnil : tl = [] := by
    cases htl2 : tl with
    | nil => rfl
    | cons a tl2 =>
      exfalso
      have ha : a ∈ (List.range n).filter P := by
        rw [htl, htl2]
        simp
      rw [List.mem_filter, List.mem_range] at ha
      have ham : a = m := (h a ha.1).mp ha.2
      have hnd : ((List.range n).filter P).Nodup := (List.nodup_range n).filter P
      rw [htl, htl2, ham] at hnd
      simp at hnd
  rw [htl, hnil]

/-- Head of the occurrence-position list. -/
theorem occPositions_head {pat s : List Char} {m : Nat} (hpat : pat ≠ [])
    (hocc : occAt pat s m = true) (hbefore : NoOccBefore m pat s) :
    ∃ tl, occPositions pat s = m :: tl := by
  have hm : m < s.length + 1 := by
    have := occAt_le_length hpat hocc
    have : pat.length ≠ 0 := by simpa using hpat
    omega
  exact range_filter_head hm hocc (fun p hp => hbefore p hp)

/-- The last occurrence position, when occurrences above `m` are refuted. -/
theorem lastOcc_eq {pat s : List Char} {m : Nat} (hpat : pat ≠ [])
    (hocc : occAt pat s m = true) (hafter : ∀ p, m < p → occAt pat s p = false) :
    lastOcc pat s = some m := by
  have hm : m < s.length + 1 := by
    have := occAt_le_length hpat hocc
    have : pat.length ≠ 0 := by simpa using hpat
    omega
  exact range_filter_getLast hm hocc hafter

/-! ## Decimal digit lemmas -/

theorem toNat_ofNat_of_valid {n : Nat} (h : Nat.isValidChar n) :
    (Char.ofNat n).toNat = n := by
  unfold Char.ofNat
  rw [dif_pos h]
  unfold Char.ofNatAux Char.toNat
  simp only [UInt32.toNat]
  simp [BitVec.toNat_ofNatLt]

theorem digitChar_toNat (n : Nat) : (digitChar n).toNat = 48 + n % 10 := by
  unfold digitChar
  exact toNat_ofNat_of_valid (Or.inl (by omega))

theorem digitChar_isDigit (n : Nat) : (digitChar n).isDigit = true := by
  unfold digitChar
  have h10 : n % 10 < 10 := Nat.mod_lt _ (by omega)
  set m := n % 10 with hm
  interval_cases m <;> decide

theorem digitsToNat_append (xs : List Char) (c : Char) :
    digitsToNat (xs ++ [c]) = 10 * digitsToNat xs + (c.toNat - 48) := by
  unfold digitsToNat
  rw [List.foldl_append]
  simp [Nat.mul_comm]

theorem natToDigitsAux_spec :
    ∀ fuel n, n < fuel →
      digitsToNat (natToDigitsAux fuel n) = n
      ∧ natToDigitsAux fuel n ≠ []
      ∧ ∀ c ∈ natToDigitsAux fuel n, c.isDigit = true := by
  intro fuel
  induction fuel with
  | zero => omega
  | succ f ih =>
    intro n hn
    unfold natToDigitsAux
    by_cases h10 : n < 10
    · simp only [if_pos h10]
      refine ⟨?_, by simp, by simp [digitChar_isDigit]⟩
      unfold digitsToNat
      simp [digitChar_toNat]
      omega
    · simp only [if_neg h10]
      have hrec := ih (n / 10) (by omega)
      refine ⟨?_, by simp [hrec.2.1], ?_⟩
      · rw [digitsToNat_append, hrec.1, digitChar_toNat]
        omega
      · intro c hc
        rcases List.mem_append.mp hc with h | h
        · exact hrec.2.2 c h
        · simp at h
          simp [h, digitChar_isDigit]

theorem digitsToNat_natToDigits (n : Nat) : digitsToNat (natToDigits n) = n :=
  (natToDigitsAux_spec (n + 1) n (by omega)).1

theorem natToDigits_ne_nil (n : Nat) : natToDigits n ≠ [] :=
  (natToDigitsAux_spec (n + 1) n (by omega)).2.1

theorem natToDigits_all_digit (n : Nat) : ∀ c ∈ natToDigits n, c.isDigit = true :=
  (natToDigitsAux_spec (n + 1) n (by omega)).2.2

theorem isDigit_toNat {c : Char} (h : c.isDigit = true) :
    48 ≤ c.toNat ∧ c.toNat ≤ 57 := by
  unfold Char.isDigit at h
  simp only [Bool.and_eq_true, decide_eq_true_eq, ge_iff_le] at h
  unfold Char.toNat
  obtain ⟨h1, h2⟩ := h
  exact ⟨h1, h2⟩

theorem toNat_ne {c d : Char} (h : c.toNat ≠ d.toNat) : c ≠ d := by
  intro he
  exact h (by rw [he])

/-- A digit differs from any character whose code is outside `48..57`. -/
theorem isDigit_ne {c d : Char} (h : c.isDigit = true)
    (hd : d.toNat < 48 ∨ 57 < d.toNat) : c ≠ d := by
  have := isDigit_toNat h
  exact toNat_ne (by omega)

theorem dropWhile_eq_self_of_all {p : Char → Bool} {s : List Char}
    (h : ∀ c ∈ s, p c = false) : s.dropWhile p = s := by
  cases s with
  | nil => rfl
  | cons c rest => rw [List.dropWhile_cons_of_neg (by simp [h c (by simp)])]

theorem pyStrip_eq_self_of_all {s : List Char}
    (h : ∀ c ∈ s, isPySpace c = false) : pyStrip s = s := by
  unfold pyStrip
  rw [dropWhile_eq_self_of_all h,
    dropWhile_eq_self_of_all (fun c hc => h c (List.mem_reverse.mp hc)),
    List.reverse_reverse]

theorem isPySpace_eq_false_of_digit {c : Char} (h : c.isDigit = true) :
    isPySpace c = false := by
  obtain ⟨h1, h2⟩ := isDigit_toNat h
  have e1 : (' ' : Char).toNat = 32 := rfl
  have e2 : ('\t' : Char).toNat = 9 := rfl
  have e3 : ('\n' : Char).toNat = 10 := rfl
  have e4 : ('\r' : Char).toNat = 13 := rfl
  have n1 : c ≠ ' ' := toNat_ne (by omega)
  have n2 : c ≠ '\t' := toNat_ne (by omega)
  have n3 : c ≠ '\n' := toNat_ne (by omega)
  have n4 : c ≠ '\r' := toNat_ne (by omega)
  unfold isPySpace
  simp only [Bool.or_eq_false_iff, beq_eq_false_iff_ne, ne_eq]
  exact ⟨⟨⟨⟨⟨n1, n2⟩, n3⟩, n4⟩, by omega⟩, by omega⟩

theorem splitUnderscore_no_sep {s : List Char} (h : ∀ c ∈ s, c ≠ '_') :
    splitUnderscore s = [s] := by
  induction s with
  | nil => rfl
  | cons c rest ih =>
    unfold splitUnderscore
    rw [ih (fun x hx => h x (by simp [hx]))]
    simp [h c (by simp)]

theorem pyIntCore_digits {s : List Char} (hne : s ≠ [])
    (h : ∀ c ∈ s, c.isDigit = true) : pyIntCore s = some (digitsToNat s) := by
  unfold pyIntCore
  rw [splitUnderscore_no_sep (fun c hc => isDigit_ne (h c hc) (by decide))]
  have hg : digitGroupOk s = true := by
    unfold digitGroupOk
    simp only [Bool.and_eq_true, Bool.not_eq_true', List.all_eq_true]
    refine ⟨?_, h⟩
    cases s with
    | nil => exact absurd rfl hne
    | cons a l => rfl
  simp [hg]

/-- `int()` is a left inverse of decimal printing for naturals. -/
theorem pyIntParse_natToDigits (k : Nat) :
    pyIntParse (natToDigits k) = some (k : Int) := by
  have hall := natToDigits_all_digit k
  have hne := natToDigits_ne_nil k
  unfold pyIntParse
  rw [pyStrip_eq_self_of_all (fun c hc => isPySpace_eq_false_of_digit (hall c hc))]
  obtain ⟨c, cs, hcs⟩ := List.exists_cons_of_ne_nil hne
  have hc : c.isDigit = true := hall c (by rw [hcs]; simp)
  have hcm : c ≠ '-' := isDigit_ne hc (by decide)
  have hcp : c ≠ '+' := isDigit_ne hc (by decide)
  rw [hcs]
  have hcore : pyIntCore (c :: cs) = some (digitsToNat (c :: cs)) := by
    refine pyIntCore_digits (by simp) ?_
    intro x hx
    exact hall x (by rw [hcs]; exact hx)
  simp only [if_neg hcm, if_neg hcp, hcore, Option.map_some]
  rw [← hcs, digitsToNat_natToDigits]
  try rfl

/-! ## Retry-name lemmas (orchestrator naming) -/

theorem getElem?_append_left' {l m : List Char} {i : Nat} (h : i < l.length) :
    (l ++ m)[i]? = l[i]? := by
  rw [List.getElem?_append, if_pos h]

theorem getElem?_append_right' {l m : List Char} {i : Nat} (h : l.length ≤ i) :
    (l ++ m)[i]? = m[i - l.length]? := by
  rw [List.getElem?_append, if_neg (by omega)]

theorem occAt_decompose {pat s : List Char} {p : Nat} (h : occAt pat s p = true) :
    s = s.take p ++ pat ++ s.drop (p + pat.length) := by
  obtain ⟨t, ht⟩ := occAt_true_iff.mp h
  have h2 : (s.drop p).drop pat.length = s.drop (p + pat.length) := by
    rw [List.drop_drop]
    try (congr 1; omega)
  rw [← ht, List.drop_left] at h2
  rw [← h2, List.append_assoc, ht, List.take_append_drop]

theorem hasInfixB_of_occAt {pat s : List Char} {p : Nat} (hpat : pat ≠ [])
    (h : occAt pat s p = true) : hasInfixB pat s = true := by
  have hp : p ≤ s.length := by
    have := occAt_le_length hpat h
    have : pat.length ≠ 0 := by simpa using hpat
    omega
  have hmem : p ∈ occPositions pat s := mem_occPositions.mpr ⟨hp, h⟩
  unfold hasInfixB
  cases hl : occPositions pat s with
  | nil => simp [hl] at hmem
  | cons a tl => simp

/-- No occurrence of `_retry_` strictly after the one at `b.length` in
`b ++ "_retry_" ++ ds` with an all-digit tail. -/
theorem retry_occ_after {b ds : List Char} {p : Nat}
    (hds : ∀ c ∈ ds, c.isDigit = true) (hp : b.length < p) :
    occAt (chars "_retry_") (b ++ chars "_retry_" ++ ds) p = false := by
  have hlen : (b ++ chars "_retry_" ++ ds).length = b.length + 7 + ds.length := by
    simp [chars]
    omega
  have hbp : (b ++ chars "_retry_").length = b.length + 7 := by
    simp [chars]
  by_cases hfit : p + 7 ≤ b.length + 7 + ds.length
  · by_cases hcase : p ≤ b.length + 5
    · -- the character at the offset is a letter of "_retry_", not '_'
      refine occAt_eq_false_of_mismatch (i := 0) (by simp [chars]) ?_
      rw [Nat.add_zero, List.append_assoc,
        getElem?_append_right' (by omega),
        getElem?_append_left' (l := chars "_retry_") (by simp [chars]; omega)]
      have h1 : 1 ≤ p - b.length := by omega
      have h2 : p - b.length ≤ 5 := by omega
      interval_cases h : (p - b.length) <;> decide
    · by_cases hcase6 : p = b.length + 6
      · -- offset 1 would have to be 'r', but falls on a digit of `ds`
        refine occAt_eq_false_of_mismatch (i := 1) (by simp [chars]) ?_
        rw [getElem?_append_right' (by rw [hbp]; omega)]
        rw [hbp, show p + 1 - (b.length + 7) = 0 by omega]
        have hlds : 1 ≤ ds.length := by omega
        cases ds with
        | nil => simp at hlds
        | cons d tl =>
          have hd : d.isDigit = true := hds d (by simp)
          rw [show ((chars "_retry_")[1]? : Option Char) = some 'r' from rfl]
          simp only [List.getElem?_cons_zero, ne_eq, Option.some_inj]
          exact isDigit_ne hd (by decide)
      · -- the offset falls strictly inside the digit tail, not '_'
        refine occAt_eq_false_of_mismatch (i := 0) (by simp [chars]) ?_
        rw [Nat.add_zero, getElem?_append_right' (by rw [hbp]; omega), hbp]
        have hix : p - (b.length + 7) < ds.length := by omega
        rw [List.getElem?_eq_getElem hix]
        have hd : ds[p - (b.length + 7)].isDigit = true :=
          hds _ (List.getElem_mem hix)
        rw [show ((chars "_retry_")[0]? : Option Char) = some '_' from rfl]
        simp only [ne_eq, Option.some_inj]
        exact isDigit_ne hd (by decide)
  · refine occAt_eq_false_of_len (by decide) ?_
    rw [hlen]
    have h7 : (chars "_retry_").length = 7 := rfl
    omega

theorem lastOcc_retry_block {b ds : List Char} (hds : ∀ c ∈ ds, c.isDigit = true) :
    lastOcc (chars "_retry_") (b ++ chars "_retry_" ++ ds) = some b.length :=
  lastOcc_eq (by decide) (occAt_append_self _ b ds)
    (fun p hp => retry_occ_after hds hp)

theorem hasInfixB_retry_block {b ds : List Char} :
    hasInfixB (chars "_retry_") (b ++ chars "_retry_" ++ ds) = true :=
  hasInfixB_of_occAt (by decide) (occAt_append_self _ b ds)

theorem splitLastRetry_block {b ds : List Char} (hds : ∀ c ∈ ds, c.isDigit = true) :
    splitLastRetry (b ++ chars "_retry_" ++ ds) = some (b, ds) := by
  have h1 : (b ++ chars "_retry_" ++ ds).take b.length = b := by
    rw [List.append_assoc, List.take_left]
  have h2 : (b ++ chars "_retry_" ++ ds).drop (b.length + 7) = ds := by
    rw [show b.length + 7 = (b ++ chars "_retry_").length by simp [chars],
      List.drop_left]
  unfold splitLastRetry
  simp only [lastOcc_retry_block hds, h1, h2]

/-- `Path(x ++ ".md").stem = x` for nonempty `x`. -/
theorem pathStem_append_md {x : List Char} (hx : x ≠ []) :
    pathStem (x ++ chars ".md") = x := by
  unfold pathStem
  have hocc : occAt ['.'] (x ++ chars ".md") x.length = true := by
    have : x ++ chars ".md" = x ++ ['.'] ++ chars "md" := by simp [chars]
    rw [this]
    exact occAt_append_self _ x _
  have hafter : ∀ p, x.length < p → occAt ['.'] (x ++ chars ".md") p = false := by
    intro p hp
    have hlen : (x ++ chars ".md").length = x.length + 3 := by simp [chars]
    by_cases h1 : p = x.length + 1
    · refine occAt_eq_false_of_mismatch (i := 0) (by simp) ?_
      rw [Nat.add_zero, h1, getElem?_append_right' (by omega),
        show x.length + 1 - x.length = 1 by omega]
      decide
    · by_cases h2 : p = x.length + 2
      · refine occAt_eq_false_of_mismatch (i := 0) (by simp) ?_
        rw [Nat.add_zero, h2, getElem?_append_right' (by omega),
          show x.length + 2 - x.length = 2 by omega]
        decide
      · refine occAt_eq_false_of_len (by simp) ?_
        simp only [hlen, List.length_cons, List.length_nil]
        omega
  have hxlen : x.length ≠ 0 := by simpa using hx
  simp only [lastOcc_eq (by simp) hocc hafter]
  rw [if_pos ⟨by omega, by simp [chars]⟩, List.take_left]

/-- `_retry_count` of a well-formed retried name. -/
theorem retryCount_block (b : List Char) (k : Nat) :
    retryCount (b ++ chars "_retry_" ++ natToDigits k ++ chars ".md") = (k : Int) := by
  unfold retryCount
  have hst : pathStem (b ++ chars "_retry_" ++ natToDigits k ++ chars ".md")
      = b ++ chars "_retry_" ++ natToDigits k := by
    rw [show b ++ chars "_retry_" ++ natToDigits k ++ chars ".md"
        = (b ++ chars "_retry_" ++ natToDigits k) ++ chars ".md" by simp, pathStem_append_md]
    simp [natToDigits_ne_nil k]
  rw [hst]
  rw [if_pos hasInfixB_retry_block]
  simp only [splitLastRetry_block (natToDigits_all_digit k), pyIntParse_natToDigits]

theorem intToChars_ofNat (k : Nat) : intToChars (k : Int) = natToDigits k := by
  unfold intToChars
  rw [if_neg (by omega)]
  simp

/-- The requeue rename of a well-formed retried name advances the single
suffix. -/
theorem retryBase_block {b ds : List Char} (hds : ∀ c ∈ ds, c.isDigit = true) :
    retryBase (b ++ chars "_retry_" ++ ds) = b := by
  unfold retryBase
  rw [if_pos hasInfixB_retry_block]
  simp only [splitLastRetry_block hds]

theorem retryRename_block (b : List Char) (k : Nat) :
    retryRename (b ++ chars "_retry_" ++ natToDigits k ++ chars ".md")
      = b ++ chars "_retry_" ++ natToDigits (k + 1) ++ chars ".md" := by
  unfold retryRename
  have hst : pathStem (b ++ chars "_retry_" ++ natToDigits k ++ chars ".md")
      = b ++ chars "_retry_" ++ natToDigits k := by
    rw [show b ++ chars "_retry_" ++ natToDigits k ++ chars ".md"
        = (b ++ chars "_retry_" ++ natToDigits k) ++ chars ".md" by simp, pathStem_append_md]
    simp [natToDigits_ne_nil k]
  rw [hst, retryBase_block (natToDigits_all_digit k), retryCount_block]
  rw [show (k : Int) + 1 = ((k + 1 : Nat) : Int) by omega, intToChars_ofNat]
  try simp

/-- `_retry_count` is 0 on a name whose stem has no `_retry_`. -/
theorem retryCount_clean {n : List Char}
    (h : hasInfixB (chars "_retry_") (pathStem n) = false) : retryCount n = 0 := by
  unfold retryCount
  rw [if_neg (by simp [h])]

/-- The first requeue rename of a clean name appends `_retry_1`. -/
theorem retryRename_clean {n : List Char}
    (h : hasInfixB (chars "_retry_") (pathStem n) = false) :
    retryRename n = pathStem n ++ chars "_retry_" ++ natToDigits 1 ++ chars ".md" := by
  unfold retryRename retryBase
  rw [if_neg (by simp [h]), retryCount_clean h]
  rw [show (0 : Int) + 1 = ((1 : Nat) : Int) by omega, intToChars_ofNat]
  try simp

/-- A well-formed retried stem carries exactly one retry suffix. -/
theorem retrySuffixCount_block {b ds : List Char} (hne : ds ≠ [])
    (hds : ∀ c ∈ ds, c.isDigit = true) :
    retrySuffixCount (b ++ chars "_retry_" ++ ds) = 1 := by
  unfold retrySuffixCount occPositions
  rw [List.filter_filter]
  set S := b ++ chars "_retry_" ++ ds with hS
  have hlen : S.length = b.length + 7 + ds.length := by
    simp [hS, chars]
    omega
  have hdropb : S.drop (b.length + 7) = ds := by
    rw [hS, show b.length + 7 = (b ++ chars "_retry_").length by simp [chars],
      List.drop_left]
  have hsingle : (List.range (S.length + 1)).filter
      (fun a => !(S.drop (a + 7)).isEmpty && (S.drop (a + 7)).all Char.isDigit
        && occAt (chars "_retry_") S a) = [b.length] := by
    refine range_filter_single (by omega) ?_
    intro p hp
    constructor
    · intro hsat
      simp only [Bool.and_eq_true] at hsat
      obtain ⟨⟨hEmp, hAll⟩, hOcc⟩ := hsat
      by_contra hne2
      rcases Nat.lt_or_ge p b.length with hlt | hge
      · -- the tail after the occurrence still contains the '_' at b.length + 6
        have hdrop : (S.drop (p + 7))[b.length + 6 - (p + 7)]? = some '_' := by
          rw [List.getElem?_drop, show p + 7 + (b.length + 6 - (p + 7)) = b.length + 6 by omega]
          rw [hS, List.append_assoc, getElem?_append_right' (by omega),
            getElem?_append_left' (by simp [chars]; try omega)]
          rw [show b.length + 6 - b.length = 6 by omega]
          try rfl
        have hmem : '_' ∈ S.drop (p + 7) := by
          obtain ⟨hlt2, hget⟩ := List.getElem?_eq_some_iff.mp hdrop
          exact hget ▸ List.getElem_mem hlt2
        have hd := (List.all_eq_true.mp hAll) '_' hmem
        simp at hd
      · have hbp : b.length < p := by omega
        have hocc2 := retry_occ_after hds hbp
        rw [← hS] at hocc2
        rw [hocc2] at hOcc
        exact absurd hOcc (by simp)
    · intro hpe
      subst hpe
      simp only [Bool.and_eq_true]
      refine ⟨⟨?_, ?_⟩, occAt_append_self _ b ds⟩
      · simp [hdropb, hne]
      · rw [hdropb]
        exact List.all_eq_true.mpr hds
  rw [hsingle]
  rfl

theorem splitLastRetry_decompose {st b seg : List Char}
    (h : splitLastRetry st = some (b, seg)) :
    st = b ++ chars "_retry_" ++ seg ∧ hasInfixB (chars "_retry_") st = true := by
  unfold splitLastRetry at h
  cases hl : lastOcc (chars "_retry_") st with
  | none => rw [hl] at h; exact absurd h (by simp)
  | some p =>
    rw [hl] at h
    simp only [Option.some_inj, Prod.mk.injEq] at h
    obtain ⟨hb, hseg⟩ := h
    have hmem : p ∈ occPositions (chars "_retry_") st := List.mem_of_mem_getLast? hl
    have hocc : occAt (chars "_retry_") st p = true := (mem_occPositions.mp hmem).2
    have hdec := occAt_decompose hocc
    constructor
    · rw [← hb, ← hseg]
      have h7 : (chars "_retry_").length = 7 := rfl
      rw [← h7] at hseg ⊢
      exact hdec
    · exact hasInfixB_of_occAt (by decide) hocc

/-- One failure cycle of a task still under the retry bound. -/
theorem failStep_active_requeue {m : List Char} (h : retryCount m < MAX_RETRIES) :
    failStep (.active m) = .active (retryRename m) := by
  show (match onFailure m with
    | TaskFate.requeued x => TaskState.active x
    | TaskFate.rejected x => TaskState.dead x) = _
  unfold onFailure
  rw [if_neg (by omega)]

/-- One failure cycle of a task at the retry bound. -/
theorem failStep_active_reject {m : List Char} (h : MAX_RETRIES ≤ retryCount m) :
    failStep (.active m) = .dead m := by
  show (match onFailure m with
    | TaskFate.requeued x => TaskState.active x
    | TaskFate.rejected x => TaskState.dead x) = _
  unfold onFailure
  rw [if_pos h]

/-! ## Claim C4 — bounded retries then terminal rejection -/

/-- C4: a task with a clean base name whose processing always fails is
requeued exactly `MAX_RETRIES = 3` times, producing `_retry_1` …
`_retry_3`, and is then moved to Rejected, terminally; no reachable name
ever carries a retry count above 3, and no scanned queue is the Rejected
queue (so a rejected task is never picked up again). -/
theorem c4_retry_bound (n : List Char)
    (hclean : hasInfixB (chars "_retry_") (pathStem n) = false) :
    failSeq n 1 = .active (pathStem n ++ chars "_retry_" ++ natToDigits 1 ++ chars ".md")
    ∧ failSeq n 2 = .active (pathStem n ++ chars "_retry_" ++ natToDigits 2 ++ chars ".md")
    ∧ failSeq n 3 = .active (pathStem n ++ chars "_retry_" ++ natToDigits 3 ++ chars ".md")
    ∧ failSeq n 4 = .dead (pathStem n ++ chars "_retry_" ++ natToDigits 3 ++ chars ".md")
    ∧ (∀ j, 4 ≤ j → failSeq n j = failSeq n 4)
    ∧ (∀ j m, failSeq n j = .active m → retryCount m ≤ 3)
    ∧ (∀ mode, QueueId.rejectedQ ∉ scannedQueues mode) := by
  have h0 : retryCount n = 0 := retryCount_clean hclean
  have h1 : failSeq n 1
      = .active (pathStem n ++ chars "_retry_" ++ natToDigits 1 ++ chars ".md") := by
    show failStep (.active n) = _
    rw [failStep_active_requeue (by rw [h0]; decide), retryRename_clean hclean]
  have h2 : failSeq n 2
      = .active (pathStem n ++ chars "_retry_" ++ natToDigits 2 ++ chars ".md") := by
    show failStep (failSeq n 1) = _
    rw [h1, failStep_active_requeue (by rw [retryCount_block]; decide), retryRename_block]
  have h3 : failSeq n 3
      = .active (pathStem n ++ chars "_retry_" ++ natToDigits 3 ++ chars ".md") := by
    show failStep (failSeq n 2) = _
    rw [h2, failStep_active_requeue (by rw [retryCount_block]; decide), retryRename_block]
  have h4 : failSeq n 4
      = .dead (pathStem n ++ chars "_retry_" ++ natToDigits 3 ++ chars ".md") := by
    show failStep (failSeq n 3) = _
    rw [h3, failStep_active_reject (by rw [retryCount_block]; decide)]
  have h5 : ∀ j, 4 ≤ j → failSeq n j = failSeq n 4 := by
    intro j hj
    induction j with
    | zero => omega
    | succ i ih =>
      by_cases hi : 4 ≤ i
      · have := ih hi
        show failStep (failSeq n i) = _
        rw [this, h4]
        rfl
      · have : i + 1 = 4 := by omega
        rw [this]
  refine ⟨h1, h2, h3, h4, h5, ?_, ?_⟩
  · intro j m hm
    match j with
    | 0 =>
      have : m = n := by
        have : failSeq n 0 = .active n := rfl
        rw [this] at hm
        injection hm with h
        exact h.symm
      rw [this, h0]
      decide
    | 1 =>
      rw [h1] at hm
      injection hm with h
      rw [← h, retryCount_block]
      decide
    | 2 =>
      rw [h2] at hm
      injection hm with h
      rw [← h, retryCount_block]
      decide
    | 3 =>
      rw [h3] at hm
      injection hm with h
      rw [← h, retryCount_block]
      decide
    | (j + 4) =>
      rw [h5 (j + 4) (by omega), h4] at hm
      exact absurd hm (by simp)
  · intro mode
    unfold scannedQueues DOMAIN_MAP
    by_cases hc : mode = chars "cloud" <;> by_cases hl : mode = chars "local" <;>
      simp [hc, hl]

/-- Witness for C4 at the concrete task name `invoice.md`. -/
theorem c4_retry_bound_witness :
    failSeq (chars "invoice.md") 3 = .active (chars "invoice_retry_3.md")
    ∧ failSeq (chars "invoice.md") 4 = .dead (chars "invoice_retry_3.md") := by
  have h := c4_retry_bound (chars "invoice.md") (by decide)
  exact ⟨h.2.2.1, h.2.2.2.1⟩

/-! ## Claim C5 — retry suffix never accumulates -/

/-- C5: renaming a task that carries the retry suffix `_retry_k` strips the
existing suffix before appending the new one: the result is
`base_retry_(k+1).md`, it carries exactly one retry suffix, its parsed
count is `k+1 > k`, and the stacked name `base_retry_k_retry_(k+1)` is
never produced. -/
theorem c5_retry_suffix_singular (n b : List Char) (k : Nat)
    (hstem : pathStem n = b ++ chars "_retry_" ++ natToDigits k)
    (hk : (k : Int) < MAX_RETRIES) :
    retryCount n = (k : Int)
    ∧ onFailure n = .requeued (retryRename n)
    ∧ retryRename n = b ++ chars "_retry_" ++ natToDigits (k + 1) ++ chars ".md"
    ∧ retryCount (retryRename n) = ((k + 1 : Nat) : Int)
    ∧ (k : Int) < retryCount (retryRename n)
    ∧ retrySuffixCount (pathStem (retryRename n)) = 1
    ∧ pathStem (retryRename n) ≠ pathStem n ++ chars "_retry_" ++ natToDigits (k + 1) := by
  have hcnt : retryCount n = (k : Int) := by
    unfold retryCount
    rw [hstem, if_pos hasInfixB_retry_block]
    simp only [splitLastRetry_block (natToDigits_all_digit k), pyIntParse_natToDigits]
  have hren : retryRename n = b ++ chars "_retry_" ++ natToDigits (k + 1) ++ chars ".md" := by
    unfold retryRename
    rw [hstem, retryBase_block (natToDigits_all_digit k), hcnt,
      show (k : Int) + 1 = ((k + 1 : Nat) : Int) by omega, intToChars_ofNat]
    try simp
  have hstem2 : pathStem (retryRename n) = b ++ chars "_retry_" ++ natToDigits (k + 1) := by
    rw [hren, show b ++ chars "_retry_" ++ natToDigits (k + 1) ++ chars ".md"
      = (b ++ chars "_retry_" ++ natToDigits (k + 1)) ++ chars ".md" by simp,
      pathStem_append_md (by simp [natToDigits_ne_nil])]
  have hcnt2 : retryCount (retryRename n) = ((k + 1 : Nat) : Int) := by
    rw [hren, retryCount_block]
  refine ⟨hcnt, ?_, hren, hcnt2, by rw [hcnt2]; omega, ?_, ?_⟩
  · unfold onFailure
    rw [if_neg (by rw [hcnt]; omega)]
  · rw [hstem2]
    exact retrySuffixCount_block (natToDigits_ne_nil _) (natToDigits_all_digit _)
  · rw [hstem2, hstem]
    intro heq
    have hlen := congrArg List.length heq
    simp only [List.length_append] at hlen
    have hk1 : 1 ≤ (natToDigits k).length := by
      cases hd : natToDigits k with
      | nil => exact absurd hd (natToDigits_ne_nil k)
      | cons a l => simp
    omega

/-- Witness for C5 at `inv_retry_2.md`. -/
theorem c5_retry_suffix_singular_witness :
    retryRename (chars "inv_retry_2.md") = chars "inv_retry_3.md"
    ∧ retrySuffixCount (pathStem (retryRename (chars "inv_retry_2.md"))) = 1 := by
  have h := c5_retry_suffix_singular (chars "inv_retry_2.md") (chars "inv") 2
    (by decide) (by decide)
  exact ⟨h.2.2.1, h.2.2.2.2.2.1⟩

/-! ## Claim C10 — malformed retry segment silently altering the base -/

/-- C10: for a stem of the form `<b>_retry_<seg>` whose segment does not
parse as an integer, the extracted retry count is 0 (the `ValueError` is
swallowed), yet the rename still strips from the last `_retry_` on, so the
task is requeued as `<b>_retry_1.md`: the base identifier is silently
altered, and the result collides with the requeue of the distinct clean
task `<b>.md`, so the original name is not recoverable. -/
theorem c10_malformed_retry_base_loss (n b seg : List Char)
    (hsplit : splitLastRetry (pathStem n) = some (b, seg))
    (hparse : pyIntParse seg = none)
    (hb : b ≠ []) (hbase : hasInfixB (chars "_retry_") b = false) :
    retryCount n = 0
    ∧ onFailure n = .requeued (b ++ chars "_retry_" ++ natToDigits 1 ++ chars ".md")
    ∧ pathStem n = b ++ chars "_retry_" ++ seg
    ∧ b ++ chars "_retry_" ++ natToDigits 1 ≠ pathStem n
    ∧ onFailure (b ++ chars ".md") = onFailure n
    ∧ n ≠ b ++ chars ".md" := by
  obtain ⟨hdec, hinf⟩ := splitLastRetry_decompose hsplit
  have hcnt : retryCount n = 0 := by
    unfold retryCount
    rw [if_pos hinf]
    simp only [hsplit, hparse]
  have hren : retryRename n = b ++ chars "_retry_" ++ natToDigits 1 ++ chars ".md" := by
    unfold retryRename retryBase
    rw [if_pos hinf]
    simp only [hsplit, hcnt]
    rw [show (0 : Int) + 1 = ((1 : Nat) : Int) by omega, intToChars_ofNat]
  have hfate : onFailure n = .requeued (b ++ chars "_retry_" ++ natToDigits 1 ++ chars ".md") := by
    unfold onFailure
    rw [if_neg (by rw [hcnt]; decide), hren]
  have hseg1 : seg ≠ natToDigits 1 := by
    intro he
    rw [he, pyIntParse_natToDigits] at hparse
    exact absurd hparse (by simp)
  have hstemb : pathStem (b ++ chars ".md") = b := pathStem_append_md hb
  refine ⟨hcnt, hfate, hdec, ?_, ?_, ?_⟩
  · rw [hdec]
    intro he
    exact hseg1 ((List.append_cancel_left he).symm)
  · rw [hfate]
    unfold onFailure
    have hcnt0 : retryCount (b ++ chars ".md") = 0 := by
      apply retryCount_clean
      rw [hstemb]
      exact hbase
    rw [if_neg (by rw [hcnt0]; decide), retryRename_clean (by rw [hstemb]; exact hbase), hstemb]
  · intro he
    have : pathStem n = pathStem (b ++ chars ".md") := by rw [he]
    rw [hdec, hstemb] at this
    have hlen := congrArg List.length this
    simp only [List.length_append] at hlen
    have h7 : (chars "_retry_").length = 7 := rfl
    omega

/-- Witness for C10 at the concrete malformed name `report_retry_audit.md`. -/
theorem c10_malformed_retry_base_loss_witness :
    retryCount (chars "report_retry_audit.md") = 0
    ∧ onFailure (chars "report_retry_audit.md") = .requeued (chars "report_retry_1.md") := by
  have h := c10_malformed_retry_base_loss (chars "report_retry_audit.md")
    (chars "report") (chars "audit") (by decide) (by decide) (by decide) (by decide)
  refine ⟨h.1, ?_⟩
  have h2 := h.2.1
  exact h2

/-! ## Reasoning-loop gate lemmas (C1, C2, C6, C8) -/

/-- `call_skill` on `request_approval` with the gates' argument dict:
executes the vault-local writer and files the approval artifact. -/
theorem callSkill_request_approval (dO : Bool) (beh : List Char → Json → Json)
    (n d : List Char) :
    callSkill dO beh (chars "request_approval") (approvalArgs n d)
      = ⟨okResult (chars "Approval requested: Pending_Approvals/" ++ n ++ chars ".md"),
         [(chars "request_approval", approvalArgs n d)],
         [(n ++ chars ".md", approvalFileContent d)], []⟩ := by
  cases dO <;> rfl

/-- Executions recorded by one `call_skill`: at most the dispatched call
itself. -/
theorem callSkill_executed (dO : Bool) (beh : List Char → Json → Json)
    (name : List Char) (input : Json) :
    (callSkill dO beh name input).executed = []
    ∨ (callSkill dO beh name input).executed = [(name, input)] := by
  unfold callSkill
  split
  · exact Or.inl rfl
  · split
    · exact Or.inl rfl
    · split
      · exact Or.inr rfl
      · split
        · exact Or.inr rfl
        · exact Or.inr rfl

/-- The payment gate: an over-threshold `post_payment` invocation breaks
the block loop with the substituted approval state. -/
theorem stepBlock_payment_gate {dO : Bool} {beh : List Char → Json → Json}
    {task : List Char} {turn : Nat} {b : ToolBlock} {s : LoopState} {amt : Int}
    (hname : b.name = chars "post_payment")
    (hamt : amountOf b.input = some amt) (hgt : 500 < amt) :
    stepBlock dO beh task turn b s = .breakTurn (payGateState dO beh task turn b amt s) := by
  unfold stepBlock
  rw [if_pos hname, hamt]
  simp only [if_pos hgt]

/-- Breaking out of the block loop drops all remaining blocks. -/
theorem processBlocks_cons_break {dO : Bool} {beh : List Char → Json → Json}
    {task : List Char} {turn : Nat} {b : ToolBlock} {rest : List ToolBlock}
    {s s2 : LoopState} (h : stepBlock dO beh task turn b s = .breakTurn s2) :
    processBlocks dO beh task turn (b :: rest) s = .ok s2 := by
  unfold processBlocks
  rw [h]

/-- A non-breaking block hands the updated state to the rest of the turn. -/
theorem processBlocks_cons_next {dO : Bool} {beh : List Char → Json → Json}
    {task : List Char} {turn : Nat} {b : ToolBlock} {rest : List ToolBlock}
    {s s2 : LoopState} (h : stepBlock dO beh task turn b s = .next s2) :
    processBlocks dO beh task turn (b :: rest) s
      = processBlocks dO beh task turn rest s2 := by
  conv_lhs => unfold processBlocks
  rw [h]

/-- The payment-gate state in explicit form: the `request_approval` skill
is executed with the payment-approval artifact carrying the formatted
amount and original invoice id, the audit record is written, and the loop
is marked completed. -/
theorem payGateState_eq (dO : Bool) (beh : List Char → Json → Json)
    (task : List Char) (turn : Nat) (b : ToolBlock) (amt : Int) (s : LoopState) :
    payGateState dO beh task turn b amt s =
      { executed := s.executed
          ++ [(chars "request_approval",
               approvalArgs (paymentApprovalName task) (paymentDetails task b.input amt))]
        artifacts := s.artifacts
          ++ [(paymentApprovalName task ++ chars ".md",
               approvalFileContent (paymentDetails task b.input amt))]
        audit := s.audit ++ [⟨task, chars "request_approval", b.input,
          okResult (chars "Approval requested: Pending_Approvals/"
            ++ paymentApprovalName task ++ chars ".md"), turn⟩]
        completed := true } := by
  unfold payGateState
  rw [callSkill_request_approval]
  rfl

/-- `call_skill` in restricted mode never executes a send-action tool. -/
theorem callSkill_send_blocked (beh : List Char → Json → Json)
    {name : List Char} (input : Json) (hmem : name ∈ SEND_TOOLS) :
    (callSkill true beh name input).executed = []
    ∧ (callSkill true beh name input).result = errResult (blockedMsg name)
    ∧ (callSkill true beh name input).artifacts = []
    ∧ (callSkill true beh name input).audit = [] := by
  unfold callSkill
  rw [if_pos ⟨rfl, hmem⟩]
  exact ⟨rfl, rfl, rfl, rfl⟩

/-- Executions added by one gate-free dispatch preserve the payment
invariant, provided any dispatched `post_payment` had a checked amount. -/
theorem payInv_draftOrExec {dO : Bool} {beh : List Char → Json → Json}
    {task : List Char} {turn : Nat} {b : ToolBlock} {s : LoopState}
    (hs : PayInv s)
    (hb : b.name = chars "post_payment" → ∃ a, amountOf b.input = some a ∧ a ≤ 500) :
    PayInv (outState (draftOrExec dO beh task turn b s)) := by
  unfold draftOrExec
  split
  · -- draft gate: request_approval executed
    unfold outState draftGateState
    rw [callSkill_request_approval]
    intro pr hpr hpay
    simp only [absorbCall, List.mem_append, List.mem_singleton] at hpr
    rcases hpr with h | h
    · exact hs pr h hpay
    · subst h
      simp only at hpay
      exact absurd hpay (by decide)
  · unfold outState
    intro pr hpr hpay
    simp only [absorbCall, List.mem_append] at hpr
    rcases hpr with h | h
    · exact hs pr h hpay
    · rcases callSkill_executed dO beh b.name b.input with he | he
      · rw [he] at h
        simp at h
      · rw [he] at h
        simp only [List.mem_singleton] at h
        subst h
        simp only at hpay ⊢
        exact hb hpay

/-- One block step preserves the payment invariant. -/
theorem payInv_stepBlock {dO : Bool} {beh : List Char → Json → Json}
    {task : List Char} {turn : Nat} {b : ToolBlock} {s : LoopState}
    (hs : PayInv s) :
    PayInv (outState (stepBlock dO beh task turn b s)) := by
  unfold stepBlock
  split
  · rename_i hname
    cases hamt : amountOf b.input with
    | none => exact hs
    | some amt =>
      by_cases hgt : 500 < amt
      · simp only [if_pos hgt]
        unfold outState
        rw [payGateState_eq]
        intro pr hpr hpay
        simp only [List.mem_append, List.mem_singleton] at hpr
        rcases hpr with h | h
        · exact hs pr h hpay
        · subst h
          simp only at hpay
          exact absurd hpay (by decide)
      · simp only [if_neg hgt]
        exact payInv_draftOrExec hs (fun _ => ⟨amt, hamt, by omega⟩)
  · rename_i hname
    exact payInv_draftOrExec hs (fun hc => absurd hc hname)

/-- The whole block loop preserves the payment invariant. -/
theorem payInv_processBlocks {dO : Bool} {beh : List Char → Json → Json}
    {task : List Char} {turn : Nat} (blocks : List ToolBlock) {s : LoopState}
    (hs : PayInv s) :
    PayInv (resState (processBlocks dO beh task turn blocks s)) := by
  induction blocks generalizing s with
  | nil => exact hs
  | cons b rest ih =>
    unfold processBlocks
    have hstep := @payInv_stepBlock dO beh task turn b s hs
    cases hb : stepBlock dO beh task turn b s with
    | raise e s2 =>
      rw [hb] at hstep
      exact hstep
    | breakTurn s2 =>
      rw [hb] at hstep
      exact hstep
    | next s2 =>
      rw [hb] at hstep
      exact ih hstep

/-- The turn loop preserves the payment invariant. -/
theorem payInv_goTurns {dO : Bool} {beh : List Char → Json → Json}
    {task : List Char} {resp : Nat → ModelResponse} (fuel t : Nat) {s : LoopState}
    (hs : PayInv s) :
    PayInv (turnsState (goTurns dO beh task resp fuel t s)) := by
  induction fuel generalizing t s with
  | zero => exact hs
  | succ f ih =>
    unfold goTurns
    cases (resp t).stop with
    | endTurn => exact hs
    | other => exact hs
    | toolUse =>
      have hpb := @payInv_processBlocks dO beh task t (resp t).blocks s hs
      cases hb : processBlocks dO beh task t (resp t).blocks s with
      | raised e s2 =>
        rw [hb] at hpb
        exact hpb
      | ok s2 =>
        rw [hb] at hpb
        by_cases hc : s2.completed
        · simp only [hc, if_true]
          exact hpb
        · simp only [hc, if_false]
          exact ih (t + 1) hpb

/-! ## Claim C1 — the payment safety gate -/

/-- C1: (a) in any run, the `post_payment` skill is never executed with an
amount above the 500 threshold — any dispatched payment had a checked
amount `≤ 500`; (b) when the loop processes a `post_payment` invocation
whose amount exceeds 500, the turn substitutes a `request_approval`
invocation whose details carry the formatted amount and the original
invoice id, files the approval artifact, marks the loop completed, and
drops every later invocation of that turn. -/
theorem c1_payment_gate (dO : Bool) (beh : List Char → Json → Json)
    (task : List Char) (resp : Nat → ModelResponse)
    (turn : Nat) (b : ToolBlock) (rest : List ToolBlock) (s : LoopState)
    (amt : Int) (hname : b.name = chars "post_payment")
    (hamt : amountOf b.input = some amt) (hgt : 500 < amt) :
    (∀ pr ∈ runExecuted (ralphRun dO beh task resp),
      pr.1 = chars "post_payment" → ∃ a, amountOf pr.2 = some a ∧ a ≤ 500)
    ∧ processBlocks dO beh task turn (b :: rest) s
        = .ok { executed := s.executed
                  ++ [(chars "request_approval",
                       approvalArgs (paymentApprovalName task)
                         (paymentDetails task b.input amt))]
                artifacts := s.artifacts
                  ++ [(paymentApprovalName task ++ chars ".md",
                       approvalFileContent (paymentDetails task b.input amt))]
                audit := s.audit ++ [⟨task, chars "request_approval", b.input,
                  okResult (chars "Approval requested: Pending_Approvals/"
                    ++ paymentApprovalName task ++ chars ".md"), turn⟩]
                completed := true } := by
  constructor
  · intro pr hpr
    have hinv : PayInv (turnsState (goTurns dO beh task resp MAX_TURNS 0 initLoopState)) :=
      payInv_goTurns MAX_TURNS 0 (by intro pr hpr; simp [initLoopState] at hpr)
    unfold ralphRun at hpr
    cases hg : goTurns dO beh task resp MAX_TURNS 0 initLoopState with
    | raised e s2 =>
      rw [hg] at hpr hinv
      exact fun hpay => hinv pr hpr hpay
    | fin s2 lastT =>
      rw [hg] at hpr hinv
      simp only at hpr
      split at hpr
      · rw [callSkill_request_approval] at hpr
        simp only [runExecuted, List.mem_append, List.mem_singleton] at hpr
        rcases hpr with h | h
        · exact fun hpay => hinv pr h hpay
        · intro hpay
          rw [h] at hpay
          simp only at hpay
          exact absurd hpay (by decide)
      · simp only [runExecuted] at hpr
        exact fun hpay => hinv pr hpr hpay
  · rw [processBlocks_cons_break (stepBlock_payment_gate hname hamt hgt),
      payGateState_eq]

/-- Witness for C1: a cloud turn requesting `post_payment` of 750 for
invoice 12. -/
theorem c1_payment_gate_witness :
    processBlocks true (fun _ _ => Json.null) (chars "t1.md") 0
      [⟨chars "post_payment", Json.obj [(chars "invoice_id", Json.num 12),
        (chars "amount", Json.num 750)]⟩,
       ⟨chars "send_email", Json.obj []⟩] initLoopState
      = .ok { executed := [(chars "request_approval",
                approvalArgs (paymentApprovalName (chars "t1.md"))
                  (paymentDetails (chars "t1.md")
                    (Json.obj [(chars "invoice_id", Json.num 12),
                      (chars "amount", Json.num 750)]) 750))]
              artifacts := [(paymentApprovalName (chars "t1.md") ++ chars ".md",
                approvalFileContent (paymentDetails (chars "t1.md")
                  (Json.obj [(chars "invoice_id", Json.num 12),
                    (chars "amount", Json.num 750)]) 750))]
              audit := [⟨chars "t1.md", chars "request_approval",
                Json.obj [(chars "invoice_id", Json.num 12),
                  (chars "amount", Json.num 750)],
                okResult (chars "Approval requested: Pending_Approvals/"
                  ++ paymentApprovalName (chars "t1.md") ++ chars ".md"), 0⟩]
              completed := true } := by
  have h := c1_payment_gate true (fun _ _ => Json.null) (chars "t1.md")
    (fun _ => ⟨StopReason.endTurn, []⟩) 0
    ⟨chars "post_payment", Json.obj [(chars "invoice_id", Json.num 12),
      (chars "amount", Json.num 750)]⟩
    [⟨chars "send_email", Json.obj []⟩] initLoopState 750 rfl (by rfl) (by decide)
  have h2 := h.2
  simpa [initLoopState] using h2

/-! ## Claim C2 — capability containment and artifact round-trip

Lemmas for the draft-only gate (state equation, block-loop behaviour, the
run-level containment invariant), then the serialize/re-parse development
for the embedded markers. -/

/-- The draft-gate state in explicit form: the `request_approval` skill is
executed with the `SEND_APPROVAL_` artifact embedding the drafted tool and
input, the audit record is written under `cloud_draft_<tool>`, and the
loop is marked completed. -/
theorem draftGateState_eq (dO : Bool) (beh : List Char → Json → Json)
    (task : List Char) (turn : Nat) (b : ToolBlock) (s : LoopState) :
    draftGateState dO beh task turn b s =
      { executed := s.executed
          ++ [(chars "request_approval",
               approvalArgs (sendApprovalName task b.name)
                 (draftDetails b.name task b.input))]
        artifacts := s.artifacts
          ++ [(sendApprovalName task b.name ++ chars ".md",
               approvalFileContent (draftDetails b.name task b.input))]
        audit := s.audit ++ [⟨task, chars "cloud_draft_" ++ b.name, b.input,
          okResult (chars "Approval requested: Pending_Approvals/"
            ++ sendApprovalName task b.name ++ chars ".md"), turn⟩]
        completed := true } := by
  unfold draftGateState
  rw [callSkill_request_approval]
  rfl

/-- In restricted mode a send-action block (whose amount passed the
payment gate if it was a payment) hits the draft gate and breaks the block
loop. -/
theorem stepBlock_draft_gate {beh : List Char → Json → Json}
    {task : List Char} {turn : Nat} {b : ToolBlock} {s : LoopState}
    (hmem : b.name ∈ SEND_TOOLS)
    (hpay : b.name = chars "post_payment" → ∃ a, amountOf b.input = some a ∧ a ≤ 500) :
    stepBlock true beh task turn b s
      = .breakTurn (draftGateState true beh task turn b s) := by
  unfold stepBlock
  split
  · rename_i hname
    obtain ⟨a, ha, hle⟩ := hpay hname
    rw [ha]
    simp only [if_neg (by omega : ¬ (500 < a))]
    unfold draftOrExec
    rw [if_pos ⟨rfl, hmem⟩]
  · unfold draftOrExec
    rw [if_pos ⟨rfl, hmem⟩]

/-- Executions added by one gate-free dispatch in restricted mode preserve
the capability-containment invariant. -/
theorem sendInv_draftOrExec {beh : List Char → Json → Json}
    {task : List Char} {turn : Nat} {b : ToolBlock} {s : LoopState}
    (hs : SendInv s) :
    SendInv (outState (draftOrExec true beh task turn b s)) := by
  unfold draftOrExec
  split
  · unfold outState draftGateState
    rw [callSkill_request_approval]
    intro pr hpr
    simp only [absorbCall, List.mem_append, List.mem_singleton] at hpr
    rcases hpr with h | h
    · exact hs pr h
    · subst h
      exact (by decide : chars "request_approval" ∉ SEND_TOOLS)
  · rename_i hng
    have hb : b.name ∉ SEND_TOOLS := fun hc => hng ⟨rfl, hc⟩
    unfold outState
    intro pr hpr
    simp only [absorbCall, List.mem_append] at hpr
    rcases hpr with h | h
    · exact hs pr h
    · rcases callSkill_executed true beh b.name b.input with he | he
      · rw [he] at h
        simp at h
      · rw [he] at h
        simp only [List.mem_singleton] at h
        subst h
        exact hb

/-- One block step in restricted mode preserves capability containment. -/
theorem sendInv_stepBlock {beh : List Char → Json → Json}
    {task : List Char} {turn : Nat} {b : ToolBlock} {s : LoopState}
    (hs : SendInv s) :
    SendInv (outState (stepBlock true beh task turn b s)) := by
  unfold stepBlock
  split
  · cases hamt : amountOf b.input with
    | none => exact hs
    | some amt =>
      by_cases hgt : 500 < amt
      · simp only [if_pos hgt]
        unfold outState
        rw [payGateState_eq]
        intro pr hpr
        simp only [List.mem_append, List.mem_singleton] at hpr
        rcases hpr with h | h
        · exact hs pr h
        · subst h
          exact (by decide : chars "request_approval" ∉ SEND_TOOLS)
      · simp only [if_neg hgt]
        exact sendInv_draftOrExec hs
  · exact sendInv_draftOrExec hs

/-- The whole block loop in restricted mode preserves capability
containment. -/
theorem sendInv_processBlocks {beh : List Char → Json → Json}
    {task : List Char} {turn : Nat} (blocks : List ToolBlock) {s : LoopState}
    (hs : SendInv s) :
    SendInv (resState (processBlocks true beh task turn blocks s)) := by
  induction blocks generalizing s with
  | nil => exact hs
  | cons b rest ih =>
    unfold processBlocks
    have hstep := @sendInv_stepBlock beh task turn b s hs
    cases hb : stepBlock true beh task turn b s with
    | raise e s2 =>
      rw [hb] at hstep
      exact hstep
    | breakTurn s2 =>
      rw [hb] at hstep
      exact hstep
    | next s2 =>
      rw [hb] at hstep
      exact ih hstep

/-- The turn loop in restricted mode preserves capability containment. -/
theorem sendInv_goTurns {beh : List Char → Json → Json}
    {task : List Char} {resp : Nat → ModelResponse} (fuel t : Nat) {s : LoopState}
    (hs : SendInv s) :
    SendInv (turnsState (goTurns true beh task resp fuel t s)) := by
  induction fuel generalizing t s with
  | zero => exact hs
  | succ f ih =>
    unfold goTurns
    cases (resp t).stop with
    | endTurn => exact hs
    | other => exact hs
    | toolUse =>
      have hpb := @sendInv_processBlocks beh task t (resp t).blocks s hs
      cases hb : processBlocks true beh task t (resp t).blocks s with
      | raised e s2 =>
        rw [hb] at hpb
        exact hpb
      | ok s2 =>
        rw [hb] at hpb
        by_cases hc : s2.completed
        · simp only [hc, if_true]
          exact hpb
        · simp only [hc, if_false]
          exact ih (t + 1) hpb

/-! ### JSON serialize/parse round-trip

`json.loads(json.dumps(v))` recovers `v`; proved by structural induction
with explicit parser fuel. -/
theorem char_valid_nat (c : Char) :
    c.toNat < 55296 ∨ (57343 < c.toNat ∧ c.toNat < 1114112) := c.valid

theorem fromHex_hexDigit {d : Nat} (hd : d < 16) :
    fromHexDigit (hexDigitCh d) = some d := by
  interval_cases d <;> decide

theorem parseHex4_toHex4 {v : Nat} (hv : v < 65536) (r : List Char) :
    parseHex4 (toHex4 v ++ r) = some (v, r) := by
  show parseHex4 (hexDigitCh (v / 4096 % 16) :: hexDigitCh (v / 256 % 16)
    :: hexDigitCh (v / 16 % 16) :: hexDigitCh (v % 16) :: r) = some (v, r)
  simp only [parseHex4, fromHex_hexDigit (show v / 4096 % 16 < 16 by omega),
    fromHex_hexDigit (show v / 256 % 16 < 16 by omega),
    fromHex_hexDigit (show v / 16 % 16 < 16 by omega),
    fromHex_hexDigit (show v % 16 < 16 by omega)]
  have hv2 : ((v / 4096 % 16 * 16 + v / 256 % 16) * 16 + v / 16 % 16) * 16 + v % 16 = v := by
    omega
  rw [hv2]

theorem parseStrBody_shortEscape (f : Nat) (e d : Char) (t : List Char)
    (he : (if e = '"' then some '"' else if e = '\\' then some '\\'
           else if e = '/' then some '/' else if e = 'b' then some (Char.ofNat 8)
           else if e = 'f' then some (Char.ofNat 12) else if e = 'n' then some '\n'
           else if e = 'r' then some '\r' else if e = 't' then some '\t'
           else none) = some d) (hne : e ≠ 'u') :
    parseStrBody (f + 1) ('\\' :: e :: t)
      = match parseStrBody f t with
        | some (cs, r) => some (d :: cs, r)
        | none => none := by
  simp only [parseStrBody, if_true]
  simp only [if_neg hne, he]
  rw [if_neg (by decide : ¬ ('\\' : Char) = '"')]

theorem parseStrBody_uEscape_bmp (f : Nat) {v : Nat}
    (hv : v < 55296 ∨ (57343 < v ∧ v < 65536)) (t : List Char) :
    parseStrBody (f + 1) ('\\' :: 'u' :: (toHex4 v ++ t))
      = match parseStrBody f t with
        | some (cs, r) => some (Char.ofNat v :: cs, r)
        | none => none := by
  simp only [parseStrBody, if_true]
  rw [if_neg (by decide : ¬ ('\\' : Char) = '"')]
  rw [parseHex4_toHex4 (show v < 65536 by omega)]
  simp only [if_neg (show ¬ (55296 ≤ v ∧ v < 56320) by omega),
    if_neg (show ¬ (56320 ≤ v ∧ v < 57344) by omega)]

theorem parseStrBody_uEscape_sur (f : Nat) {v hi lo : Nat}
    (hhi : hi = 55296 + (v - 65536) / 1024)
    (hlo : lo = 56320 + (v - 65536) % 1024)
    (hv : 65536 ≤ v ∧ v < 1114112) (t : List Char) :
    parseStrBody (f + 1) ('\\' :: 'u' ::
        (toHex4 hi ++ ('\\' :: 'u' :: (toHex4 lo ++ t))))
      = match parseStrBody f t with
        | some (cs, r) => some (Char.ofNat v :: cs, r)
        | none => none := by
  simp only [parseStrBody, if_true]
  rw [if_neg (by decide : ¬ ('\\' : Char) = '"')]
  rw [parseHex4_toHex4 (show hi < 65536 by omega)]
  simp only [if_pos (show 55296 ≤ hi ∧ hi < 56320 by omega)]
  rw [parseHex4_toHex4 (show lo < 65536 by omega)]
  simp only [if_pos (show 56320 ≤ lo ∧ lo < 57344 by omega)]
  have harith : 65536 + (hi - 55296) * 1024 + (lo - 56320) = v := by omega
  rw [harith]

theorem parseStrBody_escapeStr (s : List Char) : ∀ fuel rest, s.length < fuel →
    parseStrBody fuel (escapeStr s ++ '"' :: rest) = some (s, rest) := by
  induction s with
  | nil =>
    intro fuel rest hf
    cases fuel with
    | zero => exact absurd hf (by omega)
    | succ f => rfl
  | cons c cs ih =>
    intro fuel rest hf
    simp only [List.length_cons] at hf
    cases fuel with
    | zero => exact absurd hf (by omega)
    | succ f =>
    have hcs : cs.length < f := by omega
    have hstep : escapeStr (c :: cs) ++ '"' :: rest
        = escapeChar c ++ (escapeStr cs ++ '"' :: rest) := by
      show (escapeChar c ++ escapeStr cs) ++ '"' :: rest = _
      rw [List.append_assoc]
    rw [hstep]
    by_cases h1 : c = '"'
    · subst h1
      show parseStrBody (f + 1) ('\\' :: '"' :: (escapeStr cs ++ '"' :: rest))
        = some ('"' :: cs, rest)
      rw [parseStrBody_shortEscape f '"' '"' _ (by decide) (by decide), ih f rest hcs]
    · by_cases h2 : c = '\\'
      · subst h2
        show parseStrBody (f + 1) ('\\' :: '\\' :: (escapeStr cs ++ '"' :: rest))
          = some ('\\' :: cs, rest)
        rw [parseStrBody_shortEscape f '\\' '\\' _ (by decide) (by decide), ih f rest hcs]
      · by_cases h3 : c = '\n'
        · subst h3
          show parseStrBody (f + 1) ('\\' :: 'n' :: (escapeStr cs ++ '"' :: rest))
            = some ('\n' :: cs, rest)
          rw [parseStrBody_shortEscape f 'n' '\n' _ (by decide) (by decide), ih f rest hcs]
        · by_cases h4 : c = '\t'
          · subst h4
            show parseStrBody (f + 1) ('\\' :: 't' :: (escapeStr cs ++ '"' :: rest))
              = some ('\t' :: cs, rest)
            rw [parseStrBody_shortEscape f 't' '\t' _ (by decide) (by decide), ih f rest hcs]
          · by_cases h5 : c = '\r'
            · subst h5
              show parseStrBody (f + 1) ('\\' :: 'r' :: (escapeStr cs ++ '"' :: rest))
                = some ('\r' :: cs, rest)
              rw [parseStrBody_shortEscape f 'r' '\r' _ (by decide) (by decide),
                ih f rest hcs]
            · by_cases h6 : c.toNat = 8
              · have hec : escapeChar c = ['\\', 'b'] := by
                  unfold escapeChar
                  rw [if_neg h1, if_neg h2, if_neg h3, if_neg h4, if_neg h5, if_pos h6]
                rw [hec]
                show parseStrBody (f + 1) ('\\' :: 'b' :: (escapeStr cs ++ '"' :: rest))
                  = some (c :: cs, rest)
                rw [parseStrBody_shortEscape f 'b' (Char.ofNat 8) _ (by decide) (by decide),
                  ih f rest hcs]
                rw [show Char.ofNat 8 = c by rw [← h6, Char.ofNat_toNat]]
              · by_cases h7 : c.toNat = 12
                · have hec : escapeChar c = ['\\', 'f'] := by
                    unfold escapeChar
                    rw [if_neg h1, if_neg h2, if_neg h3, if_neg h4, if_neg h5,
                      if_neg h6, if_pos h7]
                  rw [hec]
                  show parseStrBody (f + 1) ('\\' :: 'f' :: (escapeStr cs ++ '"' :: rest))
                    = some (c :: cs, rest)
                  rw [parseStrBody_shortEscape f 'f' (Char.ofNat 12) _ (by decide) (by decide),
                    ih f rest hcs]
                  rw [show Char.ofNat 12 = c by rw [← h7, Char.ofNat_toNat]]
                · by_cases h8 : c.toNat < 32 ∨ 127 ≤ c.toNat
                  · have hec : escapeChar c = uEscape c.toNat := by
                      unfold escapeChar
                      rw [if_neg h1, if_neg h2, if_neg h3, if_neg h4, if_neg h5,
                        if_neg h6, if_neg h7, if_pos h8]
                    rw [hec]
                    have hval := char_valid_nat c
                    by_cases hbmp : c.toNat < 65536
                    · rw [show uEscape c.toNat = '\\' :: 'u' :: toHex4 c.toNat from by
                        unfold uEscape; rw [if_pos hbmp]]
                      show parseStrBody (f + 1)
                        ('\\' :: 'u' :: (toHex4 c.toNat ++ (escapeStr cs ++ '"' :: rest)))
                        = some (c :: cs, rest)
                      rw [parseStrBody_uEscape_bmp f (by omega) _, ih f rest hcs,
                        Char.ofNat_toNat]
                    · rw [show uEscape c.toNat
                          = ('\\' :: 'u' :: toHex4 (55296 + (c.toNat - 65536) / 1024))
                            ++ ('\\' :: 'u' :: toHex4 (56320 + (c.toNat - 65536) % 1024))
                          from by unfold uEscape; rw [if_neg hbmp]]
                      show parseStrBody (f + 1)
                        ('\\' :: 'u' :: (toHex4 (55296 + (c.toNat - 65536) / 1024)
                          ++ ('\\' :: 'u' :: (toHex4 (56320 + (c.toNat - 65536) % 1024)
                            ++ (escapeStr cs ++ '"' :: rest)))))
                        = some (c :: cs, rest)
                      rw [parseStrBody_uEscape_sur f rfl rfl ⟨by omega, by omega⟩ _,
                        ih f rest hcs, Char.ofNat_toNat]
                  · have hec : escapeChar c = [c] := by
                      unfold escapeChar
                      rw [if_neg h1, if_neg h2, if_neg h3, if_neg h4, if_neg h5,
                        if_neg h6, if_neg h7, if_neg h8]
                    rw [hec]
                    show parseStrBody (f + 1) (c :: (escapeStr cs ++ '"' :: rest))
                      = some (c :: cs, rest)
                    simp only [parseStrBody]
                    rw [if_neg h1, if_neg h2, if_neg (show ¬ c.toNat < 32 by omega),
                      ih f rest hcs]

theorem takeWhile_append_all {p : Char → Bool} {l r : List Char}
    (hl : ∀ c ∈ l, p c = true) (hr : ∀ c, r.head? = some c → p c = false) :
    (l ++ r).takeWhile p = l ∧ (l ++ r).dropWhile p = r := by
  induction l with
  | nil =>
    simp only [List.nil_append]
    cases r with
    | nil => exact ⟨rfl, rfl⟩
    | cons a t =>
      have ha := hr a rfl
      rw [List.takeWhile_cons, List.dropWhile_cons]
      simp [ha]
  | cons a l ih =>
    have hpa : p a = true := hl a (by simp)
    obtain ⟨ht, hd⟩ := ih (fun c hc => hl c (by simp [hc]))
    simp only [List.cons_append, List.takeWhile_cons, List.dropWhile_cons, hpa]
    simp [ht, hd]

theorem numSafeB_head {rest : List Char} (hr : numSafeB rest = true) :
    ∀ c, rest.head? = some c →
      c.isDigit = false ∧ c ≠ '.' ∧ c ≠ 'e' ∧ c ≠ 'E' := by
  cases rest with
  | nil => intro c hc; cases hc
  | cons a t =>
    intro c hc
    simp only [List.head?_cons, Option.some_inj] at hc
    subst hc
    simp only [numSafeB, Bool.not_eq_eq_eq_not, Bool.not_true, Bool.or_eq_false_iff,
      decide_eq_false_iff_not] at hr
    exact ⟨hr.1.1.1, hr.1.1.2, hr.1.2, hr.2⟩

theorem natToDigitsAux_head_ne_zero :
    ∀ fuel n, n < fuel → 1 ≤ n →
      ∀ c, (natToDigitsAux fuel n).head? = some c → c ≠ '0' := by
  intro fuel
  induction fuel with
  | zero => omega
  | succ f ih =>
    intro n hn h1 c hc
    unfold natToDigitsAux at hc
    by_cases h10 : n < 10
    · rw [if_pos h10] at hc
      simp only [List.head?_cons, Option.some_inj] at hc
      subst hc
      refine toNat_ne ?_
      rw [digitChar_toNat]
      have : ('0' : Char).toNat = 48 := rfl
      omega
    · rw [if_neg h10] at hc
      have hne := (natToDigitsAux_spec f (n / 10) (by omega)).2.1
      obtain ⟨d, ds, hds⟩ := List.exists_cons_of_ne_nil hne
      rw [hds] at hc
      simp only [List.cons_append, List.head?_cons, Option.some_inj] at hc
      subst hc
      exact ih (n / 10) (by omega) (by omega) d (by rw [hds]; rfl)

theorem parseNumNat_natToDigits (n : Nat) {rest : List Char}
    (hr : numSafeB rest = true) :
    parseNumNat (natToDigits n ++ rest) = some (n, rest) := by
  obtain ⟨htake, hdrop⟩ := takeWhile_append_all (p := Char.isDigit)
    (natToDigits_all_digit n) (fun c hc => (numSafeB_head hr c hc).1)
  unfold parseNumNat
  simp only [htake, hdrop]
  rw [if_neg (by simp [natToDigits_ne_nil n]),
    if_neg ?hlz]
  case hlz =>
    rintro ⟨hlen, hhead⟩
    by_cases h0 : n = 0
    · subst h0
      have : natToDigits 0 = ['0'] := rfl
      rw [this] at hlen
      simp at hlen
    · exact natToDigitsAux_head_ne_zero (n + 1) n (by omega) (by omega) '0' hhead rfl
  cases hrest : rest with
  | nil =>
    show some (digitsToNat (natToDigits n), ([] : List Char)) = some (n, [])
    rw [digitsToNat_natToDigits]
  | cons a t =>
    have ha := numSafeB_head hr a (by rw [hrest]; rfl)
    show (if a = '.' ∨ a = 'e' ∨ a = 'E' then none
      else some (digitsToNat (natToDigits n), a :: t)) = some (n, a :: t)
    rw [if_neg (by
      rintro (h | h | h)
      · exact ha.2.1 h
      · exact ha.2.2.1 h
      · exact ha.2.2.2 h), digitsToNat_natToDigits]

theorem parseNum_intToChars (n : Int) {rest : List Char}
    (hr : numSafeB rest = true) :
    parseNum (intToChars n ++ rest) = some (n, rest) := by
  unfold intToChars
  by_cases hn : n < 0
  · rw [if_pos hn]
    show parseNum ('-' :: (natToDigits n.natAbs ++ rest)) = some (n, rest)
    simp only [parseNum]
    rw [if_true, parseNumNat_natToDigits n.natAbs hr]
    show some (-(n.natAbs : Int), rest) = some (n, rest)
    rw [show -((n.natAbs : Nat) : Int) = n from by omega]
  · rw [if_neg hn]
    obtain ⟨c, cs, hc⟩ := List.exists_cons_of_ne_nil (natToDigits_ne_nil n.toNat)
    have hcd : c.isDigit = true := natToDigits_all_digit n.toNat c (by rw [hc]; simp)
    have h2 : natToDigits n.toNat ++ rest = c :: (cs ++ rest) := by rw [hc]; rfl
    rw [h2]
    simp only [parseNum]
    rw [if_neg (isDigit_ne hcd (by decide)), ← h2,
      parseNumNat_natToDigits n.toNat hr]
    show some ((n.toNat : Int), rest) = some (n, rest)
    rw [show ((n.toNat : Nat) : Int) = n from by omega]

theorem jsonWS_eq_false_of_digit {c : Char} (h : c.isDigit = true) :
    jsonWS c = false := by
  obtain ⟨h1, h2⟩ := isDigit_toNat h
  have e1 : (' ' : Char).toNat = 32 := rfl
  have e2 : ('\t' : Char).toNat = 9 := rfl
  have e3 : ('\n' : Char).toNat = 10 := rfl
  have e4 : ('\r' : Char).toNat = 13 := rfl
  unfold jsonWS
  simp only [Bool.or_eq_false_iff, beq_eq_false_iff_ne, ne_eq]
  exact ⟨⟨⟨toNat_ne (by omega), toNat_ne (by omega)⟩, toNat_ne (by omega)⟩,
    toNat_ne (by omega)⟩

theorem intToChars_head (n : Int) :
    ∃ c cs, intToChars n = c :: cs ∧ (c = '-' ∨ c.isDigit = true) := by
  unfold intToChars
  by_cases hn : n < 0
  · rw [if_pos hn]
    exact ⟨'-', _, rfl, Or.inl rfl⟩
  · rw [if_neg hn]
    obtain ⟨c, cs, hc⟩ := List.exists_cons_of_ne_nil (natToDigits_ne_nil n.toNat)
    exact ⟨c, cs, hc, Or.inr (natToDigits_all_digit n.toNat c (by rw [hc]; simp))⟩

/-- Character-class facts about the head of a compact dump: never JSON
whitespace and never a list terminator or separator. -/
theorem dumps_head (v : Json) : ∃ c cs, dumps v = c :: cs
    ∧ jsonWS c = false ∧ c ≠ ']' ∧ c ≠ ',' := by
  cases v with
  | null =>
    refine ⟨'n', _, rfl, ?_, ?_, ?_⟩ <;> decide
  | bool b =>
    cases b
    · refine ⟨'f', _, rfl, ?_, ?_, ?_⟩ <;> decide
    · refine ⟨'t', _, rfl, ?_, ?_, ?_⟩ <;> decide
  | num n =>
    obtain ⟨c, cs, hc, hcc⟩ := intToChars_head n
    refine ⟨c, cs, hc, ?_, ?_, ?_⟩
    · rcases hcc with h | h
      · subst h; decide
      · exact jsonWS_eq_false_of_digit h
    · rcases hcc with h | h
      · subst h; decide
      · exact isDigit_ne h (by decide)
    · rcases hcc with h | h
      · subst h; decide
      · exact isDigit_ne h (by decide)
  | str s =>
    refine ⟨'"', _, rfl, ?_, ?_, ?_⟩ <;> decide
  | arr xs =>
    refine ⟨'[', _, rfl, ?_, ?_, ?_⟩ <;> decide
  | obj kvs =>
    refine ⟨lbChar, _, rfl, ?_, ?_, ?_⟩ <;> decide

/-- The head of nonempty compact array items is the head of the first
item's dump. -/
theorem dumpsItems_head (x : Json) (xs : List Json) :
    ∃ c cs, dumpsItems (x :: xs) = c :: cs
      ∧ jsonWS c = false ∧ c ≠ ']' := by
  obtain ⟨c, cs, hc, hws, hbr, _⟩ := dumps_head x
  cases xs with
  | nil => exact ⟨c, cs, hc, hws, hbr⟩
  | cons y ys =>
    refine ⟨c, cs ++ ',' :: ' ' :: dumpsItems (y :: ys), ?_, hws, hbr⟩
    show dumps x ++ ',' :: ' ' :: dumpsItems (y :: ys) = _
    rw [hc]
    rfl

/-- Nonempty compact object members start with a double quote. -/
theorem dumpsMembers_cons_head (m : List Char × Json)
    (kvs : List (List Char × Json)) :
    ∃ cs, dumpsMembers (m :: kvs) = '"' :: cs := by
  obtain ⟨k, v⟩ := m
  cases kvs with
  | nil => exact ⟨_, rfl⟩
  | cons m2 r => exact ⟨_, rfl⟩

theorem parseVal_ws (f : Nat) (s : List Char) :
    parseVal f (' ' :: s) = parseVal f s := by
  cases f with
  | zero => rfl
  | succ g =>
    unfold parseVal
    rw [show skipWS (' ' :: s) = skipWS s from List.dropWhile_cons_of_pos (by decide)]

theorem parseItems_ws (f : Nat) (s : List Char) :
    parseItems f (' ' :: s) = parseItems f s := by
  cases f with
  | zero => rfl
  | succ g =>
    unfold parseItems
    rw [parseVal_ws]

theorem parseMembers_ws (f : Nat) (s : List Char) :
    parseMembers f (' ' :: s) = parseMembers f s := by
  cases f with
  | zero => rfl
  | succ g =>
    unfold parseMembers
    rw [show skipWS (' ' :: s) = skipWS s from List.dropWhile_cons_of_pos (by decide)]

theorem skipWS_cons_of_not {c : Char} {s : List Char} (h : jsonWS c = false) :
    skipWS (c :: s) = c :: s := by
  unfold skipWS
  exact List.dropWhile_cons_of_neg (by simp [h])

theorem skipWS_quote (t : List Char) : skipWS ('"' :: t) = '"' :: t := rfl

theorem skipWS_colon (t : List Char) : skipWS (':' :: t) = ':' :: t := rfl

theorem skipWS_comma (t : List Char) : skipWS (',' :: t) = ',' :: t := rfl

theorem skipWS_rbrk (t : List Char) : skipWS (']' :: t) = ']' :: t := rfl

theorem skipWS_rb (t : List Char) : skipWS (rbChar :: t) = rbChar :: t := rfl

theorem isPrefixOf_rue (t : List Char) :
    (chars "rue").isPrefixOf ('r' :: 'u' :: 'e' :: t) = true := by
  rw [List.isPrefixOf_iff_prefix]
  exact ⟨t, rfl⟩

theorem isPrefixOf_alse (t : List Char) :
    (chars "alse").isPrefixOf ('a' :: 'l' :: 's' :: 'e' :: t) = true := by
  rw [List.isPrefixOf_iff_prefix]
  exact ⟨t, rfl⟩

theorem isPrefixOf_ull (t : List Char) :
    (chars "ull").isPrefixOf ('u' :: 'l' :: 'l' :: t) = true := by
  rw [List.isPrefixOf_iff_prefix]
  exact ⟨t, rfl⟩

theorem parseVal_null (g : Nat) (t : List Char) :
    parseVal (g + 1) ('n' :: 'u' :: 'l' :: 'l' :: t) = some (.null, t) := by
  simp only [parseVal, skipWS_cons_of_not (show jsonWS 'n' = false by decide),
    Char.reduceEq, reduceIte, if_neg (show ¬ ('n' : Char) = lbChar by decide),
    isPrefixOf_ull, eq_self_iff_true, if_true,
    List.drop_succ_cons, List.drop_zero]

theorem parseVal_true (g : Nat) (t : List Char) :
    parseVal (g + 1) ('t' :: 'r' :: 'u' :: 'e' :: t) = some (.bool true, t) := by
  simp only [parseVal, skipWS_cons_of_not (show jsonWS 't' = false by decide),
    Char.reduceEq, reduceIte, if_neg (show ¬ ('t' : Char) = lbChar by decide),
    isPrefixOf_rue, eq_self_iff_true, if_true,
    List.drop_succ_cons, List.drop_zero]

theorem parseVal_false (g : Nat) (t : List Char) :
    parseVal (g + 1) ('f' :: 'a' :: 'l' :: 's' :: 'e' :: t) = some (.bool false, t) := by
  simp only [parseVal, skipWS_cons_of_not (show jsonWS 'f' = false by decide),
    Char.reduceEq, reduceIte, if_neg (show ¬ ('f' : Char) = lbChar by decide),
    isPrefixOf_alse, eq_self_iff_true, if_true,
    List.drop_succ_cons, List.drop_zero]

theorem parseVal_arr_nil (g : Nat) (t : List Char) :
    parseVal (g + 1) ('[' :: ']' :: t) = some (.arr [], t) := by
  simp only [parseVal, skipWS_cons_of_not (show jsonWS '[' = false by decide),
    Char.reduceEq, reduceIte, if_neg (show ¬ ('[' : Char) = lbChar by decide),
    skipWS_rbrk, eq_self_iff_true, if_true]

theorem parseVal_obj_nil (g : Nat) (t : List Char) :
    parseVal (g + 1) (lbChar :: rbChar :: t) = some (.obj [], t) := by
  simp only [parseVal, skipWS_cons_of_not (show jsonWS lbChar = false by decide),
    if_neg (show ¬ lbChar = '"' by decide), if_neg (show ¬ lbChar = '[' by decide),
    skipWS_rb, eq_self_iff_true, if_true]

theorem sizeOf_json_pos (v : Json) : 1 ≤ sizeOf v := by
  cases v <;> simp <;> omega

/-- Round-trip for the compact serializer against the parser at every
level, by strong induction on term size. -/
theorem parse_dumps_all : ∀ N : Nat,
    (∀ v : Json, sizeOf v ≤ N → ∀ f rest, weight v < f → numSafeB rest = true →
        parseVal f (dumps v ++ rest) = some (v, rest))
    ∧ (∀ xs : List Json, sizeOf xs ≤ N → xs ≠ [] → ∀ f rest, weightItems xs < f →
        parseItems f (dumpsItems xs ++ ']' :: rest) = some (xs, rest))
    ∧ (∀ kvs : List (List Char × Json), sizeOf kvs ≤ N → kvs ≠ [] →
        ∀ f rest, weightMembers kvs < f →
        parseMembers f (dumpsMembers kvs ++ rbChar :: rest) = some (kvs, rest)) := by
  intro N
  induction N with
  | zero =>
    refine ⟨fun v hv => absurd hv ?_, fun xs hxs hne => absurd hxs ?_,
      fun kvs hkvs hne => absurd hkvs ?_⟩
    · have := sizeOf_json_pos v
      omega
    · cases xs <;> simp <;> omega
    · cases kvs <;> simp <;> omega
  | succ n ih =>
    obtain ⟨Pval, Pitems, Pmembers⟩ := ih
    refine ⟨?_, ?_, ?_⟩
    · -- parseVal over dumps
      intro v hv f rest hf hr
      cases f with
      | zero => exact absurd hf (by omega)
      | succ g =>
      cases v with
      | null => exact parseVal_null g rest
      | bool b =>
        cases b with
        | true => exact parseVal_true g rest
        | false => exact parseVal_false g rest
      | num m =>
        obtain ⟨c, cs, hc, hcc⟩ := intToChars_head m
        have hnum : parseNum (c :: (cs ++ rest)) = some (m, rest) := by
          have h0 := parseNum_intToChars m hr
          rw [show intToChars m ++ rest = c :: (cs ++ rest) from by rw [hc]; rfl] at h0
          exact h0
        have hws : jsonWS c = false := by
          rcases hcc with h | h
          · subst h; decide
          · exact jsonWS_eq_false_of_digit h
        have hd : ∀ d : Char,
            (d.toNat < 45 ∨ (45 < d.toNat ∧ d.toNat < 48) ∨ 57 < d.toNat) → ¬ c = d := by
          intro d hdn
          rcases hcc with h | h
          · subst h
            refine toNat_ne ?_
            have h45 : ('-' : Char).toNat = 45 := rfl
            omega
          · have := isDigit_toNat h
            exact toNat_ne (by omega)
        rw [show dumps (.num m) ++ rest = c :: (cs ++ rest) from by
          rw [show dumps (.num m) = intToChars m from rfl, hc]; rfl]
        simp only [parseVal, skipWS_cons_of_not hws, if_neg (hd '"' (by decide)),
          if_neg (hd '[' (by decide)), if_neg (hd lbChar (by decide)),
          if_neg (hd 't' (by decide)), if_neg (hd 'f' (by decide)),
          if_neg (hd 'n' (by decide)), hnum]
      | str s =>
        have hre : dumps (.str s) ++ rest = '"' :: (escapeStr s ++ '"' :: rest) := by
          show ('"' :: (escapeStr s ++ ['"'])) ++ rest = _
          simp only [List.cons_append, List.append_assoc, List.singleton_append, List.nil_append]
        rw [hre]
        have hstr := parseStrBody_escapeStr s g rest
          (by simp only [weight] at hf; omega)
        simp only [parseVal, skipWS_quote, Char.reduceEq, reduceIte,
          if_neg (show ¬ ('"' : Char) = lbChar by decide),
          eq_self_iff_true, if_true, hstr]
      | arr xs =>
        cases xs with
        | nil => exact parseVal_arr_nil g rest
        | cons x xs2 =>
          have harg : dumps (.arr (x :: xs2)) ++ rest
              = '[' :: (dumpsItems (x :: xs2) ++ ']' :: rest) := by
            show ('[' :: (dumpsItems (x :: xs2) ++ [']'])) ++ rest = _
            simp only [List.cons_append, List.append_assoc, List.singleton_append, List.nil_append]
          rw [harg]
          obtain ⟨c, cs, hdi, hws, hbr⟩ := dumpsItems_head x xs2
          have hitems : parseItems g (dumpsItems (x :: xs2) ++ ']' :: rest)
              = some (x :: xs2, rest) := by
            refine Pitems (x :: xs2) ?_ (by simp) g rest ?_
            · have : sizeOf (Json.arr (x :: xs2)) = 1 + sizeOf (x :: xs2) := by simp
              omega
            · simp only [weight] at hf
              omega
          rw [hdi] at hitems ⊢
          simp only [List.cons_append] at hitems ⊢
          simp only [parseVal, skipWS_cons_of_not (show jsonWS '[' = false by decide),
            Char.reduceEq, reduceIte, if_neg (show ¬ ('[' : Char) = lbChar by decide),
            eq_self_iff_true, if_true,
            skipWS_cons_of_not hws, if_neg hbr, hitems]
      | obj kvs =>
        cases kvs with
        | nil => exact parseVal_obj_nil g rest
        | cons m kvs2 =>
          have harg : dumps (.obj (m :: kvs2)) ++ rest
              = lbChar :: (dumpsMembers (m :: kvs2) ++ rbChar :: rest) := by
            show (lbChar :: (dumpsMembers (m :: kvs2) ++ [rbChar])) ++ rest = _
            simp only [List.cons_append, List.append_assoc, List.singleton_append, List.nil_append]
          rw [harg]
          obtain ⟨cs, hdm⟩ := dumpsMembers_cons_head m kvs2
          have hmem : parseMembers g (dumpsMembers (m :: kvs2) ++ rbChar :: rest)
              = some (m :: kvs2, rest) := by
            refine Pmembers (m :: kvs2) ?_ (by simp) g rest ?_
            · have : sizeOf (Json.obj (m :: kvs2)) = 1 + sizeOf (m :: kvs2) := by simp
              omega
            · simp only [weight] at hf
              omega
          rw [hdm] at hmem ⊢
          simp only [List.cons_append] at hmem ⊢
          simp only [parseVal, skipWS_cons_of_not (show jsonWS lbChar = false by decide),
            if_neg (show ¬ lbChar = '"' by decide), if_neg (show ¬ lbChar = '[' by decide),
            eq_self_iff_true, if_true, skipWS_quote,
            if_neg (show ¬ ('"' : Char) = rbChar by decide), hmem]
    · -- parseItems over dumpsItems
      intro xs hxs hne f rest hf
      cases f with
      | zero => exact absurd hf (by omega)
      | succ g =>
      cases xs with
      | nil => exact absurd rfl hne
      | cons x xs2 =>
        have hszx : sizeOf x ≤ n := by
          have h1 : sizeOf (x :: xs2) = 1 + sizeOf x + sizeOf xs2 := by simp
          have h2 : 1 ≤ sizeOf xs2 := by cases xs2 <;> simp <;> omega
          omega
        cases xs2 with
        | nil =>
          have hval : parseVal g (dumps x ++ ']' :: rest) = some (x, ']' :: rest) := by
            refine Pval x hszx g (']' :: rest) ?_ rfl
            simp only [weightItems] at hf
            omega
          show parseItems (g + 1) (dumps x ++ ']' :: rest) = some ([x], rest)
          simp only [parseItems, hval, skipWS_rbrk]
          try rfl
        | cons y ys =>
          have harg : dumpsItems (x :: y :: ys) ++ ']' :: rest
              = dumps x ++ (',' :: ' ' :: (dumpsItems (y :: ys) ++ ']' :: rest)) := by
            show (dumps x ++ ',' :: ' ' :: dumpsItems (y :: ys)) ++ ']' :: rest = _
            simp only [List.append_assoc, List.cons_append]
          rw [harg]
          have hval : parseVal g (dumps x ++ (',' :: ' ' :: (dumpsItems (y :: ys) ++ ']' :: rest)))
              = some (x, ',' :: ' ' :: (dumpsItems (y :: ys) ++ ']' :: rest)) := by
            refine Pval x hszx g _ ?_ rfl
            simp only [weightItems] at hf
            omega
          have hrec : parseItems g (dumpsItems (y :: ys) ++ ']' :: rest)
              = some (y :: ys, rest) := by
            refine Pitems (y :: ys) ?_ (by simp) g rest ?_
            · have h1 : sizeOf (x :: y :: ys) = 1 + sizeOf x + sizeOf (y :: ys) := by simp
              have h2 := sizeOf_json_pos x
              omega
            · simp only [weightItems] at hf
              omega
          simp only [parseItems, hval, skipWS_comma, parseItems_ws, hrec]
    · -- parseMembers over dumpsMembers
      intro kvs hkvs hne f rest hf
      cases f with
      | zero => exact absurd hf (by omega)
      | succ g =>
      cases kvs with
      | nil => exact absurd rfl hne
      | cons m kvs2 =>
        obtain ⟨k, v⟩ := m
        have hszv : sizeOf v ≤ n := by
          have h1 : sizeOf ((k, v) :: kvs2) = 1 + (1 + sizeOf k + sizeOf v) + sizeOf kvs2 := by
            simp
          have h2 : 1 ≤ sizeOf kvs2 := by cases kvs2 <;> simp <;> omega
          omega
        cases kvs2 with
        | nil =>
          have harg : dumpsMembers [(k, v)] ++ rbChar :: rest
              = '"' :: (escapeStr k ++ '"' :: (':' :: ' ' :: (dumps v ++ rbChar :: rest))) := by
            show ('"' :: escapeStr k ++ '"' :: ':' :: ' ' :: dumps v) ++ rbChar :: rest = _
            simp only [List.append_assoc, List.cons_append]
          rw [harg]
          have hkey := parseStrBody_escapeStr k g
            (':' :: ' ' :: (dumps v ++ rbChar :: rest))
            (by simp only [weightMembers] at hf; omega)
          have hval : parseVal g (dumps v ++ rbChar :: rest) = some (v, rbChar :: rest) := by
            refine Pval v hszv g _ ?_ rfl
            simp only [weightMembers] at hf
            omega
          simp only [parseMembers, skipWS_quote, hkey, skipWS_colon, parseVal_ws,
            hval, skipWS_rb]
          rfl
        | cons m2 kvt =>
          have harg : dumpsMembers ((k, v) :: m2 :: kvt) ++ rbChar :: rest
              = '"' :: (escapeStr k ++ '"' :: (':' :: ' ' ::
                  (dumps v ++ (',' :: ' ' :: (dumpsMembers (m2 :: kvt) ++ rbChar :: rest))))) := by
            show ('"' :: escapeStr k ++ '"' :: ':' :: ' ' :: dumps v
                ++ ',' :: ' ' :: dumpsMembers (m2 :: kvt)) ++ rbChar :: rest = _
            simp only [List.append_assoc, List.cons_append]
          rw [harg]
          have hkey := parseStrBody_escapeStr k g
            (':' :: ' ' :: (dumps v ++ (',' :: ' ' :: (dumpsMembers (m2 :: kvt) ++ rbChar :: rest))))
            (by simp only [weightMembers] at hf; omega)
          have hval : parseVal g (dumps v ++ (',' :: ' ' :: (dumpsMembers (m2 :: kvt) ++ rbChar :: rest)))
              = some (v, ',' :: ' ' :: (dumpsMembers (m2 :: kvt) ++ rbChar :: rest)) := by
            refine Pval v hszv g _ ?_ rfl
            simp only [weightMembers] at hf
            omega
          have hrec : parseMembers g (dumpsMembers (m2 :: kvt) ++ rbChar :: rest)
              = some (m2 :: kvt, rest) := by
            refine Pmembers (m2 :: kvt) ?_ (by simp) g rest ?_
            · have h1 : sizeOf ((k, v) :: m2 :: kvt)
                  = 1 + (1 + sizeOf k + sizeOf v) + sizeOf (m2 :: kvt) := by simp
              omega
            · simp only [weightMembers] at hf
              omega
          simp only [parseMembers, skipWS_quote, hkey, skipWS_colon, parseVal_ws,
            hval, skipWS_comma, parseMembers_ws, hrec]

/-- Round-trip at the value level, fuel given explicitly. -/
theorem parseVal_dumps (v : Json) (f : Nat) (rest : List Char)
    (hf : weight v < f) (hr : numSafeB rest = true) :
    parseVal f (dumps v ++ rest) = some (v, rest) :=
  (parse_dumps_all (sizeOf v)).1 v le_rfl f rest hf hr

theorem escapeChar_length_pos (c : Char) : 1 ≤ (escapeChar c).length := by
  unfold escapeChar uEscape
  repeat' split
  all_goals simp

theorem escapeStr_length (s : List Char) : s.length ≤ (escapeStr s).length := by
  induction s with
  | nil => simp [escapeStr]
  | cons c cs ih =>
    have h1 : escapeStr (c :: cs) = escapeChar c ++ escapeStr cs := rfl
    rw [h1, List.length_append, List.length_cons]
    have := escapeChar_length_pos c
    omega

/-- The parser-fuel measure is bounded by twice the serialized length. -/
theorem weight_le_all : ∀ N : Nat,
    (∀ v : Json, sizeOf v ≤ N → weight v ≤ 2 * (dumps v).length + 2)
    ∧ (∀ xs : List Json, sizeOf xs ≤ N → xs ≠ [] →
        weightItems xs ≤ 2 * (dumpsItems xs).length + 3)
    ∧ (∀ kvs : List (List Char × Json), sizeOf kvs ≤ N → kvs ≠ [] →
        weightMembers kvs ≤ 2 * (dumpsMembers kvs).length + 3) := by
  intro N
  induction N with
  | zero =>
    refine ⟨fun v hv => absurd hv ?_, fun xs hxs hne => absurd hxs ?_,
      fun kvs hkvs hne => absurd hkvs ?_⟩
    · have := sizeOf_json_pos v
      omega
    · cases xs <;> simp <;> omega
    · cases kvs <;> simp <;> omega
  | succ n ih =>
    obtain ⟨Wval, Witems, Wmembers⟩ := ih
    refine ⟨?_, ?_, ?_⟩
    · intro v hv
      cases v with
      | null => decide
      | bool b => cases b <;> decide
      | num m =>
        simp only [weight]
        omega
      | str s =>
        simp only [weight, dumps, List.length_cons, List.length_append,
          List.length_singleton]
        have := escapeStr_length s
        omega
      | arr xs =>
        cases xs with
        | nil => decide
        | cons x xs2 =>
          have hi : weightItems (x :: xs2) ≤ 2 * (dumpsItems (x :: xs2)).length + 3 := by
            refine Witems (x :: xs2) ?_ (by simp)
            have : sizeOf (Json.arr (x :: xs2)) = 1 + sizeOf (x :: xs2) := by simp
            omega
          simp only [weight, dumps, List.length_cons, List.length_append,
            List.length_singleton]
          omega
      | obj kvs =>
        cases kvs with
        | nil => decide
        | cons m kvs2 =>
          have hi : weightMembers (m :: kvs2) ≤ 2 * (dumpsMembers (m :: kvs2)).length + 3 := by
            refine Wmembers (m :: kvs2) ?_ (by simp)
            have : sizeOf (Json.obj (m :: kvs2)) = 1 + sizeOf (m :: kvs2) := by simp
            omega
          simp only [weight, dumps, List.length_cons, List.length_append,
            List.length_singleton]
          omega
    · intro xs hxs hne
      cases xs with
      | nil => exact absurd rfl hne
      | cons x xs2 =>
        have hszx : sizeOf x ≤ n := by
          have h1 : sizeOf (x :: xs2) = 1 + sizeOf x + sizeOf xs2 := by simp
          have h2 : 1 ≤ sizeOf xs2 := by cases xs2 <;> simp <;> omega
          omega
        have hx := Wval x hszx
        cases xs2 with
        | nil =>
          simp only [weightItems, dumpsItems]
          omega
        | cons y ys =>
          have hys : weightItems (y :: ys) ≤ 2 * (dumpsItems (y :: ys)).length + 3 := by
            refine Witems (y :: ys) ?_ (by simp)
            have h1 : sizeOf (x :: y :: ys) = 1 + sizeOf x + sizeOf (y :: ys) := by simp
            have h2 := sizeOf_json_pos x
            omega
          simp only [weightItems, dumpsItems, List.length_append, List.length_cons]
          omega
    · intro kvs hkvs hne
      cases kvs with
      | nil => exact absurd rfl hne
      | cons m kvs2 =>
        obtain ⟨k, v⟩ := m
        have hszv : sizeOf v ≤ n := by
          have h1 : sizeOf ((k, v) :: kvs2) = 1 + (1 + sizeOf k + sizeOf v) + sizeOf kvs2 := by
            simp
          have h2 : 1 ≤ sizeOf kvs2 := by cases kvs2 <;> simp <;> omega
          omega
        have hv := Wval v hszv
        have hk := escapeStr_length k
        cases kvs2 with
        | nil =>
          simp only [weightMembers, dumpsMembers, List.length_cons, List.length_append]
          omega
        | cons m2 kvt =>
          have hrest : weightMembers (m2 :: kvt) ≤ 2 * (dumpsMembers (m2 :: kvt)).length + 3 := by
            refine Wmembers (m2 :: kvt) ?_ (by simp)
            have h1 : sizeOf ((k, v) :: m2 :: kvt)
                = 1 + (1 + sizeOf k + sizeOf v) + sizeOf (m2 :: kvt) := by simp
            omega
          simp only [weightMembers, dumpsMembers, List.length_cons, List.length_append]
          omega

/-- `json.loads` inverts `json.dumps`. -/
theorem jsonLoads_dumps (v : Json) : jsonLoads (dumps v) = some v := by
  unfold jsonLoads
  have hw : weight v ≤ 2 * (dumps v).length + 2 := (weight_le_all (sizeOf v)).1 v le_rfl
  have h1 : parseVal (2 * (dumps v).length + 4) (dumps v ++ []) = some (v, []) :=
    parseVal_dumps v _ [] (by omega) rfl
  rw [List.append_nil] at h1
  rw [h1]
  rfl

/-! ### Marker-extraction lemmas for the approval artifact -/
theorem noOcc_mono {lead pat s : List Char} (hl : lead <+: pat)
    (h : NoOcc lead s) : NoOcc pat s := by
  intro p
  cases hb : occAt pat s p with
  | false => rfl
  | true => exact absurd (occAt_of_occAt_of_lead hl hb) (by simp [h p])

theorem mem_of_getElem? {s : List Char} {p : Nat} {c : Char}
    (h : s[p]? = some c) : c ∈ s := by
  have hp : p < s.length := by
    by_contra hc
    rw [List.getElem?_eq_none (by omega)] at h
    cases h
  rw [List.getElem?_eq_getElem hp, Option.some_inj] at h
  rw [← h]
  exact List.getElem_mem hp

/-- A pattern whose first character appears nowhere in `s` has no
occurrence in `s`. -/
theorem noOcc_of_no_head {pat s : List Char} {h0 : Char}
    (hp : pat[0]? = some h0) (h : ∀ c ∈ s, ¬ c = h0) : NoOcc pat s := by
  intro p
  cases hb : occAt pat s p with
  | false => rfl
  | true =>
    exfalso
    have hlen : 0 < pat.length := by
      cases pat with
      | nil => cases hp
      | cons a t => simp
    have h1 := occAt_getElem? hb 0 hlen
    rw [hp, Nat.add_zero] at h1
    exact h h0 (mem_of_getElem? h1) rfl

theorem isPrefixOf_append_self (l t : List Char) : l.isPrefixOf (l ++ t) = true := by
  rw [List.isPrefixOf_iff_prefix]
  exact ⟨t, rfl⟩

theorem hexDigitCh_ne_newline {n : Nat} (hn : n < 16) : ¬ hexDigitCh n = '\n' := by
  interval_cases n <;> decide

theorem toHex4_no_newline (v : Nat) : ∀ d ∈ toHex4 v, ¬ d = '\n' := by
  intro d hd
  simp only [toHex4, List.mem_cons, List.not_mem_nil, or_false] at hd
  rcases hd with h | h | h | h <;>
    (subst h; exact hexDigitCh_ne_newline (by omega))

theorem uEscape_no_newline (v : Nat) : ∀ d ∈ uEscape v, ¬ d = '\n' := by
  intro d hd
  unfold uEscape at hd
  split at hd
  · rcases List.mem_cons.mp hd with h | hd2
    · subst h; decide
    · rcases List.mem_cons.mp hd2 with h | hd3
      · subst h; decide
      · exact toHex4_no_newline _ d hd3
  · rcases List.mem_append.mp hd with hd2 | hd2
    · rcases List.mem_cons.mp hd2 with h | hd3
      · subst h; decide
      · rcases List.mem_cons.mp hd3 with h | hd4
        · subst h; decide
        · exact toHex4_no_newline _ d hd4
    · rcases List.mem_cons.mp hd2 with h | hd3
      · subst h; decide
      · rcases List.mem_cons.mp hd3 with h | hd4
        · subst h; decide
        · exact toHex4_no_newline _ d hd4

theorem escapeChar_no_newline (c : Char) : ∀ d ∈ escapeChar c, ¬ d = '\n' := by
  intro d hd
  unfold escapeChar at hd
  repeat' split at hd
  all_goals first
    | (simp only [List.mem_cons, List.not_mem_nil, or_false] at hd
       rcases hd with h | h <;> subst h <;> decide)
    | (simp only [List.mem_cons, List.not_mem_nil, or_false] at hd
       subst hd
       refine toNat_ne ?_
       have hnl : ('\n' : Char).toNat = 10 := rfl
       omega)
    | exact uEscape_no_newline _ d hd

theorem escapeStr_no_newline (s : List Char) : ∀ d ∈ escapeStr s, ¬ d = '\n' := by
  induction s with
  | nil => intro d hd; cases hd
  | cons c cs ih =>
    intro d hd
    rw [show escapeStr (c :: cs) = escapeChar c ++ escapeStr cs from rfl] at hd
    rcases List.mem_append.mp hd with h | h
    · exact escapeChar_no_newline c d h
    · exact ih d h

/-- No raw newline anywhere in a compact dump (newlines in strings are
escaped, and the compact separators contain none). -/
theorem dumps_no_newline_all : ∀ N : Nat,
    (∀ v : Json, sizeOf v ≤ N → ∀ d ∈ dumps v, ¬ d = '\n')
    ∧ (∀ xs : List Json, sizeOf xs ≤ N → ∀ d ∈ dumpsItems xs, ¬ d = '\n')
    ∧ (∀ kvs : List (List Char × Json), sizeOf kvs ≤ N →
        ∀ d ∈ dumpsMembers kvs, ¬ d = '\n') := by
  intro N
  induction N with
  | zero =>
    refine ⟨fun v hv => absurd hv ?_, ?_, ?_⟩
    · have := sizeOf_json_pos v
      omega
    · intro xs hxs
      cases xs with
      | nil => intro d hd; cases hd
      | cons x t => exact absurd hxs (by simp <;> omega)
    · intro kvs hkvs
      cases kvs with
      | nil => intro d hd; cases hd
      | cons m t => exact absurd hkvs (by simp <;> omega)
  | succ n ih =>
    obtain ⟨Nval, Nitems, Nmembers⟩ := ih
    refine ⟨?_, ?_, ?_⟩
    · intro v hv
      cases v with
      | null => decide
      | bool b => cases b <;> decide
      | num m =>
        intro d hd
        rw [show dumps (.num m) = intToChars m from rfl] at hd
        unfold intToChars at hd
        split at hd
        · rcases List.mem_cons.mp hd with h | h
          · subst h; decide
          · have := isDigit_toNat (natToDigits_all_digit _ d h)
            refine toNat_ne ?_
            have hnl : ('\n' : Char).toNat = 10 := rfl
            omega
        · have := isDigit_toNat (natToDigits_all_digit _ d hd)
          refine toNat_ne ?_
          have hnl : ('\n' : Char).toNat = 10 := rfl
          omega
      | str s =>
        intro d hd
        rw [show dumps (.str s) = '"' :: (escapeStr s ++ ['"']) from rfl] at hd
        rcases List.mem_cons.mp hd with h | h
        · subst h; decide
        · rcases List.mem_append.mp h with h2 | h2
          · exact escapeStr_no_newline s d h2
          · rcases List.mem_cons.mp h2 with h3 | h3
            · subst h3; decide
            · cases h3
      | arr xs =>
        intro d hd
        rw [show dumps (.arr xs) = '[' :: (dumpsItems xs ++ [']']) from rfl] at hd
        rcases List.mem_cons.mp hd with h | h
        · subst h; decide
        · rcases List.mem_append.mp h with h2 | h2
          · refine Nitems xs ?_ d h2
            have : sizeOf (Json.arr xs) = 1 + sizeOf xs := by simp
            omega
          · rcases List.mem_cons.mp h2 with h3 | h3
            · subst h3; decide
            · cases h3
      | obj kvs =>
        intro d hd
        rw [show dumps (.obj kvs) = lbChar :: (dumpsMembers kvs ++ [rbChar]) from rfl] at hd
        rcases List.mem_cons.mp hd with h | h
        · subst h; decide
        · rcases List.mem_append.mp h with h2 | h2
          · refine Nmembers kvs ?_ d h2
            have : sizeOf (Json.obj kvs) = 1 + sizeOf kvs := by simp
            omega
          · rcases List.mem_cons.mp h2 with h3 | h3
            · subst h3; decide
            · cases h3
    · intro xs hxs
      cases xs with
      | nil => intro d hd; cases hd
      | cons x xs2 =>
        have hszx : sizeOf x ≤ n := by
          have h1 : sizeOf (x :: xs2) = 1 + sizeOf x + sizeOf xs2 := by simp
          have h2 : 1 ≤ sizeOf xs2 := by cases xs2 <;> simp <;> omega
          omega
        cases xs2 with
        | nil => exact fun d hd => Nval x hszx d hd
        | cons y ys =>
          intro d hd
          rw [show dumpsItems (x :: y :: ys)
              = dumps x ++ ',' :: ' ' :: dumpsItems (y :: ys) from rfl] at hd
          rcases List.mem_append.mp hd with h | h
          · exact Nval x hszx d h
          · rcases List.mem_cons.mp h with h2 | h2
            · subst h2; decide
            · rcases List.mem_cons.mp h2 with h3 | h3
              · subst h3; decide
              · refine Nitems (y :: ys) ?_ d h3
                have h1 : sizeOf (x :: y :: ys) = 1 + sizeOf x + sizeOf (y :: ys) := by simp
                have h2 := sizeOf_json_pos x
                omega
    · intro kvs hkvs
      cases kvs with
      | nil => intro d hd; cases hd
      | cons m kvs2 =>
        obtain ⟨k, v⟩ := m
        have hszv : sizeOf v ≤ n := by
          have h1 : sizeOf ((k, v) :: kvs2) = 1 + (1 + sizeOf k + sizeOf v) + sizeOf kvs2 := by
            simp
          have h2 : 1 ≤ sizeOf kvs2 := by cases kvs2 <;> simp <;> omega
          omega
        have hkv : ∀ d, d ∈ ('"' :: escapeStr k ++ '"' :: ':' :: ' ' :: dumps v) → ¬ d = '\n' := by
          intro d hd
          rcases List.mem_cons.mp hd with h | h
          · subst h; decide
          · rcases List.mem_append.mp h with h2 | h2
            · exact escapeStr_no_newline k d h2
            · rcases List.mem_cons.mp h2 with h3 | h3
              · subst h3; decide
              · rcases List.mem_cons.mp h3 with h4 | h4
                · subst h4; decide
                · rcases List.mem_cons.mp h4 with h5 | h5
                  · subst h5; decide
                  · exact Nval v hszv d h5
        cases kvs2 with
        | nil => exact fun d hd => hkv d hd
        | cons m2 kvt =>
          intro d hd
          rw [show dumpsMembers ((k, v) :: m2 :: kvt)
              = '"' :: escapeStr k ++ '"' :: ':' :: ' ' :: dumps v
                ++ ',' :: ' ' :: dumpsMembers (m2 :: kvt) from rfl] at hd
          rcases List.mem_cons.mp hd with h | h
          · subst h; decide
          · rcases List.mem_append.mp h with h2 | h2
            · rcases List.mem_append.mp h2 with h3 | h3
              · exact escapeStr_no_newline k d h3
              · rcases List.mem_cons.mp h3 with h4 | h4
                · subst h4; decide
                · rcases List.mem_cons.mp h4 with h5 | h5
                  · subst h5; decide
                  · rcases List.mem_cons.mp h5 with h6 | h6
                    · subst h6; decide
                    · exact Nval v hszv d h6
            · rcases List.mem_cons.mp h2 with h3 | h3
              · subst h3; decide
              · rcases List.mem_cons.mp h3 with h4 | h4
                · subst h4; decide
                · refine Nmembers (m2 :: kvt) ?_ d h4
                  have h1 : sizeOf ((k, v) :: m2 :: kvt)
                      = 1 + (1 + sizeOf k + sizeOf v) + sizeOf (m2 :: kvt) := by simp
                  omega

theorem dumps_no_newline (v : Json) : ∀ d ∈ dumps v, ¬ d = '\n' :=
  (dumps_no_newline_all (sizeOf v)).1 v le_rfl

/-- The last character of a compact dump is never a space or a hyphen
(so no `" -->"` occurrence can straddle its right edge). -/
theorem dumps_getLast (v : Json) :
    ∀ c, (dumps v).getLast? = some c → ¬ c = ' ' ∧ ¬ c = '-' := by
  intro c hc
  cases v with
  | null =>
    rw [show (dumps Json.null).getLast? = some 'l' from by decide] at hc
    have hcl : c = 'l' := by simpa using hc.symm
    subst hcl
    exact ⟨by decide, by decide⟩
  | bool b =>
    cases b with
    | true =>
      rw [show (dumps (Json.bool true)).getLast? = some 'e' from by decide] at hc
      have hcl : c = 'e' := by simpa using hc.symm
      subst hcl
      exact ⟨by decide, by decide⟩
    | false =>
      rw [show (dumps (Json.bool false)).getLast? = some 'e' from by decide] at hc
      have hcl : c = 'e' := by simpa using hc.symm
      subst hcl
      exact ⟨by decide, by decide⟩
  | num m =>
    have hdig : c.isDigit = true := by
      revert hc
      rw [show dumps (.num m) = intToChars m from rfl]
      unfold intToChars
      split
      · intro hc
        obtain ⟨d0, ds', hds⟩ := List.exists_cons_of_ne_nil (natToDigits_ne_nil m.natAbs)
        rw [hds, List.getLast?_cons_cons] at hc
        have hmem : c ∈ d0 :: ds' := List.mem_of_mem_getLast? (by simp [Option.mem_def, hc])
        rw [← hds] at hmem
        exact natToDigits_all_digit _ c hmem
      · intro hc
        have hmem : c ∈ natToDigits m.toNat :=
          List.mem_of_mem_getLast? (by simp [Option.mem_def, hc])
        exact natToDigits_all_digit _ c hmem
    have hb := isDigit_toNat hdig
    refine ⟨toNat_ne ?_, toNat_ne ?_⟩
    · have e : (' ' : Char).toNat = 32 := rfl
      omega
    · have e : ('-' : Char).toNat = 45 := rfl
      omega
  | str s =>
    rw [show dumps (Json.str s) = ('"' :: escapeStr s) ++ ['"'] from rfl,
      List.getLast?_concat] at hc
    have hcl : c = '"' := by simpa using hc.symm
    subst hcl
    exact ⟨by decide, by decide⟩
  | arr xs =>
    rw [show dumps (Json.arr xs) = ('[' :: dumpsItems xs) ++ [']'] from rfl,
      List.getLast?_concat] at hc
    have hcl : c = ']' := by simpa using hc.symm
    subst hcl
    exact ⟨by decide, by decide⟩
  | obj kvs =>
    rw [show dumps (Json.obj kvs) = (lbChar :: dumpsMembers kvs) ++ [rbChar] from rfl,
      List.getLast?_concat] at hc
    have hcl : c = rbChar := by simpa using hc.symm
    subst hcl
    exact ⟨by decide, by decide⟩

/-- Elementary facts about every send-tool name: nonempty, all
non-whitespace, and free of the `<` marker character. -/
theorem sendTool_facts {tool : List Char} (h : tool ∈ SEND_TOOLS) :
    tool ≠ [] ∧ (∀ c ∈ tool, isPySpace c = false ∧ ¬ c = '<') := by
  simp only [SEND_TOOLS, List.mem_cons, List.not_mem_nil, or_false] at h
  rcases h with h | h | h | h | h | h | h | h <;> subst h <;> exact ⟨by decide, by decide⟩

/-- The `(\S+)` capture of the tool marker at the genuine occurrence:
the tool name is the maximal non-whitespace run and the closing `" -->"`
follows immediately. -/
theorem capToolAt_genuine {tool : List Char} (hne : tool ≠ [])
    (hws : ∀ c ∈ tool, isPySpace c = false) (t : List Char) :
    capToolAt (tool ++ (arrowEnd ++ t)) = some tool := by
  obtain ⟨htake, hdrop⟩ := takeWhile_append_all (p := fun c => !isPySpace c)
    (l := tool) (r := arrowEnd ++ t)
    (fun c hc => by simp [hws c hc])
    (fun c hc => by
      have hsp : c = ' ' := by
        rw [show (arrowEnd ++ t).head? = some ' ' from rfl] at hc
        simpa using hc.symm
      subst hsp
      decide)
  simp only [capToolAt, htake]
  rw [if_neg (by simp [List.isEmpty_iff, hne]), List.drop_left,
    isPrefixOf_append_self]
  simp

/-- The `(.+?)` shortest-match capture runs through the serialized input
exactly when no earlier `" -->"` occurrence exists and the input has no
raw newline. -/
theorem capInputsGo_exact :
    ∀ (D : List Char) (fuel : Nat) (acc : List Char) (T : List Char),
      D.length + 1 ≤ fuel →
      (∀ c ∈ D, ¬ c = '\n') →
      (∀ q, q < D.length → occAt arrowEnd (D ++ (arrowEnd ++ T)) q = false) →
      (acc ≠ [] ∨ D ≠ []) →
      capInputsGo fuel acc (D ++ (arrowEnd ++ T)) = some (acc.reverse ++ D) := by
  intro D
  induction D with
  | nil =>
    intro fuel acc T hf hnl hno hne
    cases fuel with
    | zero => omega
    | succ g =>
      have hacc : acc ≠ [] := by
        rcases hne with h | h
        · exact h
        · exact absurd rfl h
      simp only [List.nil_append, capInputsGo]
      rw [if_pos (by
        rw [isPrefixOf_append_self]
        simp [List.isEmpty_iff, hacc]), List.append_nil]
  | cons d D' ih =>
    intro fuel acc T hf hnl hno hne
    cases fuel with
    | zero => exact absurd hf (by simp)
    | succ g =>
      have hpre : arrowEnd.isPrefixOf ((d :: D') ++ (arrowEnd ++ T)) = false := by
        have h0 := hno 0 (by simp)
        rw [occAt, List.drop_zero] at h0
        exact h0
      have hcond : (!acc.isEmpty && arrowEnd.isPrefixOf ((d :: D') ++ (arrowEnd ++ T)))
          = false := by
        rw [hpre, Bool.and_false]
      simp only [capInputsGo, hcond]
      rw [if_neg (by simp)]
      simp only [List.cons_append]
      rw [if_neg (hnl d (by simp))]
      have hlen : D'.length + 1 ≤ g := by
        simp only [List.length_cons] at hf
        omega
      have hno2 : ∀ q, q < D'.length → occAt arrowEnd (D' ++ (arrowEnd ++ T)) q = false := by
        intro q hq
        have h2 : occAt arrowEnd (d :: (D' ++ (arrowEnd ++ T))) (q + 1) = false := by
          have := hno (q + 1) (by simp; omega)
          simpa [List.cons_append] using this
        rw [occAt_cons_succ] at h2
        exact h2
      rw [ih g (d :: acc) T hlen (fun c hc => hnl c (by simp [hc])) hno2
        (Or.inl (by simp))]
      simp [List.reverse_cons, List.append_assoc]

/-- The shortest-match capture at the genuine inputs occurrence yields
exactly the serialized input. -/
theorem capInputsAt_genuine {D : List Char} (T : List Char) (hne : D ≠ [])
    (hnl : ∀ c ∈ D, ¬ c = '\n')
    (hno : ∀ q, q < D.length → occAt arrowEnd (D ++ (arrowEnd ++ T)) q = false) :
    capInputsAt (D ++ (arrowEnd ++ T)) = some D := by
  unfold capInputsAt
  rw [capInputsGo_exact D _ [] T (by simp only [List.length_append]; omega) hnl hno
    (Or.inr hne)]
  simp

/-- Decomposition of the approval artifact around the tool marker. -/
theorem artifact_decomp (tool task : List Char) (input : Json) :
    approvalFileContent (draftDetails tool task input)
      = draftPrefix tool task input
        ++ (toolLit ++ (tool ++ (arrowEnd ++ ('\n' ::
            (inputsLit ++ (dumps input ++ (arrowEnd ++ ('\n' :: chars "\n")))))))) := by
  simp only [approvalFileContent, draftDetails, draftPrefix, List.append_assoc,
    List.cons_append, List.nil_append]

/-- Decomposition of the approval artifact around the inputs marker. -/
theorem artifact_decomp2 (tool task : List Char) (input : Json) :
    approvalFileContent (draftDetails tool task input)
      = (draftPrefix tool task input ++ (toolLit ++ (tool ++ (arrowEnd ++ ['\n']))))
        ++ (inputsLit ++ (dumps input ++ (arrowEnd ++ ('\n' :: chars "\n")))) := by
  simp only [approvalFileContent, draftDetails, draftPrefix, List.append_assoc,
    List.cons_append, List.nil_append]

/-- No `<!--` occurs in the artifact text before the tool marker, given
marker-free serialized input and task name. -/
theorem noOcc_draftPrefix {tool task : List Char} {input : Json}
    (htool : ∀ c ∈ tool, ¬ c = '<')
    (hD2 : hasInfixB (chars "<!--") (dumpsIndent2 input) = false)
    (htask : hasInfixB (chars "<!--") task = false) :
    NoOcc (chars "<!--") (draftPrefix tool task input) := by
  have hb : (chars "<!--") ≠ [] := by decide
  have h6 : NoOcc (chars "<!--") (task ++ chars "\n\n---\n\n") :=
    noOcc_append_headY hb (noOcc_of_hasInfixB hb htask)
      (noOcc_of_hasInfixB hb (by decide))
      (by
        intro j hj1 hj2
        rw [show (chars "\n\n---\n\n").head? = some '\n' from rfl]
        rw [show (chars "<!--").length = 4 from rfl] at hj2
        interval_cases j <;> decide)
  have h5 : NoOcc (chars "<!--")
      (chars "\n```\n\n**Original task:** " ++ (task ++ chars "\n\n---\n\n")) :=
    noOcc_append_lastX hb (noOcc_of_hasInfixB hb (by decide)) h6
      (by
        intro k hk
        rw [show (chars "\n```\n\n**Original task:** ").getLast? = some ' ' from by decide]
        rw [show (chars "<!--").length = 4 from rfl] at hk
        have hk3 : k < 3 := by omega
        interval_cases k <;> decide)
  have h4 : NoOcc (chars "<!--")
      (dumpsIndent2 input ++ (chars "\n```\n\n**Original task:** "
        ++ (task ++ chars "\n\n---\n\n"))) :=
    noOcc_append_headY hb (noOcc_of_hasInfixB hb hD2) h5
      (by
        intro j hj1 hj2
        rw [show (chars "\n```\n\n**Original task:** "
          ++ (task ++ chars "\n\n---\n\n")).head? = some '\n' from rfl]
        rw [show (chars "<!--").length = 4 from rfl] at hj2
        interval_cases j <;> decide)
  have h3 : NoOcc (chars "<!--")
      (chars "`\n\n**Inputs:**\n```json\n" ++ (dumpsIndent2 input
        ++ (chars "\n```\n\n**Original task:** " ++ (task ++ chars "\n\n---\n\n")))) :=
    noOcc_append_lastX hb (noOcc_of_hasInfixB hb (by decide)) h4
      (by
        intro k hk
        rw [show (chars "`\n\n**Inputs:**\n```json\n").getLast? = some '\n' from by decide]
        rw [show (chars "<!--").length = 4 from rfl] at hk
        have hk3 : k < 3 := by omega
        interval_cases k <;> decide)
  have h2 : NoOcc (chars "<!--")
      (tool ++ (chars "`\n\n**Inputs:**\n```json\n" ++ (dumpsIndent2 input
        ++ (chars "\n```\n\n**Original task:** " ++ (task ++ chars "\n\n---\n\n"))))) :=
    noOcc_append_headY hb
      (noOcc_of_no_head (show (chars "<!--")[0]? = some '<' from rfl) htool) h3
      (by
        intro j hj1 hj2
        rw [show (chars "`\n\n**Inputs:**\n```json\n" ++ (dumpsIndent2 input
          ++ (chars "\n```\n\n**Original task:** "
            ++ (task ++ chars "\n\n---\n\n")))).head? = some '`' from rfl]
        rw [show (chars "<!--").length = 4 from rfl] at hj2
        interval_cases j <;> decide)
  have h1 : NoOcc (chars "<!--")
      (chars "Cloud agent drafted action — Local must execute:\n\n**Tool:** `"
        ++ (tool ++ (chars "`\n\n**Inputs:**\n```json\n" ++ (dumpsIndent2 input
          ++ (chars "\n```\n\n**Original task:** " ++ (task ++ chars "\n\n---\n\n")))))) :=
    noOcc_append_lastX hb (noOcc_of_hasInfixB hb (by decide)) h2
      (by
        intro k hk
        rw [show (chars "Cloud agent drafted action — Local must execute:\n\n**Tool:** `").getLast?
          = some '`' from by decide]
        rw [show (chars "<!--").length = 4 from rfl] at hk
        have hk3 : k < 3 := by omega
        interval_cases k <;> decide)
  have h0 : NoOcc (chars "<!--")
      (chars "---\ntype: approval_request\nstatus: pending\n---\n\n"
        ++ (chars "Cloud agent drafted action — Local must execute:\n\n**Tool:** `"
        ++ (tool ++ (chars "`\n\n**Inputs:**\n```json\n" ++ (dumpsIndent2 input
          ++ (chars "\n```\n\n**Original task:** " ++ (task ++ chars "\n\n---\n\n"))))))) :=
    noOcc_append_headY hb (noOcc_of_hasInfixB hb (by decide)) h1
      (by
        intro j hj1 hj2
        rw [show (chars "Cloud agent drafted action — Local must execute:\n\n**Tool:** `"
          ++ (tool ++ (chars "`\n\n**Inputs:**\n```json\n" ++ (dumpsIndent2 input
            ++ (chars "\n```\n\n**Original task:** "
              ++ (task ++ chars "\n\n---\n\n")))))).head? = some 'C' from rfl]
        rw [show (chars "<!--").length = 4 from rfl] at hj2
        interval_cases j <;> decide)
  show NoOcc (chars "<!--") (draftPrefix tool task input)
  unfold draftPrefix
  exact h0

/-- `re.search` of the tool marker on the genuine artifact finds the
embedded tool name. -/
theorem searchTool_artifact {tool task : List Char} {input : Json}
    (htool : tool ∈ SEND_TOOLS)
    (hD2 : hasInfixB (chars "<!--") (dumpsIndent2 input) = false)
    (htask : hasInfixB (chars "<!--") task = false) :
    searchTool (approvalFileContent (draftDetails tool task input)) = some tool := by
  obtain ⟨htne, htf⟩ := sendTool_facts htool
  have hpre := noOcc_draftPrefix (fun c hc => (htf c hc).2) hD2 htask
  rw [artifact_decomp tool task input]
  have hocc : occAt toolLit
      (draftPrefix tool task input
        ++ (toolLit ++ (tool ++ (arrowEnd ++ ('\n' ::
            (inputsLit ++ (dumps input ++ (arrowEnd ++ ('\n' :: chars "\n")))))))))
      (draftPrefix tool task input).length = true := by
    have h := occAt_append_self toolLit (draftPrefix tool task input)
      (tool ++ (arrowEnd ++ ('\n' ::
        (inputsLit ++ (dumps input ++ (arrowEnd ++ ('\n' :: chars "\n")))))))
    rwa [List.append_assoc] at h
  have hbefore : NoOccBefore (draftPrefix tool task input).length toolLit
      (draftPrefix tool task input
        ++ (toolLit ++ (tool ++ (arrowEnd ++ ('\n' ::
            (inputsLit ++ (dumps input ++ (arrowEnd ++ ('\n' :: chars "\n")))))))))
      :=
    noOccBefore_append_headY (by decide) (noOcc_mono (by decide) hpre)
      (by
        intro j hj1 hj2
        rw [show (toolLit ++ (tool ++ (arrowEnd ++ ('\n' ::
          (inputsLit ++ (dumps input ++ (arrowEnd ++ ('\n' :: chars "\n")))))))).head?
          = some '<' from rfl]
        rw [show toolLit.length = 19 from rfl] at hj2
        interval_cases j <;> decide)
  obtain ⟨tl, htl⟩ := occPositions_head (by decide) hocc hbefore
  unfold searchTool
  rw [htl, List.findSome?_cons]
  have hdrop : (draftPrefix tool task input
      ++ (toolLit ++ (tool ++ (arrowEnd ++ ('\n' ::
          (inputsLit ++ (dumps input ++ (arrowEnd ++ ('\n' :: chars "\n")))))))) :
        List Char).drop ((draftPrefix tool task input).length + toolLit.length)
      = tool ++ (arrowEnd ++ ('\n' ::
          (inputsLit ++ (dumps input ++ (arrowEnd ++ ('\n' :: chars "\n")))))) := by
    rw [show (draftPrefix tool task input).length + toolLit.length
      = (draftPrefix tool task input ++ toolLit).length from by rw [List.length_append],
      ← List.append_assoc, List.drop_left]
  rw [hdrop, capToolAt_genuine htne (fun c hc => (htf c hc).1) _]

/-- The middle marker region (tool marker line) holds no occurrence of
the inputs marker: its only `<` heads the tool marker, which mismatches
the inputs literal at offset 14. -/
theorem noOcc_inputs_mid {tool : List Char} (htf : ∀ c ∈ tool, ¬ c = '<') :
    NoOcc inputsLit (toolLit ++ (tool ++ (arrowEnd ++ ['\n']))) := by
  intro p
  by_cases hp : p = 0
  · subst hp
    refine occAt_eq_false_of_mismatch (i := 14) (by decide) ?_
    rw [Nat.zero_add,
      getElem?_append_left' (by rw [show toolLit.length = 19 from rfl]; omega)]
    decide
  · cases hb : occAt inputsLit (toolLit ++ (tool ++ (arrowEnd ++ ['\n']))) p with
    | false => rfl
    | true =>
      exfalso
      have h0 := occAt_getElem? hb 0 (by decide)
      rw [Nat.add_zero, show inputsLit[0]? = some '<' from rfl] at h0
      by_cases hp19 : p < 19
      · rw [getElem?_append_left' (by rw [show toolLit.length = 19 from rfl]; omega)] at h0
        have hp1 : 1 ≤ p := by omega
        interval_cases p <;> exact absurd h0 (by decide)
      · rw [getElem?_append_right' (by rw [show toolLit.length = 19 from rfl]; omega)] at h0
        have hmem := mem_of_getElem? h0
        rcases List.mem_append.mp hmem with h | h
        · exact htf '<' h rfl
        · rcases List.mem_append.mp h with h2 | h2
          · exact absurd h2 (by decide)
          · exact absurd h2 (by decide)

/-- `re.search` of the inputs marker on the genuine artifact captures the
compact serialized input. -/
theorem searchInputs_artifact {tool task : List Char} {input : Json}
    (htool : tool ∈ SEND_TOOLS)
    (hD2 : hasInfixB (chars "<!--") (dumpsIndent2 input) = false)
    (htask : hasInfixB (chars "<!--") task = false)
    (harr : hasInfixB arrowEnd (dumps input) = false) :
    searchInputs (approvalFileContent (draftDetails tool task input))
      = some (dumps input) := by
  obtain ⟨htne, htf⟩ := sendTool_facts htool
  have hpre := noOcc_draftPrefix (fun c hc => (htf c hc).2) hD2 htask
  rw [artifact_decomp2 tool task input]
  have hA2 : NoOcc inputsLit
      (draftPrefix tool task input ++ (toolLit ++ (tool ++ (arrowEnd ++ ['\n'])))) :=
    noOcc_append_headY (by decide) (noOcc_mono (by decide) hpre)
      (noOcc_inputs_mid (fun c hc => (htf c hc).2))
      (by
        intro j hj1 hj2
        rw [show (toolLit ++ (tool ++ (arrowEnd ++ ['\n']))).head? = some '<' from rfl]
        rw [show inputsLit.length = 21 from rfl] at hj2
        interval_cases j <;> decide)
  have hocc : occAt inputsLit
      ((draftPrefix tool task input ++ (toolLit ++ (tool ++ (arrowEnd ++ ['\n']))))
        ++ (inputsLit ++ (dumps input ++ (arrowEnd ++ ('\n' :: chars "\n")))))
      (draftPrefix tool task input ++ (toolLit ++ (tool ++ (arrowEnd ++ ['\n'])))).length
      = true := by
    have h := occAt_append_self inputsLit
      (draftPrefix tool task input ++ (toolLit ++ (tool ++ (arrowEnd ++ ['\n']))))
      (dumps input ++ (arrowEnd ++ ('\n' :: chars "\n")))
    rwa [List.append_assoc] at h
  have hbefore : NoOccBefore
      (draftPrefix tool task input ++ (toolLit ++ (tool ++ (arrowEnd ++ ['\n'])))).length
      inputsLit
      ((draftPrefix tool task input ++ (toolLit ++ (tool ++ (arrowEnd ++ ['\n']))))
        ++ (inputsLit ++ (dumps input ++ (arrowEnd ++ ('\n' :: chars "\n"))))) :=
    noOccBefore_append_headY (by decide) hA2
      (by
        intro j hj1 hj2
        rw [show (inputsLit ++ (dumps input ++ (arrowEnd ++ ('\n' :: chars "\n")))).head?
          = some '<' from rfl]
        rw [show inputsLit.length = 21 from rfl] at hj2
        interval_cases j <;> decide)
  obtain ⟨tl, htl⟩ := occPositions_head (by decide) hocc hbefore
  unfold searchInputs
  rw [htl, List.findSome?_cons]
  have hdrop : ((draftPrefix tool task input ++ (toolLit ++ (tool ++ (arrowEnd ++ ['\n']))))
      ++ (inputsLit ++ (dumps input ++ (arrowEnd ++ ('\n' :: chars "\n")))) :
        List Char).drop
      ((draftPrefix tool task input ++ (toolLit ++ (tool ++ (arrowEnd ++ ['\n'])))).length
        + inputsLit.length)
      = dumps input ++ (arrowEnd ++ ('\n' :: chars "\n")) := by
    have hlen : (draftPrefix tool task input ++ (toolLit ++ (tool ++ (arrowEnd ++ ['\n'])))).length
        + inputsLit.length
      = ((draftPrefix tool task input ++ (toolLit ++ (tool ++ (arrowEnd ++ ['\n']))))
          ++ inputsLit).length := by
      simp only [List.length_append, List.length_cons, List.length_nil]
      try omega
    have hassoc : (draftPrefix tool task input ++ (toolLit ++ (tool ++ (arrowEnd ++ ['\n']))))
          ++ (inputsLit ++ (dumps input ++ (arrowEnd ++ ('\n' :: chars "\n"))))
        = ((draftPrefix tool task input ++ (toolLit ++ (tool ++ (arrowEnd ++ ['\n']))))
            ++ inputsLit) ++ (dumps input ++ (arrowEnd ++ ('\n' :: chars "\n"))) :=
      (List.append_assoc _ _ _).symm
    rw [hlen, hassoc, List.drop_left]
  obtain ⟨c0, cs0, hD⟩ := dumps_head input
  have hDne : dumps input ≠ [] := by rw [hD.1]; simp
  have hs : (dumps input).getLast?.isSome := by simp [List.getLast?_isSome, hDne]
  obtain ⟨cl, hcl⟩ := Option.isSome_iff_exists.mp hs
  have hlf := dumps_getLast input cl hcl
  have hno : ∀ q, q < (dumps input).length →
      occAt arrowEnd (dumps input ++ (arrowEnd ++ ('\n' :: chars "\n"))) q = false :=
    noOccBefore_append_lastX (by decide) (noOcc_of_hasInfixB (by decide) harr)
      (by
        intro k hk
        rw [hcl]
        rw [show arrowEnd.length = 4 from rfl] at hk
        have hk3 : k < 3 := by omega
        interval_cases k
        · rw [show arrowEnd[0]? = some ' ' from rfl]
          intro heq
          exact hlf.1 (by simpa using heq)
        · rw [show arrowEnd[1]? = some '-' from rfl]
          intro heq
          exact hlf.2 (by simpa using heq)
        · rw [show arrowEnd[2]? = some '-' from rfl]
          intro heq
          exact hlf.2 (by simpa using heq))
  rw [hdrop, capInputsAt_genuine _ hDne (dumps_no_newline input) hno]

/-- Re-parsing the genuine artifact recovers the original tool name and
input value. -/
theorem parseSendApproval_artifact {tool task : List Char} {input : Json}
    (htool : tool ∈ SEND_TOOLS)
    (hD2 : hasInfixB (chars "<!--") (dumpsIndent2 input) = false)
    (htask : hasInfixB (chars "<!--") task = false)
    (harr : hasInfixB arrowEnd (dumps input) = false) :
    parseSendApproval (approvalFileContent (draftDetails tool task input))
      = some (tool, input) := by
  unfold parseSendApproval
  rw [searchTool_artifact htool hD2 htask,
    searchInputs_artifact htool hD2 htask harr]
  show (match jsonLoads (dumps input) with
    | some v => some (tool, v)
    | none => none) = some (tool, input)
  rw [jsonLoads_dumps]

/-- C2 counterexample: `send_email` is a send-action tool, yet for the
input value `{"body": " -->"}` the artifact produced by the draft gate
does not re-parse to the original input — the shortest-match inputs
pattern stops at the `" -->"` inside the serialized JSON string, and
extraction fails entirely (the artifact falls back to manual review), so
the claimed round-trip does not hold for every input value. -/
theorem c2_counterexample :
    chars "send_email" ∈ SEND_TOOLS
    ∧ parseSendApproval (approvalFileContent (draftDetails (chars "send_email")
        (chars "t2c.md") (Json.obj [(chars "body", Json.str (chars " -->"))])))
      = none :=
  ⟨by decide, by rfl⟩

/-- C2 (amended): in restricted (cloud) mode, (a) a run never executes a
send-action skill — every executed pair's name is outside `SEND_TOOLS`;
(b) a requested send-action invocation (with an in-threshold amount if it
is a payment) is replaced by a `request_approval` that files the
`SEND_APPROVAL_` artifact embedding the tool name and serialized input,
marks the loop completed, and drops the rest of the turn; (c) provided
the serialized input and the task name contain no `"<!--"` and the
compact serialization contains no `" -->"`, re-parsing that artifact's
markers recovers exactly the original tool name and input value. -/
theorem c2_capability_containment (beh : List Char → Json → Json)
    (task : List Char) (resp : Nat → ModelResponse)
    (turn : Nat) (b : ToolBlock) (rest : List ToolBlock) (s : LoopState)
    (hmem : b.name ∈ SEND_TOOLS)
    (hpay : b.name = chars "post_payment" → ∃ a, amountOf b.input = some a ∧ a ≤ 500)
    (hD2 : hasInfixB (chars "<!--") (dumpsIndent2 b.input) = false)
    (htask : hasInfixB (chars "<!--") task = false)
    (harr : hasInfixB arrowEnd (dumps b.input) = false) :
    (∀ pr ∈ runExecuted (ralphRun true beh task resp), pr.1 ∉ SEND_TOOLS)
    ∧ processBlocks true beh task turn (b :: rest) s
        = .ok { executed := s.executed
                  ++ [(chars "request_approval",
                       approvalArgs (sendApprovalName task b.name)
                         (draftDetails b.name task b.input))]
                artifacts := s.artifacts
                  ++ [(sendApprovalName task b.name ++ chars ".md",
                       approvalFileContent (draftDetails b.name task b.input))]
                audit := s.audit ++ [⟨task, chars "cloud_draft_" ++ b.name, b.input,
                  okResult (chars "Approval requested: Pending_Approvals/"
                    ++ sendApprovalName task b.name ++ chars ".md"), turn⟩]
                completed := true }
    ∧ parseSendApproval (approvalFileContent (draftDetails b.name task b.input))
        = some (b.name, b.input) := by
  refine ⟨?_, ?_, parseSendApproval_artifact hmem hD2 htask harr⟩
  · intro pr hpr
    have hinv : SendInv (turnsState (goTurns true beh task resp MAX_TURNS 0 initLoopState)) :=
      sendInv_goTurns MAX_TURNS 0 (by intro pr2 hpr2; simp [initLoopState] at hpr2)
    unfold ralphRun at hpr
    cases hg : goTurns true beh task resp MAX_TURNS 0 initLoopState with
    | raised e s2 =>
      rw [hg] at hpr hinv
      exact hinv pr hpr
    | fin s2 lastT =>
      rw [hg] at hpr hinv
      simp only at hpr
      split at hpr
      · rw [callSkill_request_approval] at hpr
        simp only [runExecuted, List.mem_append, List.mem_singleton] at hpr
        rcases hpr with h | h
        · exact hinv pr h
        · subst h
          exact (by decide : chars "request_approval" ∉ SEND_TOOLS)
      · simp only [runExecuted] at hpr
        exact hinv pr hpr
  · rw [processBlocks_cons_break (stepBlock_draft_gate hmem hpay), draftGateState_eq]

/-- Witness for C2: a cloud turn drafting a concrete `send_email`; the
artifact is filed, the following `post_twitter` block is dropped, and the
markers re-parse to the original name and input. -/
theorem c2_capability_containment_witness :
    processBlocks true (fun _ _ => Json.null) (chars "t2.md") 0
      [⟨chars "send_email", Json.obj [(chars "to", Json.str (chars "a@b.c")),
        (chars "body", Json.str (chars "hi"))]⟩,
       ⟨chars "post_twitter", Json.obj []⟩] initLoopState
      = .ok { executed := [(chars "request_approval",
                approvalArgs (sendApprovalName (chars "t2.md") (chars "send_email"))
                  (draftDetails (chars "send_email") (chars "t2.md")
                    (Json.obj [(chars "to", Json.str (chars "a@b.c")),
                      (chars "body", Json.str (chars "hi"))])))]
              artifacts := [(sendApprovalName (chars "t2.md") (chars "send_email")
                  ++ chars ".md",
                approvalFileContent (draftDetails (chars "send_email") (chars "t2.md")
                  (Json.obj [(chars "to", Json.str (chars "a@b.c")),
                    (chars "body", Json.str (chars "hi"))])))]
              audit := [⟨chars "t2.md", chars "cloud_draft_" ++ chars "send_email",
                Json.obj [(chars "to", Json.str (chars "a@b.c")),
                  (chars "body", Json.str (chars "hi"))],
                okResult (chars "Approval requested: Pending_Approvals/"
                  ++ sendApprovalName (chars "t2.md") (chars "send_email")
                  ++ chars ".md"), 0⟩]
              completed := true }
    ∧ parseSendApproval (approvalFileContent (draftDetails (chars "send_email")
        (chars "t2.md") (Json.obj [(chars "to", Json.str (chars "a@b.c")),
          (chars "body", Json.str (chars "hi"))])))
      = some (chars "send_email",
          Json.obj [(chars "to", Json.str (chars "a@b.c")),
            (chars "body", Json.str (chars "hi"))]) := by
  have h := c2_capability_containment (fun _ _ => Json.null) (chars "t2.md")
    (fun _ => ⟨StopReason.endTurn, []⟩) 0
    ⟨chars "send_email", Json.obj [(chars "to", Json.str (chars "a@b.c")),
      (chars "body", Json.str (chars "hi"))]⟩
    [⟨chars "post_twitter", Json.obj []⟩] initLoopState
    (by decide) (by intro hc; exact absurd hc (by decide)) (by rfl) (by rfl) (by rfl)
  exact ⟨by simpa [initLoopState] using h.2.1, h.2.2⟩

/-! ## Claim C6 — turn-budget exhaustion resolves to Pending-Review -/

/-- C6: a run that used the whole `MAX_TURNS` budget without completing
files a `MAX_TURNS_` approval artifact describing the situation and moves
the task to Pending_Approvals — never to Done (and `run` has no path to
Rejected at all). -/
theorem c6_turn_budget (dO : Bool) (beh : List Char → Json → Json)
    (task : List Char) (resp : Nat → ModelResponse) (o : RunOut)
    (hok : ralphRun dO beh task resp = .ok o)
    (hnc : o.state.completed = false)
    (ht : o.turnsUsed = MAX_TURNS) :
    o.disposition = .pendingApprovals
    ∧ (chars "MAX_TURNS_" ++ replaceAll task (chars ".md") [] ++ chars ".md",
       approvalFileContent (maxTurnsDetails task)) ∈ o.state.artifacts
    ∧ o.disposition ≠ .done := by
  unfold ralphRun at hok
  cases hg : goTurns dO beh task resp MAX_TURNS 0 initLoopState with
  | raised e s2 =>
    rw [hg] at hok
    exact absurd hok (by simp)
  | fin s lastT =>
    rw [hg] at hok
    simp only at hok
    split at hok
    · rw [callSkill_request_approval] at hok
      injection hok with h
      subst h
      refine ⟨rfl, ?_, by simp⟩
      simp
    · rename_i hcond
      injection hok with h
      subst h
      exfalso
      apply hcond
      simp only at hnc ht
      exact ⟨by simp [hnc], by omega⟩

/-- Witness for C6: ten `tool_use` turns with no requested invocations. -/
theorem c6_turn_budget_witness :
    runDisposition (ralphRun false (fun _ _ => okResult []) (chars "t6.md")
      (fun _ => ⟨StopReason.toolUse, []⟩)) = some .pendingApprovals
    ∧ (chars "MAX_TURNS_" ++ replaceAll (chars "t6.md") (chars ".md") [] ++ chars ".md",
       approvalFileContent (maxTurnsDetails (chars "t6.md")))
      ∈ runArtifacts (ralphRun false (fun _ _ => okResult []) (chars "t6.md")
          (fun _ => ⟨StopReason.toolUse, []⟩)) := by
  cases hr : ralphRun false (fun _ _ => okResult []) (chars "t6.md")
      (fun _ => ⟨StopReason.toolUse, []⟩) with
  | raised e s =>
    have hfalse : runDisposition (ralphRun false (fun _ _ => okResult []) (chars "t6.md")
        (fun _ => ⟨StopReason.toolUse, []⟩)) = some Disposition.pendingApprovals := rfl
    rw [hr] at hfalse
    exact absurd hfalse (by simp [runDisposition])
  | ok o =>
    have hnc : o.state.completed = false := by
      have h1 : runCompleted (ralphRun false (fun _ _ => okResult []) (chars "t6.md")
          (fun _ => ⟨StopReason.toolUse, []⟩)) = some false := rfl
      rw [hr] at h1
      injection h1
    have ht : o.turnsUsed = MAX_TURNS := by
      have h1 : runTurnsUsed (ralphRun false (fun _ _ => okResult []) (chars "t6.md")
          (fun _ => ⟨StopReason.toolUse, []⟩)) = some MAX_TURNS := rfl
      rw [hr] at h1
      injection h1
    have h := c6_turn_budget false (fun _ _ => okResult []) (chars "t6.md")
      (fun _ => ⟨StopReason.toolUse, []⟩) o hr hnc ht
    refine ⟨by simp [runDisposition, h.1], ?_⟩
    simp only [runArtifacts]
    simpa [List.append_assoc] using h.2.1

/-! ## Claim C8 — explicit approval requests and turn completion -/

/-- C8 counterexample: in a turn requesting a successful
`request_approval` followed by `send_email` (privileged mode), the later
invocation is still executed — the early exit after a successful explicit
approval request is not immediate, contradicting the claim that no later
requested invocations in the same turn are processed. -/
theorem c8_counterexample :
    (chars "send_email", (Json.obj [] : Json)) ∈
      runExecuted (ralphRun false (fun _ _ => okResult []) (chars "t8.md")
        (fun t => if t = 0 then
          ⟨StopReason.toolUse,
           [⟨chars "request_approval", approvalArgs (chars "A8") (chars "details8")⟩,
            ⟨chars "send_email", Json.obj []⟩]⟩
          else ⟨StopReason.endTurn, []⟩)) := by
  have h : runExecuted (ralphRun false (fun _ _ => okResult []) (chars "t8.md")
      (fun t => if t = 0 then
        ⟨StopReason.toolUse,
         [⟨chars "request_approval", approvalArgs (chars "A8") (chars "details8")⟩,
          ⟨chars "send_email", Json.obj []⟩]⟩
        else ⟨StopReason.endTurn, []⟩))
      = [(chars "request_approval", approvalArgs (chars "A8") (chars "details8")),
         (chars "send_email", Json.obj [])] := rfl
  rw [h]
  simp

/-- C8 (amended): a successful explicit `request_approval` marks the loop
completed immediately after its result is recorded and no further *turn*
begins — but the remaining invocations of the same turn are still
processed (the code sets `completed` without breaking the block loop). -/
theorem c8_approval_completion (dO : Bool) (beh : List Char → Json → Json)
    (task : List Char) (turn : Nat) (n d : List Char)
    (rest : List ToolBlock) (s : LoopState)
    (resp : Nat → ModelResponse) (fuel t : Nat) :
    (∃ s2 : LoopState,
      stepBlock dO beh task turn ⟨chars "request_approval", approvalArgs n d⟩ s = .next s2
      ∧ s2.completed = true
      ∧ s2.executed = s.executed ++ [(chars "request_approval", approvalArgs n d)]
      ∧ s2.artifacts = s.artifacts ++ [(n ++ chars ".md", approvalFileContent d)]
      ∧ processBlocks dO beh task turn
          (⟨chars "request_approval", approvalArgs n d⟩ :: rest) s
          = processBlocks dO beh task turn rest s2)
    ∧ ((resp t).stop = .toolUse →
       ∀ s2, processBlocks dO beh task t (resp t).blocks s = .ok s2 →
       s2.completed = true →
       goTurns dO beh task resp (fuel + 1) t s = .fin s2 t) := by
  constructor
  · have hstep : stepBlock dO beh task turn ⟨chars "request_approval", approvalArgs n d⟩ s
        = draftOrExec dO beh task turn ⟨chars "request_approval", approvalArgs n d⟩ s := by
      unfold stepBlock
      rw [if_neg (by intro hc; simp only at hc; exact absurd hc (by decide))]
    have hdx : draftOrExec dO beh task turn ⟨chars "request_approval", approvalArgs n d⟩ s
        = .next (absorbCall s
            (callSkill dO beh (chars "request_approval") (approvalArgs n d))
            ⟨task, chars "request_approval", approvalArgs n d,
             (callSkill dO beh (chars "request_approval") (approvalArgs n d)).result, turn⟩
            (decide (s.completed = true
              ∨ (chars "request_approval" = chars "request_approval"
                 ∧ pyTruthy (jGet (callSkill dO beh (chars "request_approval")
                     (approvalArgs n d)).result (chars "ok")) = true)))) := by
      unfold draftOrExec
      rw [if_neg (by intro hc; have h2 := hc.2; simp only at h2; exact absurd h2 (by decide))]
    refine ⟨_, hstep.trans hdx, ?_, ?_, ?_, ?_⟩
    · show decide _ = true
      apply decide_eq_true
      right
      refine ⟨rfl, ?_⟩
      rw [callSkill_request_approval]
      try rfl
    · show s.executed ++ _ = _
      rw [callSkill_request_approval]
      try rfl
    · show s.artifacts ++ _ = _
      rw [callSkill_request_approval]
      try rfl
    · exact processBlocks_cons_next (hstep.trans hdx)
  · intro hstop s2 hpb hc
    unfold goTurns
    rw [hstop, hpb]
    simp only [hc, if_true]

/-- Witness for C8 (amended) at concrete arguments. -/
theorem c8_approval_completion_witness :
    ∃ s2 : LoopState,
      stepBlock false (fun _ _ => okResult []) (chars "w8.md") 0
        ⟨chars "request_approval", approvalArgs (chars "W") (chars "dw")⟩ initLoopState
        = .next s2
      ∧ s2.completed = true := by
  obtain ⟨⟨s2, h1, h2, _, _, _⟩, _⟩ := c8_approval_completion false
    (fun _ _ => okResult []) (chars "w8.md") 0 (chars "W") (chars "dw") []
    initLoopState (fun _ => ⟨StopReason.endTurn, []⟩) 0 0
  exact ⟨s2, h1, h2⟩

/-! ## Claim C3 — dispatcher capability filter -/

/-- C3 counterexample: at a concrete restricted-mode `send_email`
invocation the dispatcher does return the fixed error and executes
nothing, but it appends nothing to the audit log itself — `call_skill`
contains no logging call — so the claim's always-logged conjunct fails. -/
theorem c3_counterexample :
    ¬ ((callSkill true (fun _ _ => okResult []) (chars "send_email")
          (Json.obj [])).result
        = errResult (blockedMsg (chars "send_email"))
      ∧ (callSkill true (fun _ _ => okResult []) (chars "send_email")
          (Json.obj [])).executed = []
      ∧ (callSkill true (fun _ _ => okResult []) (chars "send_email")
          (Json.obj [])).audit ≠ []) := by
  intro h
  exact h.2.2 rfl

/-- C3 (amended): in restricted (cloud) mode, `call_skill` on any
send-action skill — which is exactly any registry skill outside the cloud
capability set — returns the fixed blocked-error result and executes
nothing; the dispatcher itself appends nothing to the Audit Sink (audit
records for dispatched invocations are written by the reasoning-loop
callers). -/
theorem c3_capability_filter (beh : List Char → Json → Json)
    (name : List Char) (input : Json) (hmem : name ∈ SEND_TOOLS) :
    (callSkill true beh name input).result = errResult (blockedMsg name)
    ∧ (callSkill true beh name input).executed = []
    ∧ (callSkill true beh name input).artifacts = []
    ∧ (callSkill true beh name input).audit = []
    ∧ (∀ n, n ∈ SKILL_REGISTRY → n ∉ CLOUD_SKILLS → n ∈ SEND_TOOLS) := by
  obtain ⟨h1, h2, h3, h4⟩ := callSkill_send_blocked beh input hmem
  exact ⟨h2, h1, h3, h4, by decide⟩

/-- Witness for C3 (amended) at `send_email`. -/
theorem c3_capability_filter_witness :
    (callSkill true (fun _ _ => okResult []) (chars "send_email")
      (Json.obj [(chars "to", Json.str (chars "x@y.z"))])).executed = [] :=
  (c3_capability_filter (fun _ _ => okResult []) (chars "send_email")
    (Json.obj [(chars "to", Json.str (chars "x@y.z"))]) (by decide)).2.1

/-! ## Claim C7 — a lost claim race is neither silent nor retried -/

/-- C7 counterexample: when the source path of a task no longer exists,
`_process_task` is not silent — it appends an `orchestrator_error` audit
record (with an `ok: false` payload), contradicting the claim that a lost
claim race is not logged as an error. -/
theorem c7_counterexample :
    ¬ ((processTask (chars "T7.md") (claimPhase false none) false false).2 = []) := by
  intro h
  exact absurd h (by decide)

/-- C7 (amended): when the source path no longer exists, the claim phase
of `run` raises `FileNotFoundError` (there is no silent-failure path); the
orchestrator catches it, logs exactly one `orchestrator_error` audit
record, and runs the retry/reject policy — which, with both candidate
paths absent, moves no file. -/
theorem c7_claim_race (name : List Char) (after : Option PyErr) (e : PyErr) :
    claimPhase false after = some PyErr.fileNotFound
    ∧ processTask name (some e) false false
        = (.failureHandled (.nothingMoved (onFailure name)), [orchErrorAction]) :=
  ⟨rfl, rfl⟩

/-! ## Claim C9 — tolerant audit-window read -/

/-- C9 counterexample: a line holding valid JSON that is not an object
(`[1]`) makes `read_last_n_days` raise — `rec["ts"]` on a list raises
`TypeError`, which the `except (JSONDecodeError, KeyError, ValueError)`
clause does not catch — so the read is not raise-free on arbitrary
content. -/
theorem c9_counterexample :
    readWindow 0 [chars "[1]"] = .error PyErr.typeError := rfl

/-- C9 (amended): on content none of whose lines hits the uncaught cases
(a decoded line that is not a JSON object, or whose `ts` value is not a
string, or whose timestamp is timezone-naive), the window read never
raises and returns exactly the decoded records whose timestamp parses
into the window — skipping blank lines, undecodable lines, and records
with missing or unparseable timestamps. -/
theorem c9_tolerant_window_read (cutoff : Int) (lines : List (List Char))
    (hb : ∀ line ∈ lines, ∀ e : PyErr, readLine cutoff line ≠ .raise e) :
    readWindow cutoff lines = .ok (readWindowSpec cutoff lines)
    ∧ (∀ line, pyStrip line = [] → readLine cutoff line = .skip)
    ∧ (∀ line, jsonLoads (pyStrip line) = none → readLine cutoff line = .skip)
    ∧ (∀ line kvs, jsonLoads (pyStrip line) = some (.obj kvs) →
        lookupLast kvs (chars "ts") = none → readLine cutoff line = .skip)
    ∧ (∀ line kvs ts, jsonLoads (pyStrip line) = some (.obj kvs) →
        lookupLast kvs (chars "ts") = some (.str ts) →
        isoParse (replaceAll ts (chars "Z") (chars "+00:00")) = none →
        readLine cutoff line = .skip) := by
  refine ⟨?_, ?_, ?_, ?_, ?_⟩
  · induction lines with
    | nil => rfl
    | cons line rest ih =>
      have hbr : ∀ l ∈ rest, ∀ e : PyErr, readLine cutoff l ≠ .raise e :=
        fun l hl => hb l (by simp [hl])
      unfold readWindow readWindowSpec
      cases hl : readLine cutoff line with
      | skip =>
        have := ih hbr
        unfold readWindowSpec at this
        simp only [List.filterMap_cons, hl]
        exact this
      | keep rec =>
        have := ih hbr
        unfold readWindowSpec at this
        simp only [List.filterMap_cons, hl, this]
      | raise e => exact absurd hl (hb line (by simp) e)
  · intro line h
    unfold readLine
    simp [h]
  · intro line h
    simp only [readLine]
    rw [h]
    split <;> rfl
  · intro line kvs h1 h2
    simp only [readLine, h1, h2]
    split <;> rfl
  · intro line kvs ts h1 h2 h3
    simp only [readLine, h1, h2, h3]
    split <;> rfl

/-- Witness for C9 (amended): blank, undecodable, out-of-window,
missing-timestamp and in-window lines. -/
theorem c9_tolerant_window_read_witness :
    readWindow 0
      [chars "  ", chars "not json",
       chars "\x7b\"ts\": \"2026-01-01T00:00:00Z\", \"action\": \"x\"\x7d",
       chars "\x7b\"a\": 1\x7d",
       chars "\x7b\"ts\": \"garbage\"\x7d"]
      = .ok [Json.obj [(chars "ts", Json.str (chars "2026-01-01T00:00:00Z")),
              (chars "action", Json.str (chars "x"))]] := by
  have h := c9_tolerant_window_read 0
    [chars "  ", chars "not json",
     chars "\x7b\"ts\": \"2026-01-01T00:00:00Z\", \"action\": \"x\"\x7d",
     chars "\x7b\"a\": 1\x7d",
     chars "\x7b\"ts\": \"garbage\"\x7d"]
    (by
      intro line hline e
      simp only [List.mem_cons, List.mem_singleton] at hline
      rcases hline with rfl | rfl | rfl | rfl | rfl | h
      · rw [show readLine 0 (chars "  ") = .skip from rfl]
        simp
      · rw [show readLine 0 (chars "not json") = .skip from rfl]
        simp
      · rw [show readLine 0 (chars "\x7b\"ts\": \"2026-01-01T00:00:00Z\", \"action\": \"x\"\x7d")
            = .keep (Json.obj [(chars "ts", Json.str (chars "2026-01-01T00:00:00Z")),
                (chars "action", Json.str (chars "x"))]) from rfl]
        simp
      · rw [show readLine 0 (chars "\x7b\"a\": 1\x7d") = .skip from rfl]
        simp
      · rw [show readLine 0 (chars "\x7b\"ts\": \"garbage\"\x7d") = .skip from rfl]
        simp
      · simp at h)
  rw [h.1]
  rfl
